import Mathlib

/-!
# A verification development for `measurer/job_measurer.go`

The Go package `measurer` runs a caller-supplied job `count` times on
`concurrency` workers and reduces the recorded per-invocation values to
per-metric statistics.  This file embeds the package in Lean and proves or
refutes properties of it.

Conventions of the embedding.

* `float64` values are read as exact rationals (`ℚ`): no rounding, no NaN, no
  infinities.  `math.Sqrt` is a library function and is passed in as `sqrt`.
  Where rounding decides a property, `calMetricStatisticFl` is the same code
  with the result of every float64 operation rounded by a function `fl`, and
  `roundFloat64` is the rounding of IEEE 754 binary64 (to nearest, ties to
  even).
* Go `int` is the 64-bit two's-complement integer: sums are wrapped by
  `wrapInt`.  `time.Duration` is an `int64` number of nanoseconds.
* A Go run-time panic is a value of `Fault`; functions that can panic return
  `Except Fault _`.
* Pointers to slots are modelled by writing the updated slot back to its place
  in the slot array.  Where aliasing decides a property,
  `calMetricStatisticHeap` is the same code on an explicit heap of arrays, with
  slots as addresses.
* Wall-clock readings are inputs (`Clock`): they are what `time.Since` returned.
* The goroutines launched by `Run` are executed one after the other in launch
  order.  Every loop body only reads and writes the entries of its own index,
  and `runBodies_order` shows that running the bodies in another order leaves
  the same state.
-/

namespace Measurer

/-! ## Machine integers and faults -/

/-- Two's-complement wrap of a mathematical integer into the range of Go's
64-bit `int`. -/
def wrapInt (x : Int) : Int := (x + 2 ^ 63) % 2 ^ 64 - 2 ^ 63

/-- Largest value of Go's 64-bit `int`. -/
def maxInt : Int := 2 ^ 63 - 1

/-- Ways in which the embedded code stops without a result. -/
inductive Fault where
  /-- Go run-time panic: index out of range. -/
  | indexOutOfRange
  /-- The caller's job panicked for a reason of its own. -/
  | jobPanic
  /-- The bounded unrolling of a Go loop was too short (never a Go behaviour). -/
  | outOfFuel
  deriving DecidableEq, Repr

/-- Read `l[i]` for a natural index, panicking when out of range. -/
def index {α : Type} (l : List α) (i : Nat) : Except Fault α :=
  match l[i]? with
  | some a => .ok a
  | none => .error .indexOutOfRange

/-- Read `l[k]` for an `int` index, panicking when negative or too large. -/
def indexInt {α : Type} (l : List α) (k : Int) : Except Fault α :=
  if k < 0 then .error .indexOutOfRange else index l k.toNat

/-- Write `l[i] = a` for a natural index, panicking when out of range. -/
def store {α : Type} (l : List α) (i : Nat) (a : α) : Except Fault (List α) :=
  if i < l.length then .ok (l.set i a) else .error .indexOutOfRange

/-- Write `l[k] = a` for an `int` index. -/
def storeInt {α : Type} (l : List α) (k : Int) (a : α) : Except Fault (List α) :=
  if k < 0 then .error .indexOutOfRange else store l k.toNat a

/-! ## Data model -/

/-- Go `type MetricStatistic struct`. -/
structure MetricStatistic where
  Name : String
  Total : ℚ
  TotalSeconds : ℚ
  Avg : ℚ
  Min : ℚ
  Max : ℚ
  Stdev : ℚ
  PerSec : ℚ
  P90 : ℚ
  P95 : ℚ
  deriving DecidableEq, Repr

/-- Go `type JobStatistic struct`; durations are nanoseconds. -/
structure JobStatistic where
  RunTime : Int
  TotalDuration : Int
  PerSeconds : ℚ
  Count : Int
  Concurrency : Int
  MetricStatistic : List MetricStatistic
  deriving DecidableEq, Repr

/-- Go `type JobMetric struct`. -/
structure JobMetric where
  values : List ℚ
  deriving DecidableEq, Repr

/-- Go `type JobMeasurer struct`. -/
structure JobMeasurer where
  jobDurations : List Int
  interMetricsName : List String
  interJobMetrics : List JobMetric
  outerJobMetrics : List JobMetric
  deriving DecidableEq, Repr

/-- Go `type Job func(num int, metric *JobMetric) error`: the job receives the
index and the slot, and yields the slot as it left it together with whether it
returned a non-nil error; it may also panic. -/
abbrev Job := Int → JobMetric → Except Fault (JobMetric × Bool)

/-- The clock readings of one run. -/
structure Clock where
  /-- Value drawn by `rand.Intn(500)`. -/
  waitN : Nat
  /-- Result of `time.Since(begin)` for the invocation of index `k`. -/
  elapsed : Int → Int
  /-- Result of `time.Since(start)` after the barrier. -/
  runTime : Int

/-- Modelled from the spec: the constant `MetricIndexLatency` is declared in a
file of the package that is not among the sources; the spec places
latency-seconds at index 0 of a built-in slot. -/
def MetricIndexLatency : Nat := 0

/-- Modelled from the spec: the constant `MetricIndexError` is declared in a
file of the package that is not among the sources; the spec places the
error-indicator at index 1 of a built-in slot. -/
def MetricIndexError : Nat := 1

/-- Modelled from the spec: the constant `MetricNameLatency` is declared in a
file of the package that is not among the sources; the spec calls the first
built-in metric latency. -/
def MetricNameLatency : String := "latency"

/-- Modelled from the spec: the constant `MetricNameError` is declared in a
file of the package that is not among the sources; the spec calls the second
built-in metric error. -/
def MetricNameError : String := "error"

/-- Go `Duration.Seconds`, read exactly. -/
def seconds (d : Int) : ℚ := (d : ℚ) / 1000000000

/-- Go `sort.Float64s`: ascending sort. -/
def sortFloat64s (xs : List ℚ) : List ℚ := xs.insertionSort (· ≤ ·)

/-! ## Slots -/

/-- Go `(*JobMetric).SortAscending`: sorts the slot in place and returns its
values. -/
def SortAscending (v : JobMetric) : JobMetric × List ℚ :=
  ({ values := sortFloat64s v.values }, sortFloat64s v.values)

/-- The loop of `SetMetricsValue`: `for i, v := range value { j.values[i] = v }`,
from position `i` on. -/
def setValuesFrom : Nat → List ℚ → List ℚ → Except Fault (List ℚ)
  | _, [], vals => .ok vals
  | i, v :: rest, vals =>
    match store vals i v with
    | .ok vals1 => setValuesFrom (i + 1) rest vals1
    | .error e => .error e

/-- Go `(*JobMetric).SetMetricsValue`. -/
def SetMetricsValue (j : JobMetric) (value : List ℚ) : Except Fault JobMetric :=
  match setValuesFrom 0 value j.values with
  | .ok vals => .ok { values := vals }
  | .error e => .error e

/-- Go `newJobMetric`. -/
def newJobMetric (metricsCount : Nat) : JobMetric :=
  { values := List.replicate metricsCount 0 }

/-- Go `NewJobMeasurer`. -/
def NewJobMeasurer : JobMeasurer :=
  { jobDurations := []
    interMetricsName := [MetricNameLatency, MetricNameError]
    interJobMetrics := []
    outerJobMetrics := [] }

/-! ## The worker loop -/

/-- The indices at which the loop `for k := n; k < count; k += concurrency`
enters its body, for at most `fuel` iterations.  An index outside the slot
arrays ends the loop after it is entered: the body panics there. -/
def workerIndices (count concurrency : Int) : Nat → Int → List Int
  | 0, _ => []
  | fuel + 1, k =>
    if k < count then
      if 0 ≤ k then k :: workerIndices count concurrency fuel (wrapInt (k + concurrency))
      else [k]
    else []

/-- The body of the worker loop at index `k` (lines 88 to 97). -/
def workerBody (job : Job) (clock : Clock) (m : JobMeasurer) (k : Int) :
    Except Fault JobMeasurer := do
  let slot ← indexInt m.outerJobMetrics k
  let (slot1, failed) ← job k slot
  let outer ← storeInt m.outerJobMetrics k slot1
  let durations ← storeInt m.jobDurations k (clock.elapsed k)
  let d ← indexInt durations k
  let inter ← indexInt m.interJobMetrics k
  let vals1 ← store inter.values MetricIndexLatency (seconds d)
  let vals2 ← store vals1 MetricIndexError (if failed then 1 else 0)
  let interAll ← storeInt m.interJobMetrics k { values := vals2 }
  pure { m with jobDurations := durations, interJobMetrics := interAll,
                outerJobMetrics := outer }

/-- The goroutine of worker `n`: `for k := n; k < count; k += concurrency`,
unrolled at most `fuel` times, started at `k`. -/
def workerLoop (job : Job) (clock : Clock) (count concurrency : Int) :
    Nat → Int → JobMeasurer → Except Fault JobMeasurer
  | 0, k, m => if k < count then .error .outOfFuel else .ok m
  | fuel + 1, k, m =>
    if k < count then
      match workerBody job clock m k with
      | .ok m1 => workerLoop job clock count concurrency fuel (wrapInt (k + concurrency)) m1
      | .error e => .error e
    else .ok m

/-- The launch loop `for i := 0; i < concurrency; i++ { go ... }(i)` followed by
`wg.Wait()`: the workers in `ns` run to completion one after the other. -/
def runWorkers (job : Job) (clock : Clock) (count concurrency : Int) :
    List Nat → JobMeasurer → Except Fault JobMeasurer
  | [], m => .ok m
  | n :: ns, m =>
    match workerLoop job clock count concurrency (count.toNat + 1) (n : Int) m with
    | .ok m1 => runWorkers job clock count concurrency ns m1
    | .error e => .error e

/-! ## Aggregation -/

/-- The local variables of the first loop of `calMetricStatistic`. -/
structure AggState where
  ret : MetricStatistic
  values : List ℚ
  itemCount : Nat
  deriving DecidableEq, Repr

/-- One iteration of `for k, v := range metric` (lines 130 to 145). -/
def aggStep (metricIndex : Nat) (st : AggState) (k : Nat) (v : JobMetric) :
    Except Fault AggState := do
  let x ← index v.values metricIndex
  let values ← store st.values st.itemCount x
  let r := st.ret
  let r1 : MetricStatistic :=
    if k = 0 then { r with Min := x, Max := x }
    else
      let r2 := if r.Min > x then { r with Min := x } else r
      if r2.Max < x then { r2 with Max := x } else r2
  pure { ret := { r1 with Total := r1.Total + x }, values := values,
         itemCount := st.itemCount + 1 }

/-- The loop `for k, v := range metric`, from position `k` on. -/
def aggLoop (metricIndex : Nat) : Nat → List JobMetric → AggState → Except Fault AggState
  | _, [], st => .ok st
  | k, v :: rest, st =>
    match aggStep metricIndex st k v with
    | .ok st1 => aggLoop metricIndex (k + 1) rest st1
    | .error e => .error e

/-- The loop `for _, v := range m.interJobMetrics` of lines 150 to 152. -/
def stdevLoop (metricIndex : Nat) (avg : ℚ) : List JobMetric → ℚ → Except Fault ℚ
  | [], acc => .ok acc
  | v :: rest, acc =>
    match index v.values metricIndex with
    | .ok x => stdevLoop metricIndex avg rest (acc + (x - avg) * (x - avg))
    | .error e => .error e

/-- Go `int(size * percent)` for `percent = num / den`, read exactly: the
truncation of a non-negative product, `0.9` being `9 / 10` and `0.95` being
`19 / 20`. -/
def percentileIndex (size num den : Nat) : Nat := size * num / den

/-- Go `(*JobMeasurer).calMetricStatistic`. -/
def calMetricStatistic (sqrt : ℚ → ℚ) (m : JobMeasurer) (metricIndex : Nat)
    (metricName : String) (totalSeconds : ℚ) (metric : List JobMetric) :
    Except Fault MetricStatistic := do
  let ret0 : MetricStatistic :=
    { Name := metricName, Total := 0, TotalSeconds := totalSeconds, Avg := 0, Min := 0,
      Max := 0, Stdev := 0, PerSec := 0, P90 := 0, P95 := 0 }
  let st ← aggLoop metricIndex 0 metric
    { ret := ret0, values := List.replicate metric.length 0, itemCount := 0 }
  let ret := st.ret
  if ret.Total = 0 ∨ st.itemCount = 0 then
    pure ret
  else
    let avg := ret.Total / (st.itemCount : ℚ)
    let acc ← stdevLoop metricIndex avg m.interJobMetrics 0
    let stdev := sqrt (acc / (st.itemCount : ℚ))
    let sorted := sortFloat64s st.values
    let p90 ← index sorted (percentileIndex metric.length 9 10)
    let p95 ← index sorted (percentileIndex metric.length 19 20)
    pure { ret with Avg := avg, Stdev := stdev, P90 := p90, P95 := p95 }

/-! ## The runner -/

/-- The loops of lines 112 to 117: one statistic per name, the position of the
name being the metric index. -/
def calAll (sqrt : ℚ → ℚ) (m : JobMeasurer) (totalSeconds : ℚ) (metric : List JobMetric) :
    Nat → List String → Except Fault (List MetricStatistic)
  | _, [] => .ok []
  | i, name :: rest =>
    match calMetricStatistic sqrt m i name totalSeconds metric with
    | .ok s =>
      match calAll sqrt m totalSeconds metric (i + 1) rest with
      | .ok ss => .ok (s :: ss)
      | .error e => .error e
    | .error e => .error e

/-- The loop `for _, v := range m.jobDurations { ret.TotalDuration += v }`. -/
def sumDurations : List Int → Int → Int
  | [], acc => acc
  | v :: rest, acc => sumDurations rest (wrapInt (acc + v))

/-- The zero value of `JobStatistic`. -/
def zeroJobStatistic : JobStatistic :=
  { RunTime := 0, TotalDuration := 0, PerSeconds := 0, Count := 0, Concurrency := 0,
    MetricStatistic := [] }

/-- Lines 73 to 79 of `Run`: fresh slot arrays of `count` entries, one built-in
slot and one caller slot per index. -/
def allocate (m : JobMeasurer) (count : Int) (metricsName : List String) : JobMeasurer :=
  { m with
    interJobMetrics := List.replicate count.toNat (newJobMetric m.interMetricsName.length)
    outerJobMetrics := List.replicate count.toNat (newJobMetric metricsName.length)
    jobDurations := List.replicate count.toNat 0 }

/-- Go `(*JobMeasurer).Run`.  The result carries the report and the measurer as
the call leaves it; `job = none` is the nil job.  A division by a run time of
zero seconds, `+Inf` in Go, is 0 in `ℚ`. -/
def Run (sqrt : ℚ → ℚ) (clock : Clock) (m : JobMeasurer) (count concurrency : Int)
    (metricsName : List String) (job : Option Job) :
    Except Fault (JobStatistic × JobMeasurer) :=
  match job with
  | none => .ok (zeroJobStatistic, m)
  | some job =>
    if count ≤ 0 ∨ concurrency ≤ 0 then .ok (zeroJobStatistic, m)
    else do
      let m0 := allocate m count metricsName
      let m1 ← runWorkers job clock count concurrency (List.range concurrency.toNat) m0
      let total := sumDurations m1.jobDurations 0
      let perSeconds : ℚ := if total > 0 then (count : ℚ) / seconds clock.runTime else 0
      let inner ← calAll sqrt m1 (seconds clock.runTime) m1.interJobMetrics 0
        m1.interMetricsName
      let outer ← calAll sqrt m1 (seconds clock.runTime) m1.outerJobMetrics 0 metricsName
      pure ({ RunTime := clock.runTime, TotalDuration := total, PerSeconds := perSeconds,
              Count := count, Concurrency := concurrency,
              MetricStatistic := inner ++ outer }, m1)

/-! ## Statements about the code -/

/-- The indices visited by the loop of worker `n` in a run of `Run`, where
the loop is unrolled `count + 1` times. -/
def visited (count concurrency : Int) (n : Nat) : List Int :=
  workerIndices count concurrency (count.toNat + 1) (n : Int)

/-- The index lists of the workers `0 ≤ n < concurrency` are pairwise disjoint,
their union is `[0, count)`, and no worker visits an index twice. -/
def StridePartition (count concurrency : Int) : Prop :=
  (∀ n n1 : Nat, (n : Int) < concurrency → (n1 : Int) < concurrency → n ≠ n1 →
      ∀ k, k ∈ visited count concurrency n → k ∉ visited count concurrency n1) ∧
  (∀ k : Int, (∃ n : Nat, (n : Int) < concurrency ∧ k ∈ visited count concurrency n) ↔
      (0 ≤ k ∧ k < count)) ∧
  (∀ n : Nat, (n : Int) < concurrency → (visited count concurrency n).Nodup)

/-- Running the loop body over a list of indices, in order. -/
def runBodies (job : Job) (clock : Clock) : List Int → JobMeasurer → Except Fault JobMeasurer
  | [], m => .ok m
  | k :: ks, m =>
    match workerBody job clock m k with
    | .ok m1 => runBodies job clock ks m1
    | .error e => .error e

/-- The values of metric `metricIndex` over a slot set, slot by slot. -/
def column (metricIndex : Nat) (metric : List JobMetric) : List ℚ :=
  metric.map (fun v => v.values.getD metricIndex 0)

/-- Every slot of the set carries a value at `metricIndex`. -/
def InRange (metricIndex : Nat) (metric : List JobMetric) : Prop :=
  ∀ v ∈ metric, metricIndex < v.values.length

/-- Smallest element, the first element being the start value; 0 when empty. -/
def listMin : List ℚ → ℚ
  | [] => 0
  | x :: rest => rest.foldl min x

/-- Largest element, the first element being the start value; 0 when empty. -/
def listMax : List ℚ → ℚ
  | [] => 0
  | x :: rest => rest.foldl max x

/-- Writing `xs` into `vals` from position `i` on, one entry after the other. -/
def fill (vals : List ℚ) : Nat → List ℚ → List ℚ
  | _, [] => vals
  | i, x :: xs => fill (vals.set i x) (i + 1) xs

/-- Sum of squared deviations of `ys` from `avg`. -/
def sqDev (avg : ℚ) (ys : List ℚ) : ℚ := (ys.map (fun y => (y - avg) * (y - avg))).sum

/-- The statistic of a metric whose values over the aggregated slot set are `xs`
and whose values over the built-in slot set of the measurer are `ys`, in closed
form. -/
def statOf (sqrt : ℚ → ℚ) (name : String) (secs : ℚ) (xs ys : List ℚ) : MetricStatistic :=
  if xs.sum = 0 ∨ xs.length = 0 then
    { Name := name, Total := xs.sum, TotalSeconds := secs, Avg := 0, Min := listMin xs,
      Max := listMax xs, Stdev := 0, PerSec := 0, P90 := 0, P95 := 0 }
  else
    { Name := name, Total := xs.sum, TotalSeconds := secs,
      Avg := xs.sum / (xs.length : ℚ), Min := listMin xs, Max := listMax xs,
      Stdev := sqrt (sqDev (xs.sum / (xs.length : ℚ)) ys / (xs.length : ℚ)),
      PerSec := 0,
      P90 := (sortFloat64s xs).getD (percentileIndex xs.length 9 10) 0,
      P95 := (sortFloat64s xs).getD (percentileIndex xs.length 19 20) 0 }

deriving instance DecidableEq for Except

/-- All eight numeric result fields of a statistic are zero. -/
def ZeroFilled (s : MetricStatistic) : Prop :=
  s.Total = 0 ∧ s.Avg = 0 ∧ s.Min = 0 ∧ s.Max = 0 ∧ s.Stdev = 0 ∧ s.PerSec = 0 ∧
    s.P90 = 0 ∧ s.P95 = 0

/-- Ten slots of one metric, with the values 1 to 10 in ascending order. -/
def tenSlots : List JobMetric :=
  [⟨[1]⟩, ⟨[2]⟩, ⟨[3]⟩, ⟨[4]⟩, ⟨[5]⟩, ⟨[6]⟩, ⟨[7]⟩, ⟨[8]⟩, ⟨[9]⟩, ⟨[10]⟩]

/-- Two slots of one metric whose values cancel. -/
def cancelSlots : List JobMetric := [⟨[-1]⟩, ⟨[1]⟩]

/-- The population variance of `xs`: the mean of the squared deviations from the
mean (the square of the standard deviation the spec asks for). -/
def populationVariance (xs : List ℚ) : ℚ :=
  sqDev (xs.sum / (xs.length : ℚ)) xs / (xs.length : ℚ)

/-- A clock under which every invocation takes one second and the run two. -/
def clockOneSecond : Clock :=
  { waitN := 0, elapsed := fun _ => 1000000000, runTime := 2000000000 }

/-- A job that succeeds and sets its single metric to `4 * k + 2`. -/
def jobLinear : Job := fun k slot =>
  match SetMetricsValue slot [4 * (k : ℚ) + 2] with
  | .ok s => .ok (s, false)
  | .error e => .error e

/-- A job that succeeds and sets its single metric to 5. -/
def jobFive : Job := fun _ slot =>
  match SetMetricsValue slot [5] with
  | .ok s => .ok (s, false)
  | .error e => .error e

/-- A job that succeeds and sets its three metrics to 1. -/
def jobThree : Job := fun _ slot =>
  match SetMetricsValue slot [1, 1, 1] with
  | .ok s => .ok (s, false)
  | .error e => .error e

/-- A job that panics whenever it is invoked. -/
def jobPanics : Job := fun _ _ => .error .jobPanic

/-- The values a built-in slot of length `len` holds after the loop body has
run: latency seconds at index 0, error indicator at index 1. -/
def builtinValues (len : Nat) (secs : ℚ) (failed : Bool) : List ℚ :=
  ((List.replicate len 0).set MetricIndexLatency secs).set MetricIndexError
    (if failed then 1 else 0)

/-- The state of the slot arrays when exactly the indices in `D` have been
processed, in a run with `n` indices, `len` built-in metrics and `p` caller
metrics. -/
def Processed (job : Job) (clock : Clock) (n len p : Nat) (D : Int → Prop)
    (m : JobMeasurer) : Prop :=
  m.interMetricsName.length = len ∧
  m.jobDurations.length = n ∧ m.interJobMetrics.length = n ∧ m.outerJobMetrics.length = n ∧
  ∀ k : Nat, k < n →
    (D k → ∃ slot failed, job k (newJobMetric p) = .ok (slot, failed) ∧
        m.outerJobMetrics[k]? = some slot ∧
        m.jobDurations[k]? = some (clock.elapsed k) ∧
        m.interJobMetrics[k]? = some ⟨builtinValues len (seconds (clock.elapsed k)) failed⟩ ∧
        1 < len) ∧
    (¬ D k → m.outerJobMetrics[k]? = some (newJobMetric p) ∧
        m.jobDurations[k]? = some 0 ∧
        m.interJobMetrics[k]? = some (newJobMetric len))

/-- The indices processed once the workers before `w` have finished and worker
`w` has reached index `k`. -/
def doneBefore (c : Int) (w : Nat) (k : Int) : Int → Prop :=
  fun j => j % c < w ∨ (j % c = w ∧ j < k)

/-- Whether the invocation of index `k` returns an error, the job being handed a
fresh caller slot of `p` values. -/
def jobFailed (job : Job) (p : Nat) (k : Nat) : Bool :=
  match job (k : Int) (newJobMetric p) with
  | .ok (_, failed) => failed
  | .error _ => false

/-- The number of indices below `n` whose invocation returns an error. -/
def failures (job : Job) (p n : Nat) : Nat :=
  ((List.range n).filter (jobFailed job p)).length

/-- A job that succeeds and leaves its slot as it found it. -/
def jobSucceeds : Job := fun _ slot => .ok (slot, false)

/-- A job that fails and leaves its slot as it found it. -/
def jobFails : Job := fun _ slot => .ok (slot, true)

/-- The job returns on a fresh caller slot at every index below `count` and
leaves the slot with its `p` values in place. -/
def JobReturns (job : Job) (count : Int) (p : Nat) : Prop :=
  ∀ k : Nat, (k : Int) < count → ∃ slot failed,
    job (k : Int) (newJobMetric p) = .ok (slot, failed) ∧ slot.values.length = p

/-- The order in which `runWorkers` processes the indices: worker after worker,
each worker in loop order. -/
def launchOrder (count concurrency : Int) : List Int :=
  (List.range concurrency.toNat).flatMap (visited count concurrency)

/-- The rate that `MetricStatistic.Print` prints as `PerSec` (lines 172 to 174):
`m.Total / m.TotalSeconds`, printed only when `m.TotalSeconds > 0`. -/
def printedPerSec (s : MetricStatistic) : Option ℚ :=
  if s.TotalSeconds > 0 then some (s.Total / s.TotalSeconds) else none

/-- One slot of one metric, with the value 3. -/
def oneSlot : List JobMetric := [⟨[3]⟩]

/-- A job that fails at index 0 and succeeds elsewhere. -/
def jobFailsFirst : Job := fun k slot => .ok (slot, decide (k = 0))

/-- A clock under which the invocation of index 0 takes ten seconds, every other
one second, and the run eleven. -/
def clockSlowFirst : Clock :=
  { waitN := 0
    elapsed := fun k => if k = 0 then 10000000000 else 1000000000
    runTime := 11000000000 }

/-- The sum of the measured durations of the indices below `n`, in
nanoseconds, as a mathematical integer. -/
def totalElapsed (clock : Clock) (n : Nat) : Int :=
  ((List.range n).map (fun k : Nat => clock.elapsed (k : Int))).sum

/-- A clock under which no invocation takes measurable time and the run takes
one second. -/
def clockInstant : Clock := { waitN := 0, elapsed := fun _ => 0, runTime := 1000000000 }

/-- A clock under which every invocation takes `10 ^ 13` nanoseconds (2 hours,
46 minutes and 40 seconds) and the run as long. -/
def clockLong : Clock :=
  { waitN := 0, elapsed := fun _ => 10000000000000, runTime := 10000000000000 }

/-- Every worker `n` below `concurrency` visits `ceil((count - n) / concurrency)`
indices when `n < count` and none otherwise, in strictly increasing order, and
the numbers of indices of two workers differ by at most 1. -/
def StrideCounts (count concurrency : Int) : Prop :=
  (∀ n : Nat, (n : Int) < concurrency →
    ((visited count concurrency n).length : Int)
      = (if (n : Int) < count then ⌈((count - n : Int) : ℚ) / (concurrency : ℚ)⌉ else 0) ∧
    (visited count concurrency n).Pairwise (· < ·)) ∧
  ∀ n n1 : Nat, (n : Int) < concurrency → (n1 : Int) < concurrency →
    (visited count concurrency n).length ≤ (visited count concurrency n1).length + 1

/-! ## The aggregation on a heap -/

/-- The heap of float arrays: entry `a` is the backing array of the `values` of
the slot at address `a`, or a local array. -/
abbrev Heap := List (List ℚ)

/-- Read `heap[a][i]`. -/
def heapRead (h : Heap) (a i : Nat) : Except Fault ℚ :=
  match h[a]? with
  | some arr => index arr i
  | none => .error .indexOutOfRange

/-- Write `heap[a][i] = x`. -/
def heapWrite (h : Heap) (a i : Nat) (x : ℚ) : Except Fault Heap :=
  match h[a]? with
  | some arr =>
    match store arr i x with
    | .ok arr1 => .ok (h.set a arr1)
    | .error e => .error e
  | none => .error .indexOutOfRange

/-- Go `make([]float64, n)`: a fresh zeroed array at the next free address. -/
def heapAlloc (h : Heap) (n : Nat) : Nat × Heap :=
  (h.length, h ++ [List.replicate n 0])

/-- Go `sort.Float64s` on the array at address `a`, in place. -/
def heapSort (h : Heap) (a : Nat) : Except Fault Heap :=
  match h[a]? with
  | some arr => .ok (h.set a (sortFloat64s arr))
  | none => .error .indexOutOfRange

/-- The locals `ret` and `itemCount` of the first loop of `calMetricStatistic`
together with the heap; the local `values` is an address. -/
structure AggStateHeap where
  ret : MetricStatistic
  itemCount : Nat
  heap : Heap
  deriving DecidableEq, Repr

/-- One iteration of `for k, v := range metric` on the heap: `v` is the address
of the slot and `values` the address of the local array. -/
def aggStepHeap (metricIndex values : Nat) (st : AggStateHeap) (k : Nat) (v : Nat) :
    Except Fault AggStateHeap := do
  let x ← heapRead st.heap v metricIndex
  let heap ← heapWrite st.heap values st.itemCount x
  let r := st.ret
  let r1 : MetricStatistic :=
    if k = 0 then { r with Min := x, Max := x }
    else
      let r2 := if r.Min > x then { r with Min := x } else r
      if r2.Max < x then { r2 with Max := x } else r2
  pure { ret := { r1 with Total := r1.Total + x }, itemCount := st.itemCount + 1,
         heap := heap }

/-- The loop `for k, v := range metric` on the heap, from position `k` on. -/
def aggLoopHeap (metricIndex values : Nat) :
    Nat → List Nat → AggStateHeap → Except Fault AggStateHeap
  | _, [], st => .ok st
  | k, v :: rest, st =>
    match aggStepHeap metricIndex values st k v with
    | .ok st1 => aggLoopHeap metricIndex values (k + 1) rest st1
    | .error e => .error e

/-- The loop `for _, v := range m.interJobMetrics` on the heap. -/
def stdevLoopHeap (metricIndex : Nat) (avg : ℚ) (h : Heap) : List Nat → ℚ → Except Fault ℚ
  | [], acc => .ok acc
  | v :: rest, acc =>
    match heapRead h v metricIndex with
    | .ok x => stdevLoopHeap metricIndex avg h rest (acc + (x - avg) * (x - avg))
    | .error e => .error e

/-- Go `calMetricStatistic` with its memory effects: `inter` holds the addresses
of `m.interJobMetrics`, `metric` the addresses of the slots of `metric`, and the
result carries the heap as the call leaves it. -/
def calMetricStatisticHeap (sqrt : ℚ → ℚ) (inter : List Nat) (metricIndex : Nat)
    (metricName : String) (totalSeconds : ℚ) (metric : List Nat) (h : Heap) :
    Except Fault (MetricStatistic × Heap) := do
  let ret0 : MetricStatistic :=
    { Name := metricName, Total := 0, TotalSeconds := totalSeconds, Avg := 0, Min := 0,
      Max := 0, Stdev := 0, PerSec := 0, P90 := 0, P95 := 0 }
  let (values, h0) := heapAlloc h metric.length
  let st ← aggLoopHeap metricIndex values 0 metric { ret := ret0, itemCount := 0, heap := h0 }
  let ret := st.ret
  if ret.Total = 0 ∨ st.itemCount = 0 then
    pure (ret, st.heap)
  else
    let avg := ret.Total / (st.itemCount : ℚ)
    let acc ← stdevLoopHeap metricIndex avg st.heap inter 0
    let stdev := sqrt (acc / (st.itemCount : ℚ))
    let h1 ← heapSort st.heap values
    let p90 ← heapRead h1 values (percentileIndex metric.length 9 10)
    let p95 ← heapRead h1 values (percentileIndex metric.length 19 20)
    pure ({ ret with Avg := avg, Stdev := stdev, P90 := p90, P95 := p95 }, h1)

/-- The slots at the addresses `addrs`, read off the heap. -/
def slotsAt (h : Heap) (addrs : List Nat) : List JobMetric :=
  addrs.map (fun a => ⟨h.getD a []⟩)

/-- A measurer whose built-in slots are the ones at the addresses `inter`. -/
def measurerAt (h : Heap) (inter : List Nat) : JobMeasurer :=
  { jobDurations := [], interMetricsName := [], interJobMetrics := slotsAt h inter,
    outerJobMetrics := [] }

/-- How the heap state of the first loop corresponds to the state of `aggLoop`:
the heap is the heap before the call followed by the local array. -/
def liftAgg (h : Heap) (r : Except Fault AggState) : Except Fault AggStateHeap :=
  match r with
  | .ok st => .ok { ret := st.ret, itemCount := st.itemCount, heap := h ++ [st.values] }
  | .error e => .error e

/-- A heap of three built-in slots, none in sorted order: latencies 3, 1, 2. -/
def heapThree : Heap := [[3, 0], [1, 0], [2, 1]]

/-! ## The aggregation in float64 arithmetic -/

/-- The power `2 ^ e` of two for an integer exponent. -/
def pow2 (e : Int) : ℚ :=
  if 0 ≤ e then ((2 ^ e.toNat : Nat) : ℚ) else 1 / ((2 ^ (-e).toNat : Nat) : ℚ)

/-- The integer nearest to `q`, the even one of the two when `q` lies halfway. -/
def roundHalfEven (q : ℚ) : Int :=
  let f := Rat.floor q
  let r := q - (f : ℚ)
  if r < 1 / 2 then f
  else if 1 / 2 < r then f + 1
  else if f % 2 = 0 then f else f + 1

/-- The position of the highest set bit of `n`, by halving at most `fuel` times. -/
def log2Loop : Nat → Nat → Nat
  | 0, _ => 0
  | fuel + 1, n => if n < 2 then 0 else log2Loop fuel (n / 2) + 1

/-- The `e` with `2 ^ e ≤ n < 2 ^ (e + 1)` for `n > 0`; 0 for `n = 0`. -/
def log2 (n : Nat) : Nat := log2Loop n n

/-- The binary exponent of `x ≠ 0`: the `e` with `2 ^ e ≤ |x| < 2 ^ (e + 1)`. -/
def exponentOf (x : ℚ) : Int :=
  let e0 : Int := (log2 x.num.natAbs : Int) - (log2 x.den : Int)
  if pow2 e0 ≤ |x| then e0 else e0 - 1

/-- The float64 nearest to the real `x`, as IEEE 754 rounds the result of an
operation (round to nearest, ties to even): `x` is rounded to a multiple of the
spacing `2 ^ (e - 52)` of the float64 values of its binade, `e` being its binary
exponent and at least `-1022` (below that the spacing is that of the subnormal
values).  A result of magnitude `2 ^ 1024` or more, which float64 replaces by an
infinity, is left finite here. -/
def roundFloat64 (x : ℚ) : ℚ :=
  if x = 0 then 0
  else
    let e := max (exponentOf x) (-1022)
    let ulp := pow2 (e - 52)
    (roundHalfEven (x / ulp) : ℚ) * ulp

/-- Go `int(x)` for a float64 `x`: the fraction is discarded (truncation towards
zero). -/
def truncInt (x : ℚ) : Int := if 0 ≤ x then Rat.floor x else -Rat.floor (-x)

/-- The locals of the first loop of `calMetricStatistic`, `itemCount` being the
float64 that it is in the source. -/
structure AggStateFl where
  ret : MetricStatistic
  values : List ℚ
  itemCount : ℚ
  deriving DecidableEq, Repr

/-- One iteration of `for k, v := range metric` (lines 130 to 145), every float64
sum rounded by `fl`. -/
def aggStepFl (fl : ℚ → ℚ) (metricIndex : Nat) (st : AggStateFl) (k : Nat) (v : JobMetric) :
    Except Fault AggStateFl := do
  let x ← index v.values metricIndex
  let values ← storeInt st.values (truncInt st.itemCount) x
  let itemCount := fl (st.itemCount + 1)
  let r := st.ret
  let r1 : MetricStatistic :=
    if k = 0 then { r with Min := x, Max := x }
    else
      let r2 := if r.Min > x then { r with Min := x } else r
      if r2.Max < x then { r2 with Max := x } else r2
  pure { ret := { r1 with Total := fl (r1.Total + x) }, values := values,
         itemCount := itemCount }

/-- The loop `for k, v := range metric` with rounding, from position `k` on. -/
def aggLoopFl (fl : ℚ → ℚ) (metricIndex : Nat) :
    Nat → List JobMetric → AggStateFl → Except Fault AggStateFl
  | _, [], st => .ok st
  | k, v :: rest, st =>
    match aggStepFl fl metricIndex st k v with
    | .ok st1 => aggLoopFl fl metricIndex (k + 1) rest st1
    | .error e => .error e

/-- The loop `for _, v := range m.interJobMetrics` of lines 150 to 152 with
rounding: the two differences, their product and the sum are rounded one by one
(no fused multiply-add). -/
def stdevLoopFl (fl : ℚ → ℚ) (metricIndex : Nat) (avg : ℚ) :
    List JobMetric → ℚ → Except Fault ℚ
  | [], acc => .ok acc
  | v :: rest, acc =>
    match index v.values metricIndex with
    | .ok x => stdevLoopFl fl metricIndex avg rest (fl (acc + fl (fl (x - avg) * fl (x - avg))))
    | .error e => .error e

/-- Go `(*JobMeasurer).calMetricStatistic` in floating-point arithmetic: the
result of every float64 operation, conversion and constant is rounded by `fl`.
With `fl := roundFloat64` this is the arithmetic of the Go program on finite
values; with `fl := id` it is `calMetricStatistic`, the exact reading. `sqrt`
stands for `math.Sqrt`. -/
def calMetricStatisticFl (fl sqrt : ℚ → ℚ) (m : JobMeasurer) (metricIndex : Nat)
    (metricName : String) (totalSeconds : ℚ) (metric : List JobMetric) :
    Except Fault MetricStatistic := do
  let ret0 : MetricStatistic :=
    { Name := metricName, Total := 0, TotalSeconds := totalSeconds, Avg := 0, Min := 0,
      Max := 0, Stdev := 0, PerSec := 0, P90 := 0, P95 := 0 }
  let st ← aggLoopFl fl metricIndex 0 metric
    { ret := ret0, values := List.replicate metric.length 0, itemCount := 0 }
  let ret := st.ret
  if ret.Total = 0 ∨ st.itemCount = 0 then
    pure ret
  else
    let avg := fl (ret.Total / st.itemCount)
    let acc ← stdevLoopFl fl metricIndex avg m.interJobMetrics 0
    let stdev := sqrt (fl (acc / st.itemCount))
    let sorted := sortFloat64s st.values
    let size := fl (metric.length : ℚ)
    let p90 ← indexInt sorted (truncInt (fl (size * fl (9 / 10))))
    let p95 ← indexInt sorted (truncInt (fl (size * fl (19 / 20))))
    pure { ret with Avg := avg, Stdev := stdev, P90 := p90, P95 := p95 }

/-- The float64 nearest to 0.1, which is what the Go literal `0.1` denotes. -/
def tenth : ℚ := 3602879701896397 / 36028797018963968

/-- Three slots of one metric, each holding the float64 `0.1`. -/
def tenthSlots : List JobMetric := [⟨[tenth]⟩, ⟨[tenth]⟩, ⟨[tenth]⟩]

/-- Three slots of one metric with the values 3, 1 and 2. -/
def threeSlots : List JobMetric := [⟨[3]⟩, ⟨[1]⟩, ⟨[2]⟩]

/-- The state of the rounded loop that corresponds to a state of `aggLoop`. -/
def liftFl (r : Except Fault AggState) : Except Fault AggStateFl :=
  match r with
  | .ok st => .ok { ret := st.ret, values := st.values, itemCount := (st.itemCount : ℚ) }
  | .error e => .error e

/-! # Theorems -/

/-! ## The stride partition -/

theorem wrapInt_eq_self {x : Int} (h1 : -(2 ^ 63) ≤ x) (h2 : x < 2 ^ 63) : wrapInt x = x := by
  unfold wrapInt
  rw [Int.emod_eq_of_lt (by omega) (by omega)]
  omega

theorem mem_workerIndices (count c : Int) (hc : 0 < c) (hb : count + c ≤ 2 ^ 63) (x : Int) :
    ∀ (fuel : Nat) (k : Int), 0 ≤ k →
      (x ∈ workerIndices count c fuel k ↔
        (k ≤ x ∧ x < count ∧ c ∣ (x - k) ∧ (x - k) / c < fuel)) := by
  intro fuel
  induction fuel with
  | zero =>
    intro k hk
    simp only [workerIndices, List.not_mem_nil, CharP.cast_eq_zero, false_iff, not_and, not_lt]
    intro h1 _ _
    exact Int.ediv_nonneg (by omega) hc.le
  | succ fuel ih =>
    intro k hk
    unfold workerIndices
    by_cases hkc : k < count
    · have hw : wrapInt (k + c) = k + c := wrapInt_eq_self (by omega) (by omega)
      rw [if_pos hkc, if_pos hk, hw, List.mem_cons, ih (k + c) (by omega)]
      constructor
      · rintro (rfl | ⟨h1, h2, h3, h4⟩)
        · refine ⟨le_refl _, hkc, by simp, by simp⟩
        · refine ⟨by omega, h2, ?_, ?_⟩
          · have : x - k = (x - (k + c)) + c := by ring
            rw [this]; exact dvd_add h3 (dvd_refl c)
          · have : x - k = (x - (k + c)) + c := by ring
            rw [this, Int.add_ediv_of_dvd_right (dvd_refl c), Int.ediv_self hc.ne']
            push_cast; omega
      · rintro ⟨h1, h2, h3, h4⟩
        rcases eq_or_lt_of_le h1 with h | h
        · left; exact h.symm
        · right
          obtain ⟨q, hq⟩ := h3
          have hqpos : 0 < q := by
            by_contra hq0
            have : c * q ≤ 0 := Int.mul_nonpos_of_nonneg_of_nonpos hc.le (by omega)
            omega
          have hxk : x - (k + c) = c * (q - 1) := by rw [mul_sub, ← hq]; ring
          refine ⟨?_, h2, ⟨q - 1, hxk⟩, ?_⟩
          · have : c * 1 ≤ c * q := Int.mul_le_mul_of_nonneg_left (by omega) hc.le
            omega
          · rw [hxk, Int.mul_ediv_cancel_left _ hc.ne']
            rw [hq, Int.mul_ediv_cancel_left _ hc.ne'] at h4
            push_cast at h4; omega
    · rw [if_neg hkc]
      simp only [List.not_mem_nil, false_iff, not_and]
      intro h1 h2; omega


theorem mem_visited (count c : Int) (hc : 0 < c) (hb : count + c ≤ 2 ^ 63) (n : Nat) (x : Int) :
    x ∈ visited count c n ↔ ((n : Int) ≤ x ∧ x < count ∧ c ∣ (x - n)) := by
  unfold visited
  rw [mem_workerIndices count c hc hb x _ _ (Int.natCast_nonneg n)]
  constructor
  · rintro ⟨h1, h2, h3, _⟩; exact ⟨h1, h2, h3⟩
  · rintro ⟨h1, h2, h3⟩
    refine ⟨h1, h2, h3, ?_⟩
    have hn : (0 : Int) ≤ n := Int.natCast_nonneg n
    have h5 : (x - n) / c ≤ x - n := Int.ediv_le_self _ (by omega)
    have h6 : ((count.toNat : Nat) : Int) = count := Int.toNat_of_nonneg (by omega)
    push_cast
    omega

theorem workerIndices_increasing (count c : Int) (hc : 0 < c) (hb : count + c ≤ 2 ^ 63) :
    ∀ (fuel : Nat) (k : Int), 0 ≤ k → (workerIndices count c fuel k).Pairwise (· < ·) := by
  intro fuel
  induction fuel with
  | zero => intro k _; simp [workerIndices]
  | succ fuel ih =>
    intro k hk
    unfold workerIndices
    by_cases hkc : k < count
    · have hw : wrapInt (k + c) = k + c := wrapInt_eq_self (by omega) (by omega)
      rw [if_pos hkc, if_pos hk, hw, List.pairwise_cons]
      refine ⟨?_, ih (k + c) (by omega)⟩
      intro x hx
      rw [mem_workerIndices count c hc hb x _ _ (by omega)] at hx
      omega
    · rw [if_neg hkc]; exact List.Pairwise.nil

/-- C1 (amended): for `count > 0` and `concurrency > 0` whose sum does not exceed
`2 ^ 63`, so that no stride step `k += concurrency` overflows, the index lists of
the workers are pairwise disjoint, cover exactly `[0, count)`, and hold no index
twice. -/
theorem stride_partition (count concurrency : Int) (_hcount : 0 < count)
    (hconc : 0 < concurrency) (hb : count + concurrency ≤ 2 ^ 63) :
    StridePartition count concurrency := by
  refine ⟨?_, ?_, ?_⟩
  · intro n n1 hn hn1 hne k hk hk1
    rw [mem_visited count concurrency hconc hb] at hk hk1
    obtain ⟨_, _, d⟩ := hk
    obtain ⟨_, _, d1⟩ := hk1
    have hd : concurrency ∣ ((n : Int) - n1) := by
      have : ((n : Int) - n1) = (k - n1) - (k - n) := by ring
      rw [this]; exact dvd_sub d1 d
    have h0 : ((n : Int) - n1) = 0 := by
      apply Int.eq_zero_of_abs_lt_dvd hd
      rw [abs_lt]
      have := Int.natCast_nonneg n
      have := Int.natCast_nonneg n1
      constructor <;> omega
    exact hne (by omega)
  · intro k
    constructor
    · rintro ⟨n, _, hk⟩
      rw [mem_visited count concurrency hconc hb] at hk
      have := Int.natCast_nonneg n
      omega
    · rintro ⟨h0, h1⟩
      have hm0 : 0 ≤ k % concurrency := Int.emod_nonneg k hconc.ne'
      have hm1 : k % concurrency < concurrency := Int.emod_lt_of_pos k hconc
      have hcast : (((k % concurrency).toNat : Nat) : Int) = k % concurrency :=
        Int.toNat_of_nonneg hm0
      refine ⟨(k % concurrency).toNat, by omega, ?_⟩
      rw [mem_visited count concurrency hconc hb, hcast]
      have hle : k % concurrency ≤ k := by
        have := Int.emod_add_ediv k concurrency
        have : 0 ≤ concurrency * (k / concurrency) :=
          Int.mul_nonneg hconc.le (Int.ediv_nonneg h0 hconc.le)
        omega
      exact ⟨hle, h1, Int.dvd_sub_of_emod_eq rfl⟩
  · intro n _
    have h := workerIndices_increasing count concurrency hconc hb (count.toNat + 1) n
      (Int.natCast_nonneg n)
    exact h.imp (fun hlt => ne_of_lt hlt)

/-- C1 (amended), at `count = 10` and `concurrency = 3`. -/
theorem stride_partition_witness : StridePartition 10 3 :=
  stride_partition 10 3 (by decide) (by decide) (by decide)

/-- C1 fails at `count = 2`, `concurrency = 2 ^ 63 - 1`: worker 1 visits index 1,
its stride step wraps to `-2 ^ 63`, which is below `count`, and the loop body is
entered at that index. -/
theorem stride_partition_overflow : ¬ StridePartition 2 (2 ^ 63 - 1) := by
  intro h
  have h2 := (h.2.1 (-(2 ^ 63))).mp ⟨1, by decide, by decide⟩
  exact absurd h2.1 (by decide)

/-- At `count = 2` and `concurrency = 2 ^ 63 - 1` the goroutine of worker 1
panics: after index 1 its stride step wraps to `-2 ^ 63`, the loop condition
holds, and the caller slot of that index is read. -/
theorem workerLoop_overflow_example :
    workerLoop jobSucceeds clockOneSecond 2 (2 ^ 63 - 1) 3 1 (allocate NewJobMeasurer 2 [])
      = .error .indexOutOfRange := by
  decide!

theorem workerLoop_eq_runBodies (job : Job) (clock : Clock) (count c : Int) (hc : 0 < c)
    (hb : count + c ≤ 2 ^ 63) :
    ∀ (fuel : Nat) (k : Int) (m : JobMeasurer), 0 ≤ k → count ≤ k + fuel →
      workerLoop job clock count c fuel k m
        = runBodies job clock (workerIndices count c fuel k) m := by
  intro fuel
  induction fuel with
  | zero =>
    intro k m _ hf
    have : ¬ k < count := by push_cast at hf; omega
    simp [workerLoop, workerIndices, runBodies, this]
  | succ fuel ih =>
    intro k m hk hf
    unfold workerLoop workerIndices
    by_cases hkc : k < count
    · have hw : wrapInt (k + c) = k + c := wrapInt_eq_self (by omega) (by omega)
      rw [if_pos hkc, if_pos hkc, if_pos hk, hw]
      simp only [runBodies]
      cases hbody : workerBody job clock m k with
      | error e => rfl
      | ok m1 =>
        exact ih (k + c) m1 (by omega) (by push_cast at hf; omega)
    · rw [if_neg hkc, if_neg hkc]; rfl

/-! ## Aggregation in closed form -/

theorem index_ok {α : Type} (l : List α) (i : Nat) (h : i < l.length) :
    index l i = .ok (l[i]) := by
  simp [index, List.getElem?_eq_getElem h]

theorem index_error {α : Type} (l : List α) (i : Nat) (h : l.length ≤ i) :
    index l i = .error .indexOutOfRange := by
  simp [index, List.getElem?_eq_none h]

theorem index_values (v : JobMetric) (i : Nat) (h : i < v.values.length) :
    index v.values i = .ok (v.values.getD i 0) := by
  rw [index_ok _ _ h, List.getD_eq_getElem _ _ h]

theorem store_ok {α : Type} (l : List α) (i : Nat) (a : α) (h : i < l.length) :
    store l i a = .ok (l.set i a) := by
  simp [store, h]

theorem aggStep_succ (idx : Nat) (st : AggState) (k : Nat) (v : JobMetric)
    (hv : idx < v.values.length) (hs : st.itemCount < st.values.length) :
    aggStep idx st (k + 1) v = .ok
      { ret := { st.ret with Min := min st.ret.Min (v.values.getD idx 0),
                             Max := max st.ret.Max (v.values.getD idx 0),
                             Total := st.ret.Total + v.values.getD idx 0 },
        values := st.values.set st.itemCount (v.values.getD idx 0),
        itemCount := st.itemCount + 1 } := by
  simp only [aggStep, index_values v idx hv, bind, Except.bind, store_ok _ _ _ hs, pure,
    Except.pure, Nat.succ_ne_zero, if_false, gt_iff_lt]
  generalize v.values.getD idx 0 = x
  congr 2
  by_cases h1 : x < st.ret.Min
  · by_cases h2 : st.ret.Max < x
    · simp [h1, h2, min_eq_right h1.le, max_eq_right h2.le]
    · simp [h1, h2, min_eq_right h1.le, max_eq_left (not_lt.mp h2)]
  · by_cases h2 : st.ret.Max < x
    · simp [h1, h2, min_eq_left (not_lt.mp h1), max_eq_right h2.le]
    · simp [h1, h2, min_eq_left (not_lt.mp h1), max_eq_left (not_lt.mp h2)]

theorem aggStep_zero (idx : Nat) (st : AggState) (v : JobMetric)
    (hv : idx < v.values.length) (hs : st.itemCount < st.values.length) :
    aggStep idx st 0 v = .ok
      { ret := { st.ret with Min := v.values.getD idx 0,
                             Max := v.values.getD idx 0,
                             Total := st.ret.Total + v.values.getD idx 0 },
        values := st.values.set st.itemCount (v.values.getD idx 0),
        itemCount := st.itemCount + 1 } := by
  simp [aggStep, index_values v idx hv, bind, Except.bind, store_ok _ _ _ hs, pure,
    Except.pure]

theorem fill_eq (xs : List ℚ) : ∀ (vals : List ℚ) (i : Nat), i + xs.length ≤ vals.length →
    fill vals i xs = vals.take i ++ xs ++ vals.drop (i + xs.length) := by
  induction xs with
  | nil => intro vals i _; simp [fill]
  | cons x xs ih =>
    intro vals i h
    simp only [List.length_cons] at h
    rw [fill, ih _ _ (by simp; omega)]
    have hi : i < vals.length := by omega
    have hlen : (List.take i vals).length = i := by simp [List.length_take]; omega
    rw [List.set_eq_take_append_cons_drop, if_pos hi]
    have e1 : List.take i vals ++ x :: List.drop (i + 1) vals
        = (List.take i vals ++ [x]) ++ List.drop (i + 1) vals := by simp
    have hlen1 : (List.take i vals ++ [x]).length = i + 1 := by simp [hlen]
    rw [e1, List.take_left' hlen1]
    have e2 : i + 1 + xs.length = (i + 1) + xs.length := rfl
    rw [List.drop_append_eq_append_drop, hlen1, List.drop_drop]
    have e3 : List.drop (i + 1 + xs.length) (List.take i vals ++ [x]) = [] := by
      apply List.drop_eq_nil_of_le; rw [hlen1]; omega
    rw [e3]
    have e4 : i + 1 + xs.length - (i + 1) + (i + 1) = i + (x :: xs).length := by
      simp only [List.length_cons]; omega
    simp only [e4, List.length_cons, List.append_assoc, List.singleton_append, List.nil_append,
      List.cons_append]
    have e5 : xs.length + (i + 1) = i + (xs.length + 1) := by omega
    have e6 : i + 1 + xs.length = i + (xs.length + 1) := by omega
    simp [e5, e6]

theorem fill_replicate (xs : List ℚ) : fill (List.replicate xs.length 0) 0 xs = xs := by
  rw [fill_eq _ _ _ (by simp)]; simp

theorem inRange_cons (idx : Nat) (v : JobMetric) (rest : List JobMetric) :
    InRange idx (v :: rest) ↔ idx < v.values.length ∧ InRange idx rest := by
  simp [InRange]

theorem aggLoop_succ (idx : Nat) : ∀ (metric : List JobMetric) (k : Nat) (st : AggState),
    InRange idx metric → st.itemCount + metric.length ≤ st.values.length →
    aggLoop idx (k + 1) metric st = .ok
      { ret := { st.ret with Min := (column idx metric).foldl min st.ret.Min,
                             Max := (column idx metric).foldl max st.ret.Max,
                             Total := st.ret.Total + (column idx metric).sum },
        values := fill st.values st.itemCount (column idx metric),
        itemCount := st.itemCount + metric.length } := by
  intro metric
  induction metric with
  | nil => intro k st _ _; simp [aggLoop, column, fill]
  | cons v rest ih =>
    intro k st hr hl
    rw [inRange_cons] at hr
    simp only [List.length_cons] at hl
    rw [aggLoop, aggStep_succ idx st k v hr.1 (by omega)]
    simp only
    rw [ih (k + 1) _ hr.2 (by simp; omega)]
    simp only [column, List.map_cons, List.foldl_cons, List.sum_cons, fill, List.length_cons]
    congr 2
    · congr 1; ring
    · omega

theorem aggLoop_zero (idx : Nat) (metric : List JobMetric) (r : MetricStatistic)
    (hr : InRange idx metric) :
    aggLoop idx 0 metric
        { ret := r, values := List.replicate metric.length 0, itemCount := 0 } = .ok
      { ret := { r with Min := if metric = [] then r.Min else listMin (column idx metric),
                        Max := if metric = [] then r.Max else listMax (column idx metric),
                        Total := r.Total + (column idx metric).sum },
        values := column idx metric,
        itemCount := metric.length } := by
  cases metric with
  | nil => simp [aggLoop, column]
  | cons v rest =>
    rw [inRange_cons] at hr
    rw [aggLoop, aggStep_zero idx _ v hr.1 (by simp)]
    simp only
    rw [aggLoop_succ idx rest 0 _ hr.2 (by simp; omega)]
    have hf := fill_replicate (column idx (v :: rest))
    simp only [column, List.map_cons, List.length_cons, List.length_map, fill] at hf
    simp only [column, List.map_cons, List.sum_cons, listMin, listMax, List.length_cons,
      reduceCtorEq, if_false, zero_add]
    refine congrArg Except.ok ?_
    rw [AggState.mk.injEq]
    refine ⟨?_, ?_, by omega⟩
    · rw [add_assoc]
    · simpa [List.replicate_succ] using hf

theorem aggLoop_inRange (idx : Nat) : ∀ (metric : List JobMetric) (k : Nat) (st st1 : AggState),
    aggLoop idx k metric st = .ok st1 → InRange idx metric := by
  intro metric
  induction metric with
  | nil => intro k st st1 _; simp [InRange]
  | cons v rest ih =>
    intro k st st1 h
    rw [aggLoop] at h
    cases hs : aggStep idx st k v with
    | error e => rw [hs] at h; cases h
    | ok st2 =>
      rw [hs] at h
      rw [inRange_cons]
      refine ⟨?_, ih _ _ _ h⟩
      by_contra hlt
      rw [aggStep, index_error _ _ (not_lt.mp hlt)] at hs
      cases hs

theorem stdevLoop_ok (idx : Nat) (avg : ℚ) : ∀ (l : List JobMetric) (acc : ℚ),
    InRange idx l → stdevLoop idx avg l acc = .ok (acc + sqDev avg (column idx l)) := by
  intro l
  induction l with
  | nil => intro acc _; simp [stdevLoop, sqDev, column]
  | cons v rest ih =>
    intro acc hr
    rw [inRange_cons] at hr
    rw [stdevLoop, index_values v idx hr.1]
    simp only
    rw [ih _ hr.2]
    simp only [sqDev, column, List.map_cons, List.sum_cons]
    rw [add_assoc]

theorem stdevLoop_inRange (idx : Nat) (avg : ℚ) : ∀ (l : List JobMetric) (acc r : ℚ),
    stdevLoop idx avg l acc = .ok r → InRange idx l := by
  intro l
  induction l with
  | nil => intro acc r _; simp [InRange]
  | cons v rest ih =>
    intro acc r h
    rw [stdevLoop] at h
    rw [inRange_cons]
    by_cases hlt : idx < v.values.length
    · rw [index_values v idx hlt] at h
      exact ⟨hlt, ih _ _ h⟩
    · rw [index_error _ _ (not_lt.mp hlt)] at h
      cases h

theorem percentileIndex_lt (n num den : Nat) (hn : 0 < n) (h : num < den) :
    percentileIndex n num den < n := by
  unfold percentileIndex
  rw [Nat.div_lt_iff_lt_mul (by omega)]
  exact Nat.mul_lt_mul_of_pos_left h hn

theorem length_sortFloat64s (xs : List ℚ) : (sortFloat64s xs).length = xs.length := by
  simp [sortFloat64s, List.length_insertionSort]

theorem length_column (idx : Nat) (metric : List JobMetric) :
    (column idx metric).length = metric.length := by
  simp [column]

/-- The result of `calMetricStatistic` in closed form, on a slot set that carries
the metric. -/
theorem calMetricStatistic_eq (sqrt : ℚ → ℚ) (m : JobMeasurer) (idx : Nat) (name : String)
    (secs : ℚ) (metric : List JobMetric) (hr : InRange idx metric)
    (hi : (column idx metric).sum ≠ 0 → InRange idx m.interJobMetrics) :
    calMetricStatistic sqrt m idx name secs metric
      = .ok (statOf sqrt name secs (column idx metric) (column idx m.interJobMetrics)) := by
  unfold calMetricStatistic
  simp only [bind, Except.bind, aggLoop_zero idx metric _ hr, zero_add]
  by_cases h0 : (column idx metric).sum = 0 ∨ metric.length = 0
  · have h0' : (column idx metric).sum = 0 ∨ (column idx metric).length = 0 := by
      rwa [length_column]
    rw [if_pos h0, statOf, if_pos h0']
    simp only [pure, Except.pure]
    cases metric with
    | nil => simp [column, listMin, listMax]
    | cons v rest => simp
  · have h0' : ¬ ((column idx metric).sum = 0 ∨ (column idx metric).length = 0) := by
      rwa [length_column]
    rw [if_neg h0]
    push_neg at h0
    have hne : metric ≠ [] := by
      intro h; rw [h] at h0; simp at h0
    have hpos : 0 < (sortFloat64s (column idx metric)).length := by
      rw [length_sortFloat64s, length_column]; omega
    rw [stdevLoop_ok idx _ _ _ (hi h0.1)]
    simp only [zero_add]
    rw [index_ok _ _ (by
        rw [length_sortFloat64s, length_column]
        exact percentileIndex_lt _ _ _ (by omega) (by decide)),
      index_ok _ _ (by
        rw [length_sortFloat64s, length_column]
        exact percentileIndex_lt _ _ _ (by omega) (by decide))]
    rw [statOf, if_neg h0']
    simp only [pure, Except.pure, if_neg hne, length_column]
    congr 2
    · rw [List.getD_eq_getElem]
    · rw [List.getD_eq_getElem]

theorem sum_column_nil_of_length (idx : Nat) (metric : List JobMetric)
    (h : metric.length = 0) : (column idx metric).sum = 0 := by
  rw [List.length_eq_zero] at h; simp [h, column]

/-- When `calMetricStatistic` returns, the slot set carries the metric, the
built-in slot set carries it too unless the total is zero, and the result is
the closed form. -/
theorem calMetricStatistic_ok (sqrt : ℚ → ℚ) (m : JobMeasurer) (idx : Nat) (name : String)
    (secs : ℚ) (metric : List JobMetric) (ret : MetricStatistic)
    (h : calMetricStatistic sqrt m idx name secs metric = .ok ret) :
    InRange idx metric ∧
    ((column idx metric).sum ≠ 0 → InRange idx m.interJobMetrics) ∧
    ret = statOf sqrt name secs (column idx metric) (column idx m.interJobMetrics) := by
  have hr : InRange idx metric := by
    unfold calMetricStatistic at h
    simp only [bind, Except.bind] at h
    split at h
    · cases h
    · rename_i st hst
      exact aggLoop_inRange idx metric 0 _ st hst
  have hi : (column idx metric).sum ≠ 0 → InRange idx m.interJobMetrics := by
    intro hsum
    have hlen : metric.length ≠ 0 := fun h0 => hsum (sum_column_nil_of_length idx metric h0)
    unfold calMetricStatistic at h
    simp only [bind, Except.bind, aggLoop_zero idx metric _ hr, zero_add] at h
    rw [if_neg (by push_neg; exact ⟨hsum, hlen⟩)] at h
    split at h
    · cases h
    · rename_i acc hacc
      exact stdevLoop_inRange idx _ _ _ acc hacc
  refine ⟨hr, hi, ?_⟩
  rw [calMetricStatistic_eq sqrt m idx name secs metric hr hi] at h
  cases h
  rfl

/-! ## Extrema, average and percentiles -/

theorem foldl_min_le (l : List ℚ) : ∀ a : ℚ, l.foldl min a ≤ a ∧ ∀ x ∈ l, l.foldl min a ≤ x := by
  induction l with
  | nil => intro a; simp
  | cons y rest ih =>
    intro a
    simp only [List.foldl_cons, List.mem_cons, forall_eq_or_imp]
    obtain ⟨h1, h2⟩ := ih (min a y)
    exact ⟨h1.trans (min_le_left _ _), h1.trans (min_le_right _ _), h2⟩

theorem le_foldl_max (l : List ℚ) : ∀ a : ℚ, a ≤ l.foldl max a ∧ ∀ x ∈ l, x ≤ l.foldl max a := by
  induction l with
  | nil => intro a; simp
  | cons y rest ih =>
    intro a
    simp only [List.foldl_cons, List.mem_cons, forall_eq_or_imp]
    obtain ⟨h1, h2⟩ := ih (max a y)
    exact ⟨(le_max_left _ _).trans h1, (le_max_right _ _).trans h1, h2⟩

theorem foldl_min_mem (l : List ℚ) : ∀ a : ℚ, l.foldl min a = a ∨ l.foldl min a ∈ l := by
  induction l with
  | nil => intro a; simp
  | cons y rest ih =>
    intro a
    simp only [List.foldl_cons, List.mem_cons]
    rcases ih (min a y) with h | h
    · rcases min_choice a y with h1 | h1
      · left; rw [h, h1]
      · right; left; rw [h, h1]
    · right; right; exact h

theorem foldl_max_mem (l : List ℚ) : ∀ a : ℚ, l.foldl max a = a ∨ l.foldl max a ∈ l := by
  induction l with
  | nil => intro a; simp
  | cons y rest ih =>
    intro a
    simp only [List.foldl_cons, List.mem_cons]
    rcases ih (max a y) with h | h
    · rcases max_choice a y with h1 | h1
      · left; rw [h, h1]
      · right; left; rw [h, h1]
    · right; right; exact h

theorem listMin_le (xs : List ℚ) : ∀ x ∈ xs, listMin xs ≤ x := by
  cases xs with
  | nil => simp
  | cons a rest =>
    intro x hx
    rcases List.mem_cons.mp hx with h | h
    · rw [h]; exact (foldl_min_le rest a).1
    · exact (foldl_min_le rest a).2 x h

theorem le_listMax (xs : List ℚ) : ∀ x ∈ xs, x ≤ listMax xs := by
  cases xs with
  | nil => simp
  | cons a rest =>
    intro x hx
    rcases List.mem_cons.mp hx with h | h
    · rw [h]; exact (le_foldl_max rest a).1
    · exact (le_foldl_max rest a).2 x h

theorem listMin_mem (xs : List ℚ) (h : xs ≠ []) : listMin xs ∈ xs := by
  cases xs with
  | nil => exact absurd rfl h
  | cons a rest =>
    rcases foldl_min_mem rest a with h1 | h1
    · simp [listMin, h1]
    · exact List.mem_cons_of_mem _ h1

theorem listMax_mem (xs : List ℚ) (h : xs ≠ []) : listMax xs ∈ xs := by
  cases xs with
  | nil => exact absurd rfl h
  | cons a rest =>
    rcases foldl_max_mem rest a with h1 | h1
    · simp [listMax, h1]
    · exact List.mem_cons_of_mem _ h1

theorem length_mul_le_sum (xs : List ℚ) (a : ℚ) (h : ∀ x ∈ xs, a ≤ x) :
    (xs.length : ℚ) * a ≤ xs.sum := by
  induction xs with
  | nil => simp
  | cons y rest ih =>
    simp only [List.length_cons, List.sum_cons, Nat.cast_add, Nat.cast_one]
    have h1 := h y (List.mem_cons_self _ _)
    have h2 := ih (fun x hx => h x (List.mem_cons_of_mem _ hx))
    linarith

theorem sum_le_length_mul (xs : List ℚ) (a : ℚ) (h : ∀ x ∈ xs, x ≤ a) :
    xs.sum ≤ (xs.length : ℚ) * a := by
  induction xs with
  | nil => simp
  | cons y rest ih =>
    simp only [List.length_cons, List.sum_cons, Nat.cast_add, Nat.cast_one]
    have h1 := h y (List.mem_cons_self _ _)
    have h2 := ih (fun x hx => h x (List.mem_cons_of_mem _ hx))
    linarith

theorem statOf_min_le_avg (sqrt : ℚ → ℚ) (name : String) (secs : ℚ) (xs ys : List ℚ)
    (hN : 0 < xs.length) :
    (statOf sqrt name secs xs ys).Min ≤ (statOf sqrt name secs xs ys).Avg ∧
    (statOf sqrt name secs xs ys).Avg ≤ (statOf sqrt name secs xs ys).Max := by
  have hpos : (0 : ℚ) < (xs.length : ℚ) := by exact_mod_cast hN
  have hlo := length_mul_le_sum xs (listMin xs) (listMin_le xs)
  have hhi := sum_le_length_mul xs (listMax xs) (le_listMax xs)
  unfold statOf
  split
  · rename_i h0
    have hs : xs.sum = 0 := by
      rcases h0 with h | h
      · exact h
      · omega
    rw [hs] at hlo hhi
    simp only
    constructor
    · by_contra hc
      push_neg at hc
      have := mul_pos hpos hc
      linarith
    · by_contra hc
      push_neg at hc
      have := mul_neg_of_pos_of_neg hpos hc
      linarith
  · simp only
    constructor
    · rw [le_div_iff₀ hpos]; linarith
    · rw [div_le_iff₀ hpos]; linarith

theorem floor_percentile (n num den : Nat) :
    ⌊(n : ℚ) * ((num : ℚ) / (den : ℚ))⌋₊ = percentileIndex n num den := by
  unfold percentileIndex
  rw [← mul_div_assoc, ← Nat.cast_mul, Nat.floor_div_eq_div]

theorem sorted_perm_eq_sort (s xs : List ℚ) (hs : s.Sorted (· ≤ ·)) (hp : s.Perm xs) :
    s = sortFloat64s xs := by
  apply List.eq_of_perm_of_sorted (r := (· ≤ ·)) _ hs (List.sorted_insertionSort _ _)
  exact hp.trans (List.perm_insertionSort _ _).symm

/-- C2: on a non-empty slot set whose values of the metric do not sum to zero,
`calMetricStatistic` returns (as soon as the built-in slots of the measurer
carry the metric index) and every result has `P90 = s[floor(N * 0.9)]` and
`P95 = s[floor(N * 0.95)]`, for `s` the ascending sort of the `N` values. -/
theorem percentile_nearest_rank (sqrt : ℚ → ℚ) (m : JobMeasurer) (idx : Nat) (name : String)
    (secs : ℚ) (metric : List JobMetric) (s : List ℚ)
    (hN : 0 < metric.length) (hr : InRange idx metric)
    (hsum : (column idx metric).sum ≠ 0)
    (hs : s.Sorted (· ≤ ·)) (hp : s.Perm (column idx metric)) :
    (InRange idx m.interJobMetrics →
      ∃ ret, calMetricStatistic sqrt m idx name secs metric = .ok ret) ∧
    (∀ ret, calMetricStatistic sqrt m idx name secs metric = .ok ret →
      s[⌊(metric.length : ℚ) * (9 / 10)⌋₊]? = some ret.P90 ∧
      s[⌊(metric.length : ℚ) * (19 / 20)⌋₊]? = some ret.P95) := by
  constructor
  · intro hi
    exact ⟨_, calMetricStatistic_eq sqrt m idx name secs metric hr (fun _ => hi)⟩
  · intro ret h
    obtain ⟨_, _, hret⟩ := calMetricStatistic_ok sqrt m idx name secs metric ret h
    have hs' := sorted_perm_eq_sort s _ hs hp
    have h0 : ¬ ((column idx metric).sum = 0 ∨ (column idx metric).length = 0) := by
      rw [length_column]; push_neg; exact ⟨hsum, by omega⟩
    have e9 : ⌊(metric.length : ℚ) * (9 / 10)⌋₊ = percentileIndex metric.length 9 10 := by
      have := floor_percentile metric.length 9 10
      push_cast at this; exact this
    have e19 : ⌊(metric.length : ℚ) * (19 / 20)⌋₊ = percentileIndex metric.length 19 20 := by
      have := floor_percentile metric.length 19 20
      push_cast at this; exact this
    have l9 : percentileIndex metric.length 9 10 < (sortFloat64s (column idx metric)).length := by
      rw [length_sortFloat64s, length_column]
      exact percentileIndex_lt _ _ _ hN (by decide)
    have l19 : percentileIndex metric.length 19 20
        < (sortFloat64s (column idx metric)).length := by
      rw [length_sortFloat64s, length_column]
      exact percentileIndex_lt _ _ _ hN (by decide)
    rw [hret, statOf, if_neg h0, e9, e19, hs', length_column]
    simp only
    rw [List.getElem?_eq_getElem l9, List.getElem?_eq_getElem l19,
      List.getD_eq_getElem _ _ l9, List.getD_eq_getElem _ _ l19]
    exact ⟨rfl, rfl⟩

/-- C2, at the ten values 1 to 10: `P90 = 10` and `P95 = 10`. -/
theorem percentile_nearest_rank_witness :
    ∃ ret, calMetricStatistic (fun x => x) { NewJobMeasurer with interJobMetrics := tenSlots }
        0 MetricNameLatency 1 tenSlots = .ok ret ∧ ret.P90 = 10 ∧ ret.P95 = 10 := by
  have hlen : 0 < tenSlots.length := by decide
  have hr : InRange 0 tenSlots := by simp [InRange, tenSlots]
  have hsum : (column 0 tenSlots).sum ≠ 0 := by simp [column, tenSlots]; norm_num
  have hs : (column 0 tenSlots).Sorted (· ≤ ·) := by simp [column, tenSlots]; norm_num
  obtain ⟨h1, h2⟩ := percentile_nearest_rank (fun x => x)
    { NewJobMeasurer with interJobMetrics := tenSlots } 0 MetricNameLatency 1 tenSlots
    (column 0 tenSlots) hlen hr hsum hs (List.Perm.refl _)
  obtain ⟨ret, hret⟩ := h1 hr
  obtain ⟨h90, h95⟩ := h2 ret hret
  refine ⟨ret, hret, ?_, ?_⟩
  · have e : ⌊((tenSlots.length : ℕ) : ℚ) * (9 / 10)⌋₊ = 9 := by
      have := floor_percentile tenSlots.length 9 10
      push_cast at this; rw [this]; rfl
    rw [e] at h90
    simpa [column, tenSlots] using h90.symm
  · have e : ⌊((tenSlots.length : ℕ) : ℚ) * (19 / 20)⌋₊ = 9 := by
      have := floor_percentile tenSlots.length 19 20
      push_cast at this; rw [this]; rfl
    rw [e] at h95
    simpa [column, tenSlots] using h95.symm

/-- In exact arithmetic every statistic that `calMetricStatistic` returns for a
non-empty slot set has `Min ≤ Avg ≤ Max`, on the zero-total return path as
well. -/
theorem calMetricStatistic_min_le_avg (sqrt : ℚ → ℚ) (m : JobMeasurer) (idx : Nat)
    (name : String) (secs : ℚ) (metric : List JobMetric) (ret : MetricStatistic)
    (hN : 0 < metric.length)
    (h : calMetricStatistic sqrt m idx name secs metric = .ok ret) :
    ret.Min ≤ ret.Avg ∧ ret.Avg ≤ ret.Max := by
  obtain ⟨_, _, hret⟩ := calMetricStatistic_ok sqrt m idx name secs metric ret h
  rw [hret]
  exact statOf_min_le_avg sqrt name secs _ _ (by rw [length_column]; exact hN)

/-! ## Runs on concrete inputs, invalid arguments, zero totals -/

/-- C3, at `count = 2`, `concurrency = 1`, one caller metric with the values 2
and 6 and latencies of one second: the caller statistic has average 4 and its
`Stdev` is `sqrt 9`, computed from the latencies, while the population variance
of its own values is 4. -/
theorem stdev_of_caller_metric (sqrt : ℚ → ℚ) :
    Run sqrt clockOneSecond NewJobMeasurer 2 1 ["m"] (some jobLinear) = .ok
      (⟨2000000000, 2000000000, 1, 2, 1,
        [⟨MetricNameLatency, 2, 2, 1, 1, 1, sqrt 0, 0, 1, 1⟩,
         ⟨MetricNameError, 0, 2, 0, 0, 0, 0, 0, 0, 0⟩,
         ⟨"m", 8, 2, 4, 2, 6, sqrt 9, 0, 6, 6⟩]⟩,
       ⟨[1000000000, 1000000000], [MetricNameLatency, MetricNameError],
        [⟨[1, 0]⟩, ⟨[1, 0]⟩], [⟨[2]⟩, ⟨[6]⟩]⟩) ∧
    populationVariance [2, 6] = 4 := by
  constructor
  · simp [Run, allocate, runWorkers, workerLoop, workerBody, calAll, calMetricStatistic, aggLoop,
      aggStep, stdevLoop, index, indexInt, store, storeInt, jobLinear, SetMetricsValue,
      setValuesFrom, clockOneSecond, NewJobMeasurer, newJobMetric, seconds, sumDurations,
      wrapInt, MetricIndexLatency, MetricIndexError, List.range, List.range.loop, bind,
      Except.bind, pure, Except.pure, sortFloat64s, percentileIndex]
    norm_num
  · simp [populationVariance, sqDev]; norm_num

/-- C5, at `count = 2`, `concurrency = 1`, one caller metric whose two values
are both 5 and latencies of one second: the `Stdev` of the caller statistic is
`sqrt 16`, not 0. -/
theorem stdev_of_constant_caller_metric (sqrt : ℚ → ℚ) :
    Run sqrt clockOneSecond NewJobMeasurer 2 1 ["m"] (some jobFive) = .ok
      (⟨2000000000, 2000000000, 1, 2, 1,
        [⟨MetricNameLatency, 2, 2, 1, 1, 1, sqrt 0, 0, 1, 1⟩,
         ⟨MetricNameError, 0, 2, 0, 0, 0, 0, 0, 0, 0⟩,
         ⟨"m", 10, 2, 5, 5, 5, sqrt 16, 0, 5, 5⟩]⟩,
       ⟨[1000000000, 1000000000], [MetricNameLatency, MetricNameError],
        [⟨[1, 0]⟩, ⟨[1, 0]⟩], [⟨[5]⟩, ⟨[5]⟩]⟩) := by
  simp [Run, allocate, runWorkers, workerLoop, workerBody, calAll, calMetricStatistic, aggLoop,
    aggStep, stdevLoop, index, indexInt, store, storeInt, jobFive, SetMetricsValue,
    setValuesFrom, clockOneSecond, NewJobMeasurer, newJobMetric, seconds, sumDurations,
    wrapInt, MetricIndexLatency, MetricIndexError, List.range, List.range.loop, bind,
    Except.bind, pure, Except.pure, sortFloat64s, percentileIndex]
  norm_num

/-- C9, at `count = 1`, `concurrency = 1`, three caller metrics that the job
sets to 1: aggregating the third one reads index 2 of a built-in slot, which has
two values, and `Run` panics. -/
theorem run_three_caller_metrics_panics (sqrt : ℚ → ℚ) :
    Run sqrt clockOneSecond NewJobMeasurer 1 1 ["a", "b", "c"] (some jobThree)
      = .error .indexOutOfRange := by
  simp [Run, allocate, runWorkers, workerLoop, workerBody, calAll, calMetricStatistic, aggLoop,
    aggStep, stdevLoop, index, indexInt, store, storeInt, jobThree, SetMetricsValue,
    setValuesFrom, clockOneSecond, NewJobMeasurer, newJobMetric, seconds, sumDurations,
    wrapInt, MetricIndexLatency, MetricIndexError, List.range, List.range.loop, bind,
    Except.bind, pure, Except.pure, sortFloat64s, percentileIndex]

/-- C8: with `count ≤ 0`, `concurrency ≤ 0` or a nil job, `Run` returns the
zero-valued report, whose fields are all zero and whose statistics list is
empty, and the measurer as it was; this holds whatever the job would do when
invoked. -/
theorem run_invalid_arguments (sqrt : ℚ → ℚ) (clock : Clock) (m : JobMeasurer)
    (count concurrency : Int) (metricsName : List String) (job : Option Job)
    (h : count ≤ 0 ∨ concurrency ≤ 0 ∨ job = none) :
    Run sqrt clock m count concurrency metricsName job = .ok (⟨0, 0, 0, 0, 0, []⟩, m) := by
  cases job with
  | none => rfl
  | some j =>
    have h1 : count ≤ 0 ∨ concurrency ≤ 0 := by
      rcases h with h | h | h
      · exact Or.inl h
      · exact Or.inr h
      · cases h
    simp only [Run, if_pos h1]
    rfl

/-- C8, with a job that panics whenever it is invoked and `count = 0`. -/
theorem run_invalid_arguments_witness :
    Run (fun x => x) clockOneSecond NewJobMeasurer 0 3 ["m"] (some jobPanics)
      = .ok (⟨0, 0, 0, 0, 0, []⟩, NewJobMeasurer) :=
  run_invalid_arguments (fun x => x) clockOneSecond NewJobMeasurer 0 3 ["m"] (some jobPanics)
    (Or.inl (by decide))

/-- C6 fails on the values -1 and 1, which cancel: the total is zero, yet the
returned statistic has `Min = -1` and `Max = 1` and so is not zero-filled. -/
theorem zero_total_not_zero_filled :
    ∃ ret, calMetricStatistic (fun x => x) NewJobMeasurer 0 MetricNameLatency 1 cancelSlots
        = .ok ret ∧ (column 0 cancelSlots).sum = 0 ∧ ret.Min = -1 ∧ ret.Max = 1 ∧
        ¬ ZeroFilled ret := by
  refine ⟨⟨MetricNameLatency, 0, 1, 0, -1, 1, 0, 0, 0, 0⟩, by decide!, by decide!, rfl, rfl, ?_⟩
  intro h
  exact absurd h.2.2.1 (by decide!)

/-- C6 (amended): when the values of the metric sum to zero or the slot set is
empty, `calMetricStatistic` returns a statistic that carries the name and the
total seconds, whose `Total`, `Avg`, `Stdev`, `PerSec`, `P90` and `P95` are 0,
and whose `Min` and `Max` are the smallest and the largest value of the metric
(both 0 on an empty slot set). -/
theorem zero_total_statistic (sqrt : ℚ → ℚ) (m : JobMeasurer) (idx : Nat) (name : String)
    (secs : ℚ) (metric : List JobMetric) (hr : InRange idx metric)
    (h0 : (column idx metric).sum = 0 ∨ metric = []) :
    ∃ ret, calMetricStatistic sqrt m idx name secs metric = .ok ret ∧
      ret.Name = name ∧ ret.TotalSeconds = secs ∧
      ret.Total = 0 ∧ ret.Avg = 0 ∧ ret.Stdev = 0 ∧ ret.PerSec = 0 ∧ ret.P90 = 0 ∧
      ret.P95 = 0 ∧
      (∀ x ∈ column idx metric, ret.Min ≤ x ∧ x ≤ ret.Max) ∧
      (metric ≠ [] → ret.Min ∈ column idx metric ∧ ret.Max ∈ column idx metric) ∧
      (metric = [] → ret.Min = 0 ∧ ret.Max = 0) := by
  have hsum : (column idx metric).sum = 0 := by
    rcases h0 with h | h
    · exact h
    · rw [h]; simp [column]
  refine ⟨_, calMetricStatistic_eq sqrt m idx name secs metric hr
    (fun hne => absurd hsum hne), ?_⟩
  rw [statOf, if_pos (Or.inl hsum)]
  refine ⟨rfl, rfl, hsum, rfl, rfl, rfl, rfl, rfl, ?_, ?_, ?_⟩
  · intro x hx
    exact ⟨listMin_le _ x hx, le_listMax _ x hx⟩
  · intro hne
    have hc : column idx metric ≠ [] := by
      intro h; apply hne; simpa [column] using h
    exact ⟨listMin_mem _ hc, listMax_mem _ hc⟩
  · intro h
    rw [h]
    exact ⟨rfl, rfl⟩

/-- C6 (amended), on the values -1 and 1. -/
theorem zero_total_statistic_witness :
    ∃ ret, calMetricStatistic (fun x => x) NewJobMeasurer 0 MetricNameError 1 cancelSlots
        = .ok ret ∧ ret.Total = 0 ∧ ret.Avg = 0 ∧ ret.Stdev = 0 ∧ ret.P90 = 0 ∧ ret.P95 = 0 := by
  obtain ⟨ret, h, _, _, h1, h2, h3, _, h4, h5, _⟩ :=
    zero_total_statistic (fun x => x) NewJobMeasurer 0 MetricNameError 1 cancelSlots
      (by simp [InRange, cancelSlots]) (Or.inl (by decide!))
  exact ⟨ret, h, h1, h2, h3, h4, h5⟩

/-! ## The state a run leaves -/

theorem indexInt_natCast {α : Type} (l : List α) (k : Nat) (a : α) (h : l[k]? = some a) :
    indexInt l (k : Int) = .ok a := by
  have : ¬ ((k : Int) < 0) := by omega
  simp [indexInt, this, index, h]

theorem storeInt_natCast {α : Type} (l : List α) (k : Nat) (a : α) (h : k < l.length) :
    storeInt l (k : Int) a = .ok (l.set k a) := by
  have : ¬ ((k : Int) < 0) := by omega
  simp [storeInt, this, store, h]

/-- The loop body at an index that has not been processed yet. -/
theorem workerBody_fresh (job : Job) (clock : Clock) (m : JobMeasurer) (k p len : Nat)
    (ho : m.outerJobMetrics[k]? = some (newJobMetric p))
    (hd : k < m.jobDurations.length)
    (hi : m.interJobMetrics[k]? = some (newJobMetric len)) :
    workerBody job clock m (k : Int) =
      match job k (newJobMetric p) with
      | .ok (slot, failed) =>
        if 1 < len then
          .ok { m with
                jobDurations := m.jobDurations.set k (clock.elapsed k)
                interJobMetrics := m.interJobMetrics.set k
                  ⟨builtinValues len (seconds (clock.elapsed k)) failed⟩
                outerJobMetrics := m.outerJobMetrics.set k slot }
        else .error .indexOutOfRange
      | .error e => .error e := by
  have hol : k < m.outerJobMetrics.length := by
    by_contra h
    rw [List.getElem?_eq_none (not_lt.mp h)] at ho; cases ho
  have hil : k < m.interJobMetrics.length := by
    by_contra h
    rw [List.getElem?_eq_none (not_lt.mp h)] at hi; cases hi
  unfold workerBody
  rw [indexInt_natCast _ _ _ ho]
  simp only [bind, Except.bind]
  cases hj : job (k : Int) (newJobMetric p) with
  | error e => rfl
  | ok res =>
    obtain ⟨slot, failed⟩ := res
    simp only
    rw [storeInt_natCast _ _ _ hol, storeInt_natCast _ _ _ hd]
    simp only
    rw [indexInt_natCast _ k (clock.elapsed k) (by simp [List.getElem?_set_self, hd]),
      indexInt_natCast _ _ _ hi]
    simp only [newJobMetric, store, MetricIndexLatency, MetricIndexError, List.length_replicate,
      List.length_set]
    by_cases h1 : 1 < len
    · have h0 : 0 < len := by omega
      simp [h0, h1, storeInt_natCast _ _ _ hil, builtinValues, MetricIndexLatency,
        MetricIndexError, pure, Except.pure]
    · have : ¬ (0 < len ∧ 1 < len) := fun h => h1 h.2
      by_cases h0 : 0 < len
      · simp [h0, h1]
      · simp [h0, h1]

theorem processed_congr (job : Job) (clock : Clock) (n len p : Nat) (D E : Int → Prop)
    (m : JobMeasurer) (h : Processed job clock n len p D m)
    (hDE : ∀ k : Nat, k < n → (D k ↔ E k)) : Processed job clock n len p E m := by
  obtain ⟨h1, h2, h3, h4, h5⟩ := h
  refine ⟨h1, h2, h3, h4, ?_⟩
  intro k hk
  rw [← hDE k hk]
  exact h5 k hk

theorem processed_step (job : Job) (clock : Clock) (n len p : Nat) (D : Int → Prop)
    (m m2 : JobMeasurer) (k : Nat) (h : Processed job clock n len p D m) (hk : k < n)
    (hD : ¬ D k) (hbody : workerBody job clock m (k : Int) = .ok m2) :
    Processed job clock n len p (fun j => D j ∨ j = (k : Int)) m2 := by
  obtain ⟨h1, h2, h3, h4, h5⟩ := h
  obtain ⟨ho, hd, hi⟩ := (h5 k hk).2 hD
  rw [workerBody_fresh job clock m k p len ho (by omega) hi] at hbody
  cases hj : job (k : Int) (newJobMetric p) with
  | error e => rw [hj] at hbody; cases hbody
  | ok res =>
    obtain ⟨slot, failed⟩ := res
    rw [hj] at hbody
    simp only at hbody
    by_cases hlen : 1 < len
    · rw [if_pos hlen] at hbody
      cases hbody
      refine ⟨h1, by simp [h2], by simp [h3], by simp [h4], ?_⟩
      intro j hj'
      by_cases hjk : j = k
      · subst hjk
        constructor
        · intro _
          refine ⟨slot, failed, hj, ?_, ?_, ?_, hlen⟩
          · simp [List.getElem?_set_self, h4, hk]
          · simp [List.getElem?_set_self, h2, hk]
          · simp [List.getElem?_set_self, h3, hk]
        · intro hn
          exact absurd (Or.inr rfl) hn
      · have hne : k ≠ j := fun e => hjk e.symm
        have hjk' : ¬ ((j : Int) = (k : Int)) := by omega
        simp only [List.getElem?_set_ne hne, hjk', or_false]
        exact h5 j hj'
    · rw [if_neg hlen] at hbody
      cases hbody

theorem processed_advance (job : Job) (clock : Clock) (count c : Int) (hc : 0 < c)
    (n len p : Nat) (hn : (n : Int) = count) (w : Nat) (k : Int) (m m1 : JobMeasurer)
    (hk0 : 0 ≤ k) (hk : k < count) (hkw : k % c = w)
    (hP : Processed job clock n len p (doneBefore c w k) m)
    (hbody : workerBody job clock m k = .ok m1) :
    Processed job clock n len p (doneBefore c w (k + c)) m1 := by
  have hkn : ((k.toNat : Nat) : Int) = k := Int.toNat_of_nonneg hk0
  have hlt : k.toNat < n := by omega
  have hnot : ¬ doneBefore c w k ((k.toNat : Nat) : Int) := by
    rw [hkn]; simp only [doneBefore]; omega
  rw [← hkn] at hbody
  have hP1 := processed_step job clock n len p _ m m1 k.toNat hP hlt hnot hbody
  apply processed_congr job clock n len p _ _ m1 hP1
  intro j _
  simp only [doneBefore, hkn]
  constructor
  · rintro ((h1 | ⟨h1, h2⟩) | h1)
    · exact Or.inl h1
    · exact Or.inr ⟨h1, by omega⟩
    · exact Or.inr ⟨by rw [h1]; exact hkw, by omega⟩
  · rintro (h1 | ⟨h1, h2⟩)
    · exact Or.inl (Or.inl h1)
    · by_cases hjk : (j : Int) < k
      · exact Or.inl (Or.inr ⟨h1, hjk⟩)
      · right
        have hmod : ((j : Int) - k) % c = 0 := by
          rw [← Int.emod_eq_emod_iff_emod_sub_eq_zero, h1, hkw]
        have hsmall : ((j : Int) - k) % c = (j : Int) - k :=
          Int.emod_eq_of_lt (by omega) (by omega)
        omega

theorem workerLoop_processed (job : Job) (clock : Clock) (count c : Int) (hc : 0 < c)
    (hb : count + c ≤ 2 ^ 63) (n len p : Nat) (hn : (n : Int) = count) (w : Nat) :
    ∀ (fuel : Nat) (k : Int) (m m2 : JobMeasurer), 0 ≤ k → k % c = w →
      Processed job clock n len p (doneBefore c w k) m →
      workerLoop job clock count c fuel k m = .ok m2 →
      Processed job clock n len p (fun j => j % c < ((w + 1 : Nat) : Int)) m2 := by
  have hstop : ∀ (k : Int) (m : JobMeasurer), ¬ k < count →
      Processed job clock n len p (doneBefore c w k) m →
      Processed job clock n len p (fun j => j % c < ((w + 1 : Nat) : Int)) m := by
    intro k m hk hP
    apply processed_congr job clock n len p _ _ m hP
    intro j hj
    simp only [doneBefore]
    push_cast
    constructor
    · rintro (h | ⟨h, _⟩) <;> omega
    · intro h
      have : (j : Int) < k := by omega
      omega
  intro fuel
  induction fuel with
  | zero =>
    intro k m m2 _ _ hP h
    unfold workerLoop at h
    by_cases hk : k < count
    · rw [if_pos hk] at h; cases h
    · rw [if_neg hk] at h; cases h
      exact hstop k m hk hP
  | succ fuel ih =>
    intro k m m2 hk0 hkw hP h
    unfold workerLoop at h
    by_cases hk : k < count
    · rw [if_pos hk] at h
      have hw : wrapInt (k + c) = k + c := wrapInt_eq_self (by omega) (by omega)
      cases hbody : workerBody job clock m k with
      | error e => rw [hbody] at h; cases h
      | ok m1 =>
        rw [hbody, hw] at h
        simp only at h
        exact ih (k + c) m1 m2 (by omega) (by rw [Int.add_emod_self]; exact hkw)
          (processed_advance job clock count c hc n len p hn w k m m1 hk0 hk hkw hP hbody) h
    · rw [if_neg hk] at h; cases h
      exact hstop k m hk hP

theorem runWorkers_processed (job : Job) (clock : Clock) (count c : Int) (hc : 0 < c)
    (hb : count + c ≤ 2 ^ 63) (n len p : Nat) (hn : (n : Int) = count) :
    ∀ (cnt w : Nat) (m m2 : JobMeasurer), ((w + cnt : Nat) : Int) ≤ c →
      Processed job clock n len p (fun j => j % c < (w : Int)) m →
      runWorkers job clock count c (List.range' w cnt) m = .ok m2 →
      Processed job clock n len p (fun j => j % c < ((w + cnt : Nat) : Int)) m2 := by
  intro cnt
  induction cnt with
  | zero =>
    intro w m m2 _ hP h
    simp only [List.range'_zero, runWorkers] at h
    cases h
    simpa using hP
  | succ cnt ih =>
    intro w m m2 hle hP h
    simp only [List.range'_succ, runWorkers] at h
    cases hl : workerLoop job clock count c (count.toNat + 1) (w : Int) m with
    | error e => rw [hl] at h; cases h
    | ok m1 =>
      rw [hl] at h
      simp only at h
      have hwc : (w : Int) < c := by push_cast at hle; omega
      have hmod : (w : Int) % c = w := Int.emod_eq_of_lt (by omega) hwc
      have hP0 : Processed job clock n len p (doneBefore c w (w : Int)) m := by
        apply processed_congr job clock n len p _ _ m hP
        intro j _
        simp only [doneBefore]
        constructor
        · exact fun h1 => Or.inl h1
        · rintro (h1 | ⟨h1, h2⟩)
          · exact h1
          · exfalso
            have : (j : Int) % c = j := Int.emod_eq_of_lt (by omega) (by omega)
            omega
      have hP1 := workerLoop_processed job clock count c hc hb n len p hn w _ _ m m1
        (by omega) hmod hP0 hl
      have := ih (w + 1) m1 m2 (by push_cast at hle ⊢; omega) hP1 h
      have e : w + 1 + cnt = w + (cnt + 1) := by omega
      rw [e] at this
      exact this

theorem wrapInt_overflow {x : Int} (h1 : 2 ^ 63 ≤ x) (h2 : x < 2 ^ 64) :
    wrapInt x = x - 2 ^ 64 := by
  unfold wrapInt
  omega

theorem workerBody_negative (job : Job) (clock : Clock) (m : JobMeasurer) (k : Int)
    (hk : k < 0) : workerBody job clock m k = .error .indexOutOfRange := by
  simp [workerBody, indexInt, hk, bind, Except.bind]

theorem workerLoop_negative (job : Job) (clock : Clock) (count c : Int) (fuel : Nat) (k : Int)
    (m : JobMeasurer) (hk : k < 0) (hcount : 0 < count) :
    ∃ e, workerLoop job clock count c fuel k m = .error e := by
  have hlt : k < count := by omega
  cases fuel with
  | zero => exact ⟨.outOfFuel, by simp [workerLoop, hlt]⟩
  | succ fuel =>
    exact ⟨.indexOutOfRange, by simp [workerLoop, hlt, workerBody_negative job clock m k hk]⟩

/-- When `count + concurrency` exceeds `2 ^ 63`, the worker that owns index
`count - 1` panics: its stride step wraps to a negative index. -/
theorem workerLoop_overflow (job : Job) (clock : Clock) (count c : Int) (hc : 0 < c)
    (hcmax : c ≤ maxInt) (hcount : count ≤ maxInt) (hov : 2 ^ 63 < count + c) :
    ∀ (fuel : Nat) (k : Int) (m : JobMeasurer), 0 ≤ k → k < count → c ∣ (count - 1 - k) →
      ∃ e, workerLoop job clock count c fuel k m = .error e := by
  unfold maxInt at hcmax hcount
  intro fuel
  induction fuel with
  | zero => intro k m _ hk _; exact ⟨.outOfFuel, by simp [workerLoop, hk]⟩
  | succ fuel ih =>
    intro k m hk0 hk hdvd
    unfold workerLoop
    rw [if_pos hk]
    cases hbody : workerBody job clock m k with
    | error e => exact ⟨e, rfl⟩
    | ok m1 =>
      simp only
      by_cases hnext : k + c < count
      · have hw : wrapInt (k + c) = k + c := wrapInt_eq_self (by omega) (by omega)
        rw [hw]
        apply ih (k + c) m1 (by omega) hnext
        have : count - 1 - (k + c) = (count - 1 - k) - c := by ring
        rw [this]
        exact dvd_sub hdvd (dvd_refl c)
      · have hz : count - 1 - k = 0 := by
          apply Int.eq_zero_of_abs_lt_dvd hdvd
          rw [abs_lt]; constructor <;> omega
        have hw : wrapInt (k + c) = k + c - 2 ^ 64 := wrapInt_overflow (by omega) (by omega)
        rw [hw]
        exact workerLoop_negative job clock count c fuel _ m1 (by omega) (by omega)

theorem runWorkers_ok_mem (job : Job) (clock : Clock) (count c : Int) :
    ∀ (ns : List Nat) (m m2 : JobMeasurer),
      runWorkers job clock count c ns m = .ok m2 →
      ∀ w ∈ ns, ∃ ma mb, workerLoop job clock count c (count.toNat + 1) (w : Int) ma = .ok mb := by
  intro ns
  induction ns with
  | nil => intro m m2 _ w hw; cases hw
  | cons n ns ih =>
    intro m m2 h w hw
    simp only [runWorkers] at h
    cases hl : workerLoop job clock count c (count.toNat + 1) (n : Int) m with
    | error e => rw [hl] at h; cases h
    | ok m1 =>
      rw [hl] at h
      rcases List.mem_cons.mp hw with rfl | hw'
      · exact ⟨m, m1, hl⟩
      · exact ih m1 m2 h w hw'

/-- A run of the workers that completes did not overflow the stride step. -/
theorem runWorkers_ok_bound (job : Job) (clock : Clock) (count c : Int) (hcount : 0 < count)
    (hc : 0 < c) (hcountmax : count ≤ maxInt) (hcmax : c ≤ maxInt) (m m2 : JobMeasurer)
    (h : runWorkers job clock count c (List.range c.toNat) m = .ok m2) :
    count + c ≤ 2 ^ 63 := by
  by_contra hov
  push_neg at hov
  have hm0 : 0 ≤ (count - 1) % c := Int.emod_nonneg _ hc.ne'
  have hm1 : (count - 1) % c < c := Int.emod_lt_of_pos _ hc
  have hcast : ((((count - 1) % c).toNat : Nat) : Int) = (count - 1) % c :=
    Int.toNat_of_nonneg hm0
  have hmem : ((count - 1) % c).toNat ∈ List.range c.toNat := by
    rw [List.mem_range]; omega
  obtain ⟨ma, mb, hl⟩ := runWorkers_ok_mem job clock count c _ m m2 h _ hmem
  rw [hcast] at hl
  have hle : (count - 1) % c ≤ count - 1 := by
    have := Int.emod_add_ediv (count - 1) c
    have : 0 ≤ c * ((count - 1) / c) :=
      Int.mul_nonneg hc.le (Int.ediv_nonneg (by omega) hc.le)
    omega
  obtain ⟨e, he⟩ := workerLoop_overflow job clock count c hc hcmax hcountmax hov
    (count.toNat + 1) ((count - 1) % c) ma hm0 (by omega) (Int.dvd_sub_of_emod_eq rfl)
  rw [he] at hl
  cases hl

theorem processed_allocate (job : Job) (clock : Clock) (m : JobMeasurer) (count c : Int)
    (hc : 0 < c) (metricsName : List String) :
    Processed job clock count.toNat m.interMetricsName.length metricsName.length
      (fun j => j % c < ((0 : Nat) : Int)) (allocate m count metricsName) := by
  refine ⟨rfl, by simp [allocate], by simp [allocate], by simp [allocate], ?_⟩
  intro k hk
  constructor
  · intro h
    have := Int.emod_nonneg (k : Int) hc.ne'
    simp only [Nat.cast_zero] at h
    omega
  · intro _
    simp [allocate, List.getElem?_replicate, hk]

/-- The parts of a successful `Run` on valid arguments. -/
theorem run_ok_parts (sqrt : ℚ → ℚ) (clock : Clock) (m : JobMeasurer) (count c : Int)
    (metricsName : List String) (job : Job) (r : JobStatistic) (m2 : JobMeasurer)
    (hcount : 0 < count) (hc : 0 < c)
    (h : Run sqrt clock m count c metricsName (some job) = .ok (r, m2)) :
    ∃ inner outer,
      runWorkers job clock count c (List.range c.toNat) (allocate m count metricsName)
        = .ok m2 ∧
      calAll sqrt m2 (seconds clock.runTime) m2.interJobMetrics 0 m2.interMetricsName
        = .ok inner ∧
      calAll sqrt m2 (seconds clock.runTime) m2.outerJobMetrics 0 metricsName = .ok outer ∧
      r = { RunTime := clock.runTime
            TotalDuration := sumDurations m2.jobDurations 0
            PerSeconds := if sumDurations m2.jobDurations 0 > 0
              then (count : ℚ) / seconds clock.runTime else 0
            Count := count
            Concurrency := c
            MetricStatistic := inner ++ outer } := by
  have hv : ¬ (count ≤ 0 ∨ c ≤ 0) := by omega
  simp only [Run, if_neg hv, bind, Except.bind, pure, Except.pure] at h
  split at h
  · cases h
  · rename_i m1 hrun
    split at h
    · cases h
    · rename_i inner hinner
      split at h
      · cases h
      · rename_i outer houter
        cases h
        exact ⟨inner, outer, hrun, hinner, houter, rfl⟩

/-- A `Run` on valid arguments that returns has processed every index: each
caller slot is what the job left of a fresh slot, each duration is the measured
one, and each built-in slot carries the latency and the error indicator. -/
theorem run_ok_processed (sqrt : ℚ → ℚ) (clock : Clock) (m : JobMeasurer) (count c : Int)
    (metricsName : List String) (job : Job) (r : JobStatistic) (m2 : JobMeasurer)
    (hcount : 0 < count) (hc : 0 < c) (hcountmax : count ≤ maxInt) (hcmax : c ≤ maxInt)
    (h : Run sqrt clock m count c metricsName (some job) = .ok (r, m2)) :
    Processed job clock count.toNat m.interMetricsName.length metricsName.length
      (fun _ => True) m2 := by
  obtain ⟨_, _, hrun, _, _, _⟩ :=
    run_ok_parts sqrt clock m count c metricsName job r m2 hcount hc h
  have hb := runWorkers_ok_bound job clock count c hcount hc hcountmax hcmax _ _ hrun
  have hn : ((count.toNat : Nat) : Int) = count := Int.toNat_of_nonneg hcount.le
  rw [List.range_eq_range'] at hrun
  have hP := runWorkers_processed job clock count c hc hb count.toNat
    m.interMetricsName.length metricsName.length hn c.toNat 0 _ m2
    (by rw [Nat.zero_add, Int.toNat_of_nonneg hc.le])
    (processed_allocate job clock m count c hc metricsName) hrun
  apply processed_congr job clock _ _ _ _ _ m2 hP
  intro k _
  have : (k : Int) % c < c := Int.emod_lt_of_pos _ hc
  rw [Nat.zero_add, Int.toNat_of_nonneg hc.le]
  exact ⟨fun _ => trivial, fun _ => this⟩

/-! ## The report of a run -/

theorem workerBody_names (job : Job) (clock : Clock) (m m2 : JobMeasurer) (k : Int)
    (h : workerBody job clock m k = .ok m2) : m2.interMetricsName = m.interMetricsName := by
  simp only [workerBody, bind, Except.bind, pure, Except.pure] at h
  repeat' split at h
  all_goals first | cases h; rfl | cases h

theorem workerLoop_names (job : Job) (clock : Clock) (count c : Int) :
    ∀ (fuel : Nat) (k : Int) (m m2 : JobMeasurer),
      workerLoop job clock count c fuel k m = .ok m2 →
      m2.interMetricsName = m.interMetricsName := by
  intro fuel
  induction fuel with
  | zero =>
    intro k m m2 h
    unfold workerLoop at h
    split at h
    · cases h
    · cases h; rfl
  | succ fuel ih =>
    intro k m m2 h
    unfold workerLoop at h
    split at h
    · cases hbody : workerBody job clock m k with
      | error e => rw [hbody] at h; cases h
      | ok m1 =>
        rw [hbody] at h
        rw [ih _ _ _ h, workerBody_names job clock m m1 k hbody]
    · cases h; rfl

theorem runWorkers_names (job : Job) (clock : Clock) (count c : Int) :
    ∀ (ns : List Nat) (m m2 : JobMeasurer),
      runWorkers job clock count c ns m = .ok m2 →
      m2.interMetricsName = m.interMetricsName := by
  intro ns
  induction ns with
  | nil => intro m m2 h; cases h; rfl
  | cons n ns ih =>
    intro m m2 h
    simp only [runWorkers] at h
    cases hl : workerLoop job clock count c (count.toNat + 1) (n : Int) m with
    | error e => rw [hl] at h; cases h
    | ok m1 =>
      rw [hl] at h
      rw [ih _ _ h, workerLoop_names job clock count c _ _ m m1 hl]

theorem calMetricStatistic_name (sqrt : ℚ → ℚ) (m : JobMeasurer) (idx : Nat) (name : String)
    (secs : ℚ) (metric : List JobMetric) (ret : MetricStatistic)
    (h : calMetricStatistic sqrt m idx name secs metric = .ok ret) : ret.Name = name := by
  obtain ⟨_, _, hret⟩ := calMetricStatistic_ok sqrt m idx name secs metric ret h
  rw [hret, statOf]
  split <;> rfl

theorem calAll_ok (sqrt : ℚ → ℚ) (m : JobMeasurer) (secs : ℚ) (metric : List JobMetric) :
    ∀ (names : List String) (i : Nat) (ss : List MetricStatistic),
      calAll sqrt m secs metric i names = .ok ss →
      ss.length = names.length ∧
      ss.map (fun s => s.Name) = names ∧
      ∀ j s, ss[j]? = some s →
        calMetricStatistic sqrt m (i + j) s.Name secs metric = .ok s := by
  intro names
  induction names with
  | nil =>
    intro i ss h
    simp only [calAll] at h
    cases h
    simp
  | cons name rest ih =>
    intro i ss h
    simp only [calAll] at h
    cases hc : calMetricStatistic sqrt m i name secs metric with
    | error e => rw [hc] at h; cases h
    | ok s0 =>
      rw [hc] at h
      simp only at h
      cases hr : calAll sqrt m secs metric (i + 1) rest with
      | error e => rw [hr] at h; cases h
      | ok ss0 =>
        rw [hr] at h
        cases h
        obtain ⟨h1, h2, h3⟩ := ih (i + 1) ss0 hr
        have hname := calMetricStatistic_name sqrt m i name secs metric s0 hc
        refine ⟨by simp [h1], by simp [h2, hname], ?_⟩
        intro j s hj
        cases j with
        | zero =>
          simp only [List.getElem?_cons_zero, Option.some.injEq] at hj
          subst hj
          rw [hname]; exact hc
        | succ j =>
          simp only [List.getElem?_cons_succ] at hj
          have := h3 j s hj
          have e : i + (j + 1) = i + 1 + j := by omega
          rw [e]; exact this

theorem sum_indicator (p : Nat → Bool) (l : List Nat) :
    (l.map (fun k => if p k then (1 : ℚ) else 0)).sum = ((l.filter p).length : ℚ) := by
  induction l with
  | nil => simp
  | cons a rest ih =>
    by_cases h : p a
    · simp [List.filter_cons, h, ih]; ring
    · simp [List.filter_cons, h, ih]

theorem column_error (job : Job) (clock : Clock) (n len p : Nat) (m : JobMeasurer)
    (h : Processed job clock n len p (fun _ => True) m) :
    column MetricIndexError m.interJobMetrics
      = (List.range n).map (fun k => if jobFailed job p k then (1 : ℚ) else 0) := by
  obtain ⟨_, _, h3, _, h5⟩ := h
  apply List.ext_getElem
  · simp [column, h3]
  · intro k hk1 hk2
    have hk : k < n := by simpa [column, h3] using hk1
    obtain ⟨slot, failed, hjob, _, _, hi, hlen⟩ := (h5 k hk).1 trivial
    have hlt : k < m.interJobMetrics.length := by omega
    have hget : m.interJobMetrics[k] = ⟨builtinValues len (seconds (clock.elapsed k)) failed⟩ := by
      rw [List.getElem?_eq_getElem hlt] at hi
      exact Option.some.inj hi
    simp only [column, List.getElem_map, List.getElem_range, hget, jobFailed, hjob]
    simp [builtinValues, MetricIndexError, MetricIndexLatency, List.getD_eq_getElem?_getD,
      List.getElem?_set, hlen]

theorem column_latency (job : Job) (clock : Clock) (n len p : Nat) (m : JobMeasurer)
    (h : Processed job clock n len p (fun _ => True) m) :
    column MetricIndexLatency m.interJobMetrics
      = (List.range n).map (fun k : Nat => seconds (clock.elapsed (k : Int))) := by
  obtain ⟨_, _, h3, _, h5⟩ := h
  apply List.ext_getElem
  · simp [column, h3]
  · intro k hk1 hk2
    have hk : k < n := by simpa [column, h3] using hk1
    obtain ⟨slot, failed, hjob, _, _, hi, hlen⟩ := (h5 k hk).1 trivial
    have hlt : k < m.interJobMetrics.length := by omega
    have hget : m.interJobMetrics[k] = ⟨builtinValues len (seconds (clock.elapsed k)) failed⟩ := by
      rw [List.getElem?_eq_getElem hlt] at hi
      exact Option.some.inj hi
    have h0 : 0 < len := by omega
    simp only [column, List.getElem_map, List.getElem_range, hget]
    simp [builtinValues, MetricIndexError, MetricIndexLatency, List.getD_eq_getElem?_getD,
      List.getElem?_set, h0]

theorem run_jobLinear (sqrt : ℚ → ℚ) :
    Run sqrt clockOneSecond NewJobMeasurer 2 1 ["m"] (some jobLinear) = .ok
      (⟨2000000000, 2000000000, 1, 2, 1,
        [⟨MetricNameLatency, 2, 2, 1, 1, 1, sqrt 0, 0, 1, 1⟩,
         ⟨MetricNameError, 0, 2, 0, 0, 0, 0, 0, 0, 0⟩,
         ⟨"m", 8, 2, 4, 2, 6, sqrt 9, 0, 6, 6⟩]⟩,
       ⟨[1000000000, 1000000000], [MetricNameLatency, MetricNameError],
        [⟨[1, 0]⟩, ⟨[1, 0]⟩], [⟨[2]⟩, ⟨[6]⟩]⟩) := by
  simp [Run, allocate, runWorkers, workerLoop, workerBody, calAll, calMetricStatistic, aggLoop,
    aggStep, stdevLoop, index, indexInt, store, storeInt, jobLinear, SetMetricsValue,
    setValuesFrom, clockOneSecond, NewJobMeasurer, newJobMetric, seconds, sumDurations,
    wrapInt, MetricIndexLatency, MetricIndexError, List.range, List.range.loop, bind,
    Except.bind, pure, Except.pure, sortFloat64s, percentileIndex]
  norm_num

theorem run_jobSucceeds (sqrt : ℚ → ℚ) :
    Run sqrt clockOneSecond NewJobMeasurer 4 2 [] (some jobSucceeds) = .ok
      (⟨2000000000, 4000000000, 2, 4, 2,
        [⟨MetricNameLatency, 4, 2, 1, 1, 1, sqrt 0, 0, 1, 1⟩,
         ⟨MetricNameError, 0, 2, 0, 0, 0, 0, 0, 0, 0⟩]⟩,
       ⟨[1000000000, 1000000000, 1000000000, 1000000000],
        [MetricNameLatency, MetricNameError],
        [⟨[1, 0]⟩, ⟨[1, 0]⟩, ⟨[1, 0]⟩, ⟨[1, 0]⟩], [⟨[]⟩, ⟨[]⟩, ⟨[]⟩, ⟨[]⟩]⟩) := by
  simp [Run, allocate, runWorkers, workerLoop, workerBody, calAll, calMetricStatistic, aggLoop,
    aggStep, stdevLoop, index, indexInt, store, storeInt, jobSucceeds,
    clockOneSecond, NewJobMeasurer, newJobMetric, seconds, sumDurations,
    wrapInt, MetricIndexLatency, MetricIndexError, List.range, List.range.loop, bind,
    Except.bind, pure, Except.pure, sortFloat64s, percentileIndex]
  norm_num

theorem run_jobFails (sqrt : ℚ → ℚ) :
    Run sqrt clockOneSecond NewJobMeasurer 4 2 [] (some jobFails) = .ok
      (⟨2000000000, 4000000000, 2, 4, 2,
        [⟨MetricNameLatency, 4, 2, 1, 1, 1, sqrt 0, 0, 1, 1⟩,
         ⟨MetricNameError, 4, 2, 1, 1, 1, sqrt 0, 0, 1, 1⟩]⟩,
       ⟨[1000000000, 1000000000, 1000000000, 1000000000],
        [MetricNameLatency, MetricNameError],
        [⟨[1, 1]⟩, ⟨[1, 1]⟩, ⟨[1, 1]⟩, ⟨[1, 1]⟩], [⟨[]⟩, ⟨[]⟩, ⟨[]⟩, ⟨[]⟩]⟩) := by
  simp [Run, allocate, runWorkers, workerLoop, workerBody, calAll, calMetricStatistic, aggLoop,
    aggStep, stdevLoop, index, indexInt, store, storeInt, jobFails,
    clockOneSecond, NewJobMeasurer, newJobMetric, seconds, sumDurations,
    wrapInt, MetricIndexLatency, MetricIndexError, List.range, List.range.loop, bind,
    Except.bind, pure, Except.pure, sortFloat64s, percentileIndex]
  norm_num

theorem workerBody_returns (job : Job) (clock : Clock) (count c : Int)
    (n len p : Nat) (hn : (n : Int) = count) (w : Nat) (k : Int) (m : JobMeasurer)
    (hk0 : 0 ≤ k) (hk : k < count) (hkw : k % c = w) (hlen : 1 < len)
    (hjob : JobReturns job count p)
    (hP : Processed job clock n len p (doneBefore c w k) m) :
    ∃ m1, workerBody job clock m k = .ok m1 := by
  have hkn : ((k.toNat : Nat) : Int) = k := Int.toNat_of_nonneg hk0
  have hlt : k.toNat < n := by omega
  have hnot : ¬ doneBefore c w k ((k.toNat : Nat) : Int) := by
    rw [hkn]; simp only [doneBefore]; omega
  obtain ⟨_, h2, _, _, h5⟩ := hP
  obtain ⟨ho, _, hi⟩ := (h5 k.toNat hlt).2 hnot
  obtain ⟨slot, failed, hj, _⟩ := hjob k.toNat (by omega)
  have h := workerBody_fresh job clock m k.toNat p len ho (by omega) hi
  rw [hkn] at h hj
  rw [h, hj]
  simp only [if_pos hlen]
  exact ⟨_, rfl⟩

theorem workerLoop_returns (job : Job) (clock : Clock) (count c : Int) (hc : 0 < c)
    (hb : count + c ≤ 2 ^ 63) (n len p : Nat) (hn : (n : Int) = count) (w : Nat)
    (hlen : 1 < len) (hjob : JobReturns job count p) :
    ∀ (fuel : Nat) (k : Int) (m : JobMeasurer), 0 ≤ k → k % c = w → count ≤ k + fuel →
      Processed job clock n len p (doneBefore c w k) m →
      ∃ m2, workerLoop job clock count c fuel k m = .ok m2 := by
  intro fuel
  induction fuel with
  | zero =>
    intro k m _ _ hf _
    have : ¬ k < count := by push_cast at hf; omega
    exact ⟨m, by simp [workerLoop, this]⟩
  | succ fuel ih =>
    intro k m hk0 hkw hf hP
    unfold workerLoop
    by_cases hk : k < count
    · rw [if_pos hk]
      have hw : wrapInt (k + c) = k + c := wrapInt_eq_self (by omega) (by omega)
      obtain ⟨m1, hbody⟩ := workerBody_returns job clock count c n len p hn w k m hk0 hk hkw
        hlen hjob hP
      rw [hbody, hw]
      exact ih (k + c) m1 (by omega) (by rw [Int.add_emod_self]; exact hkw)
        (by push_cast at hf; omega)
        (processed_advance job clock count c hc n len p hn w k m m1 hk0 hk hkw hP hbody)
    · rw [if_neg hk]; exact ⟨m, rfl⟩

theorem runWorkers_returns (job : Job) (clock : Clock) (count c : Int) (hc : 0 < c)
    (hb : count + c ≤ 2 ^ 63) (n len p : Nat) (hn : (n : Int) = count)
    (hlen : 1 < len) (hjob : JobReturns job count p) :
    ∀ (cnt w : Nat) (m : JobMeasurer), ((w + cnt : Nat) : Int) ≤ c →
      Processed job clock n len p (fun j => j % c < (w : Int)) m →
      ∃ m2, runWorkers job clock count c (List.range' w cnt) m = .ok m2 := by
  intro cnt
  induction cnt with
  | zero => intro w m _ _; exact ⟨m, by simp [runWorkers]⟩
  | succ cnt ih =>
    intro w m hle hP
    simp only [List.range'_succ, runWorkers]
    have hwc : (w : Int) < c := by push_cast at hle; omega
    have hmod : (w : Int) % c = w := Int.emod_eq_of_lt (by omega) hwc
    have hP0 : Processed job clock n len p (doneBefore c w (w : Int)) m := by
      apply processed_congr job clock n len p _ _ m hP
      intro j _
      simp only [doneBefore]
      constructor
      · exact fun h1 => Or.inl h1
      · rintro (h1 | ⟨h1, h2⟩)
        · exact h1
        · exfalso
          have : (j : Int) % c = j := Int.emod_eq_of_lt (by omega) (by omega)
          omega
    obtain ⟨m1, hl⟩ := workerLoop_returns job clock count c hc hb n len p hn w hlen hjob
      (count.toNat + 1) (w : Int) m (by omega) hmod (by push_cast; omega) hP0
    rw [hl]
    have hP1 := workerLoop_processed job clock count c hc hb n len p hn w _ _ m m1
      (by omega) hmod hP0 hl
    exact ih (w + 1) m1 (by push_cast at hle ⊢; omega) hP1

theorem length_builtinValues (len : Nat) (secs : ℚ) (failed : Bool) :
    (builtinValues len secs failed).length = len := by
  simp [builtinValues]

theorem processed_inRange_inter (job : Job) (clock : Clock) (n len p : Nat) (m : JobMeasurer)
    (h : Processed job clock n len p (fun _ => True) m) (idx : Nat) (hidx : idx < len) :
    InRange idx m.interJobMetrics := by
  obtain ⟨_, _, h3, _, h5⟩ := h
  intro v hv
  obtain ⟨k, hk, rfl⟩ := List.mem_iff_getElem.mp hv
  obtain ⟨_, _, _, _, _, hi, _⟩ := (h5 k (by omega)).1 trivial
  rw [List.getElem?_eq_getElem hk] at hi
  rw [Option.some.inj hi, length_builtinValues]
  exact hidx

theorem processed_inRange_outer (job : Job) (clock : Clock) (count : Int) (n len p : Nat)
    (hn : (n : Int) = count) (m : JobMeasurer)
    (h : Processed job clock n len p (fun _ => True) m) (hjob : JobReturns job count p)
    (idx : Nat) (hidx : idx < p) : InRange idx m.outerJobMetrics := by
  obtain ⟨_, _, _, h4, h5⟩ := h
  intro v hv
  obtain ⟨k, hk, rfl⟩ := List.mem_iff_getElem.mp hv
  obtain ⟨slot, failed, hj, ho, _⟩ := (h5 k (by omega)).1 trivial
  obtain ⟨slot1, failed1, hj1, hl1⟩ := hjob k (by omega)
  rw [hj1] at hj
  cases hj
  rw [List.getElem?_eq_getElem hk] at ho
  rw [Option.some.inj ho, hl1]
  exact hidx

theorem calAll_returns (sqrt : ℚ → ℚ) (m : JobMeasurer) (secs : ℚ) (metric : List JobMetric) :
    ∀ (names : List String) (i : Nat),
      (∀ j, j < names.length → InRange (i + j) metric ∧ InRange (i + j) m.interJobMetrics) →
      ∃ ss, calAll sqrt m secs metric i names = .ok ss := by
  intro names
  induction names with
  | nil => intro i _; exact ⟨[], rfl⟩
  | cons name rest ih =>
    intro i h
    obtain ⟨h0, h0'⟩ := h 0 (by simp)
    obtain ⟨ss, hss⟩ := ih (i + 1) (fun j hj => by
      have := h (j + 1) (by simp; omega)
      have e : i + (j + 1) = i + 1 + j := by omega
      rw [e] at this; exact this)
    simp only [calAll]
    rw [calMetricStatistic_eq sqrt m i name secs metric h0 (fun _ => h0'), hss]
    exact ⟨_, rfl⟩

/-- `Run` returns a report on valid arguments without stride overflow, on a
measurer that carries the two built-in metric names, when the job returns at
every index leaving its slot length in place and at most two caller metrics are
declared. -/
theorem run_returns (sqrt : ℚ → ℚ) (clock : Clock) (m : JobMeasurer) (count c : Int)
    (metricsName : List String) (job : Job) (hcount : 0 < count) (hc : 0 < c)
    (hb : count + c ≤ 2 ^ 63)
    (hm : m.interMetricsName = [MetricNameLatency, MetricNameError])
    (hjob : JobReturns job count metricsName.length) (hp : metricsName.length ≤ 2) :
    ∃ r m2, Run sqrt clock m count c metricsName (some job) = .ok (r, m2) := by
  have hn : ((count.toNat : Nat) : Int) = count := Int.toNat_of_nonneg hcount.le
  have hlen : m.interMetricsName.length = 2 := by rw [hm]; rfl
  have hP0 := processed_allocate job clock m count c hc metricsName
  have hle : (((0 : Nat) + c.toNat : Nat) : Int) ≤ c := by
    rw [Nat.zero_add, Int.toNat_of_nonneg hc.le]
  obtain ⟨m2, hrun⟩ := runWorkers_returns job clock count c hc hb count.toNat
    m.interMetricsName.length metricsName.length hn (by omega) hjob c.toNat 0 _ hle hP0
  have hP := runWorkers_processed job clock count c hc hb count.toNat
    m.interMetricsName.length metricsName.length hn c.toNat 0 _ m2 hle hP0 hrun
  have hPT : Processed job clock count.toNat m.interMetricsName.length metricsName.length
      (fun _ => True) m2 := by
    apply processed_congr job clock _ _ _ _ _ m2 hP
    intro k _
    have : (k : Int) % c < c := Int.emod_lt_of_pos _ hc
    rw [Nat.zero_add, Int.toNat_of_nonneg hc.le]
    exact ⟨fun _ => trivial, fun _ => this⟩
  rw [← List.range_eq_range'] at hrun
  have hnames : m2.interMetricsName = [MetricNameLatency, MetricNameError] := by
    rw [runWorkers_names job clock count c _ _ m2 hrun]; exact hm
  obtain ⟨inner, hinner⟩ := calAll_returns sqrt m2 (seconds clock.runTime) m2.interJobMetrics
    m2.interMetricsName 0 (fun j hj => by
      rw [hnames] at hj
      have hj2 : j < 2 := hj
      have := processed_inRange_inter job clock _ _ _ m2 hPT (0 + j) (by omega)
      exact ⟨this, this⟩)
  obtain ⟨outer, houter⟩ := calAll_returns sqrt m2 (seconds clock.runTime) m2.outerJobMetrics
    metricsName 0 (fun j hj => by
      exact ⟨processed_inRange_outer job clock count _ _ _ hn m2 hPT hjob (0 + j) (by omega),
        processed_inRange_inter job clock _ _ _ m2 hPT (0 + j) (by omega)⟩)
  have hv : ¬ (count ≤ 0 ∨ c ≤ 0) := by omega
  have hres : ∃ r, Run sqrt clock m count c metricsName (some job) = .ok (r, m2) := by
    simp only [Run, if_neg hv, bind, Except.bind, pure, Except.pure, hrun, hinner, houter]
    exact ⟨_, rfl⟩
  obtain ⟨r, hr⟩ := hres
  exact ⟨r, m2, hr⟩

/-- A `Run` on valid arguments returns no report when `count + concurrency`
exceeds `2 ^ 63`: a worker panics after its stride step has wrapped. -/
theorem run_ok_bound (sqrt : ℚ → ℚ) (clock : Clock) (m : JobMeasurer) (count c : Int)
    (metricsName : List String) (job : Job) (r : JobStatistic) (m2 : JobMeasurer)
    (hcount : 0 < count) (hc : 0 < c) (hcountmax : count ≤ maxInt) (hcmax : c ≤ maxInt)
    (h : Run sqrt clock m count c metricsName (some job) = .ok (r, m2)) :
    count + c ≤ 2 ^ 63 := by
  obtain ⟨_, _, hrun, _, _, _⟩ :=
    run_ok_parts sqrt clock m count c metricsName job r m2 hcount hc h
  exact runWorkers_ok_bound job clock count c hcount hc hcountmax hcmax _ _ hrun

/-- C10: a `Run` on valid arguments that returns, on a measurer that carries the
two built-in metric names, reports `2 + len(metricNames)` statistics: the
latency statistic, the error statistic, then one statistic per caller metric in
the declared order, entry `2 + i` being the aggregation of caller metric `i`
under the name `metricNames[i]`. -/
theorem report_statistics_order (sqrt : ℚ → ℚ) (clock : Clock) (m : JobMeasurer)
    (count c : Int) (metricsName : List String) (job : Job) (r : JobStatistic)
    (m2 : JobMeasurer) (hcount : 0 < count) (hc : 0 < c)
    (hm : m.interMetricsName = [MetricNameLatency, MetricNameError])
    (h : Run sqrt clock m count c metricsName (some job) = .ok (r, m2)) :
    r.MetricStatistic.length = 2 + metricsName.length ∧
    r.MetricStatistic.map (fun s => s.Name)
      = MetricNameLatency :: MetricNameError :: metricsName ∧
    (∃ s, r.MetricStatistic[0]? = some s ∧
      calMetricStatistic sqrt m2 MetricIndexLatency MetricNameLatency (seconds clock.runTime)
        m2.interJobMetrics = .ok s) ∧
    (∃ s, r.MetricStatistic[1]? = some s ∧
      calMetricStatistic sqrt m2 MetricIndexError MetricNameError (seconds clock.runTime)
        m2.interJobMetrics = .ok s) ∧
    (∀ i, i < metricsName.length → ∃ s, r.MetricStatistic[2 + i]? = some s ∧
      metricsName[i]? = some s.Name ∧
      calMetricStatistic sqrt m2 i s.Name (seconds clock.runTime) m2.outerJobMetrics
        = .ok s) := by
  obtain ⟨inner, outer, hrun, hinner, houter, hr⟩ :=
    run_ok_parts sqrt clock m count c metricsName job r m2 hcount hc h
  have hnames : m2.interMetricsName = [MetricNameLatency, MetricNameError] := by
    rw [runWorkers_names job clock count c _ _ m2 hrun]; exact hm
  rw [hnames] at hinner
  obtain ⟨hi1, hi2, hi3⟩ := calAll_ok sqrt m2 _ _ _ _ _ hinner
  obtain ⟨ho1, ho2, ho3⟩ := calAll_ok sqrt m2 _ _ _ _ _ houter
  obtain ⟨s0, s1, rfl⟩ : ∃ s0 s1, inner = [s0, s1] := by
    match inner, hi1 with
    | [a, b], _ => exact ⟨a, b, rfl⟩
  simp only [List.map, List.cons.injEq, and_true] at hi2
  obtain ⟨hn0, hn1⟩ := hi2
  have hs0 := hi3 0 s0 rfl
  have hs1 := hi3 1 s1 rfl
  rw [hn0] at hs0
  rw [hn1] at hs1
  subst hr
  refine ⟨by simp [ho1]; omega, by simp [ho2, hn0, hn1], ⟨s0, by simp, hs0⟩,
    ⟨s1, by simp, hs1⟩, ?_⟩
  intro i hi
  have hlt : i < outer.length := by omega
  refine ⟨outer[i], ?_, ?_, ?_⟩
  · have e : 2 + i = i + 2 := by omega
    simp [e, List.getElem?_eq_getElem hlt]
  · have := congrArg (fun l => l[i]?) ho2
    simp only [List.getElem?_map, List.getElem?_eq_getElem hlt, Option.map_some'] at this
    exact this.symm
  · have := ho3 i outer[i] (List.getElem?_eq_getElem hlt)
    simpa using this

/-- C10, at `count = 2`, `concurrency = 1` and one caller metric. -/
theorem report_statistics_order_witness :
    ∃ r m2, Run (fun x => x) clockOneSecond NewJobMeasurer 2 1 ["m"] (some jobLinear)
        = .ok (r, m2) ∧
      r.MetricStatistic.length = 2 + 1 ∧
      r.MetricStatistic.map (fun s => s.Name) = [MetricNameLatency, MetricNameError, "m"] := by
  have h := run_jobLinear (fun x => x)
  have hw := report_statistics_order (fun x => x) clockOneSecond NewJobMeasurer 2 1 ["m"]
    jobLinear _ _ (by decide) (by decide) rfl h
  exact ⟨_, _, h, hw.1, hw.2.1⟩

/-- C7: on valid arguments and a measurer that carries the two built-in metric
names, `Run` returns a report when the job returns at every index, at most two
caller metrics are declared and the stride step cannot overflow; and whenever
`Run` returns, the invocation of every index `k` has returned, the error slot
of `k` holds 1 if it returned an error and 0 otherwise, and the error statistic,
second in the report, has `Total` the number `f` of failing indices and
`Avg = f / count`; so `Total = 0` and `Avg = 0` when no invocation fails, and
`Avg = 1` when every invocation fails. -/
theorem error_statistic (sqrt : ℚ → ℚ) (clock : Clock) (m : JobMeasurer)
    (count c : Int) (metricsName : List String) (job : Job)
    (hcount : 0 < count) (hc : 0 < c)
    (hcountmax : count ≤ maxInt) (hcmax : c ≤ maxInt)
    (hm : m.interMetricsName = [MetricNameLatency, MetricNameError]) :
    (JobReturns job count metricsName.length → metricsName.length ≤ 2 →
      count + c ≤ 2 ^ 63 →
      ∃ r m2, Run sqrt clock m count c metricsName (some job) = .ok (r, m2)) ∧
    ∀ r m2, Run sqrt clock m count c metricsName (some job) = .ok (r, m2) →
    (∀ k : Nat, (k : Int) < count → ∃ slot failed v,
      job (k : Int) (newJobMetric metricsName.length) = .ok (slot, failed) ∧
      m2.interJobMetrics[k]? = some v ∧
      v.values[MetricIndexError]? = some (if failed then 1 else 0)) ∧
    ∃ s, r.MetricStatistic[1]? = some s ∧
      s.Total = (failures job metricsName.length count.toNat : ℚ) ∧
      s.Avg = (failures job metricsName.length count.toNat : ℚ) / (count : ℚ) ∧
      ((∀ k : Nat, (k : Int) < count → jobFailed job metricsName.length k = false) →
        s.Total = 0 ∧ s.Avg = 0) ∧
      ((∀ k : Nat, (k : Int) < count → jobFailed job metricsName.length k = true) →
        s.Avg = 1) := by
  refine ⟨fun hjob hp hb =>
    run_returns sqrt clock m count c metricsName job hcount hc hb hm hjob hp, ?_⟩
  intro r m2 h
  have hP := run_ok_processed sqrt clock m count c metricsName job r m2 hcount hc
    hcountmax hcmax h
  have hn : ((count.toNat : Nat) : Int) = count := Int.toNat_of_nonneg hcount.le
  constructor
  · intro k hk
    obtain ⟨_, _, _, _, h5⟩ := hP
    obtain ⟨slot, failed, hjob, _, _, hi, hlen⟩ := (h5 k (by omega)).1 trivial
    refine ⟨slot, failed, _, hjob, hi, ?_⟩
    simp [builtinValues, MetricIndexError, MetricIndexLatency, List.getElem?_set, hlen]
  · obtain ⟨inner, outer, hrun, hinner, _, hr⟩ :=
      run_ok_parts sqrt clock m count c metricsName job r m2 hcount hc h
    have hnames : m2.interMetricsName = [MetricNameLatency, MetricNameError] := by
      rw [runWorkers_names job clock count c _ _ m2 hrun]; exact hm
    rw [hnames] at hinner
    obtain ⟨hi1, _, hi3⟩ := calAll_ok sqrt m2 _ _ _ _ _ hinner
    obtain ⟨s0, s1, rfl⟩ : ∃ s0 s1, inner = [s0, s1] := by
      match inner, hi1 with
      | [a, b], _ => exact ⟨a, b, rfl⟩
    have hs1 := hi3 1 s1 rfl
    obtain ⟨_, _, hstat⟩ := calMetricStatistic_ok sqrt m2 _ _ _ _ s1 hs1
    have hcol := column_error job clock _ _ _ m2 hP
    have hcol' : column (0 + 1) m2.interJobMetrics
        = (List.range count.toNat).map
            (fun k => if jobFailed job metricsName.length k then (1 : ℚ) else 0) := hcol
    have hsum : (column (0 + 1) m2.interJobMetrics).sum
        = (failures job metricsName.length count.toNat : ℚ) := by
      rw [hcol', sum_indicator]; rfl
    have hlen : ((column (0 + 1) m2.interJobMetrics).length : ℚ) = (count : ℚ) := by
      rw [hcol']; simp only [List.length_map, List.length_range]
      exact_mod_cast hn
    have hTotal : s1.Total = (failures job metricsName.length count.toNat : ℚ) := by
      rw [hstat, statOf]; split <;> exact hsum
    have hAvg : s1.Avg = (failures job metricsName.length count.toNat : ℚ) / (count : ℚ) := by
      rw [hstat, statOf]
      split
      · rename_i h0
        have hz : (column (0 + 1) m2.interJobMetrics).sum = 0 := by
          rcases h0 with h0 | h0
          · exact h0
          · rw [List.length_eq_zero] at h0; rw [h0]; rfl
        rw [← hsum, hz]; simp
      · simp only [hsum, hlen]
    subst hr
    refine ⟨s1, by simp, hTotal, hAvg, ?_, ?_⟩
    · intro hall
      have hf : failures job metricsName.length count.toNat = 0 := by
        unfold failures
        rw [List.length_eq_zero, List.filter_eq_nil_iff]
        intro k hk
        rw [List.mem_range] at hk
        rw [hall k (by omega)]; simp
      rw [hTotal, hAvg, hf]; simp
    · intro hall
      have hf : failures job metricsName.length count.toNat = count.toNat := by
        unfold failures
        have : (List.range count.toNat).filter (jobFailed job metricsName.length)
            = List.range count.toNat := by
          rw [List.filter_eq_self]
          intro k hk
          rw [List.mem_range] at hk
          exact hall k (by omega)
        rw [this, List.length_range]
      have hq : ((count.toNat : Nat) : ℚ) = (count : ℚ) := by exact_mod_cast hn
      have hne : (count : ℚ) ≠ 0 := by
        have : (0 : ℚ) < (count : ℚ) := by exact_mod_cast hcount
        exact this.ne'
      rw [hAvg, hf, hq, div_self hne]

/-- C7, at `count = 4`, `concurrency = 2`: with a job that always succeeds the
error statistic has `Total = 0` and `Avg = 0`, and with a job that always fails
it has `Avg = 1`. -/
theorem error_statistic_witness :
    (∃ r m2 s, Run (fun x => x) clockOneSecond NewJobMeasurer 4 2 [] (some jobSucceeds)
        = .ok (r, m2) ∧ r.Count = 4 ∧ r.MetricStatistic[1]? = some s ∧
        s.Total = 0 ∧ s.Avg = 0) ∧
    (∃ r m2 s, Run (fun x => x) clockOneSecond NewJobMeasurer 4 2 [] (some jobFails)
        = .ok (r, m2) ∧ r.MetricStatistic[1]? = some s ∧ s.Avg = 1) := by
  constructor
  · have h := run_jobSucceeds (fun x => x)
    obtain ⟨_, s, hs, _, _, hzero, _⟩ := (error_statistic (fun x => x) clockOneSecond
      NewJobMeasurer 4 2 [] jobSucceeds (by decide) (by decide) (by decide) (by decide)
      rfl).2 _ _ h
    exact ⟨_, _, s, h, rfl, hs, hzero (fun _ _ => rfl)⟩
  · have h := run_jobFails (fun x => x)
    obtain ⟨_, s, hs, _, _, _, hone⟩ := (error_statistic (fun x => x) clockOneSecond
      NewJobMeasurer 4 2 [] jobFails (by decide) (by decide) (by decide) (by decide)
      rfl).2 _ _ h
    exact ⟨_, _, s, h, hs, hone (fun _ _ => rfl)⟩

/-! ## Standard deviation of the built-in metrics -/

/-- For a metric aggregated over the built-in slot set of the measurer itself
(as `Run` does for latency and error) with a non-zero total, `Stdev` is the
square root of the population variance of the metric's own values. -/
theorem stdev_of_builtin_metric (sqrt : ℚ → ℚ) (m : JobMeasurer) (idx : Nat) (name : String)
    (secs : ℚ) (ret : MetricStatistic)
    (h : calMetricStatistic sqrt m idx name secs m.interJobMetrics = .ok ret)
    (hsum : (column idx m.interJobMetrics).sum ≠ 0) :
    ret.Stdev = sqrt (populationVariance (column idx m.interJobMetrics)) := by
  obtain ⟨_, _, hret⟩ := calMetricStatistic_ok sqrt m idx name secs _ ret h
  have h0 : ¬ ((column idx m.interJobMetrics).sum = 0 ∨
      (column idx m.interJobMetrics).length = 0) := by
    push_neg
    refine ⟨hsum, ?_⟩
    intro hl
    rw [List.length_eq_zero] at hl
    rw [hl] at hsum
    exact hsum rfl
  rw [hret, statOf, if_neg h0]
  rfl

/-- With a square root that is never negative, no statistic has a negative
`Stdev`. -/
theorem stdev_nonneg (sqrt : ℚ → ℚ) (hsqrt : ∀ x, 0 ≤ sqrt x) (m : JobMeasurer) (idx : Nat)
    (name : String) (secs : ℚ) (metric : List JobMetric) (ret : MetricStatistic)
    (h : calMetricStatistic sqrt m idx name secs metric = .ok ret) : 0 ≤ ret.Stdev := by
  obtain ⟨_, _, hret⟩ := calMetricStatistic_ok sqrt m idx name secs _ ret h
  rw [hret, statOf]
  split
  · exact le_refl _
  · exact hsqrt _

theorem sqDev_constant (v : ℚ) (xs : List ℚ) (hall : ∀ x ∈ xs, x = v) : sqDev v xs = 0 := by
  unfold sqDev
  induction xs with
  | nil => rfl
  | cons a rest ih =>
    have ha : a = v := hall a (List.mem_cons_self _ _)
    simp only [List.map_cons, List.sum_cons, ha, sub_self, mul_zero, zero_add]
    exact ih (fun x hx => hall x (List.mem_cons_of_mem _ hx))

theorem sum_constant (v : ℚ) (xs : List ℚ) (hall : ∀ x ∈ xs, x = v) :
    xs.sum = (xs.length : ℚ) * v := by
  induction xs with
  | nil => simp
  | cons a rest ih =>
    have ha : a = v := hall a (List.mem_cons_self _ _)
    simp only [List.sum_cons, List.length_cons, Nat.cast_add, Nat.cast_one, ha]
    rw [ih (fun x hx => hall x (List.mem_cons_of_mem _ hx))]
    ring

/-- For a metric aggregated over the built-in slot set of the measurer itself
whose values are all equal, `Stdev` is 0 as soon as `sqrt 0 = 0`. -/
theorem stdev_of_constant_builtin_metric (sqrt : ℚ → ℚ) (hsqrt : sqrt 0 = 0) (m : JobMeasurer)
    (idx : Nat) (name : String) (secs : ℚ) (ret : MetricStatistic) (v : ℚ)
    (h : calMetricStatistic sqrt m idx name secs m.interJobMetrics = .ok ret)
    (hall : ∀ x ∈ column idx m.interJobMetrics, x = v) : ret.Stdev = 0 := by
  obtain ⟨_, _, hret⟩ := calMetricStatistic_ok sqrt m idx name secs _ ret h
  rw [hret, statOf]
  split
  · rfl
  · rename_i h0
    push_neg at h0
    have hlen : ((column idx m.interJobMetrics).length : ℚ) ≠ 0 := by
      exact_mod_cast h0.2
    simp only
    rw [sum_constant v _ hall, mul_div_cancel_left₀ v hlen, sqDev_constant v _ hall,
      zero_div, hsqrt]

/-! ## The order of the loop bodies -/

theorem runBodies_append (job : Job) (clock : Clock) :
    ∀ (ks ks1 : List Int) (m : JobMeasurer),
      runBodies job clock (ks ++ ks1) m =
        match runBodies job clock ks m with
        | .ok m1 => runBodies job clock ks1 m1
        | .error e => .error e := by
  intro ks
  induction ks with
  | nil => intro ks1 m; rfl
  | cons k ks ih =>
    intro ks1 m
    simp only [List.cons_append, runBodies]
    cases workerBody job clock m k with
    | error e => rfl
    | ok m1 => exact ih ks1 m1

/-- Without stride overflow the workers of `Run` process the indices of
`launchOrder`, in that order. -/
theorem runWorkers_eq_runBodies (job : Job) (clock : Clock) (count c : Int) (hc : 0 < c)
    (hb : count + c ≤ 2 ^ 63) :
    ∀ (ns : List Nat) (m : JobMeasurer),
      runWorkers job clock count c ns m
        = runBodies job clock (ns.flatMap (visited count c)) m := by
  intro ns
  induction ns with
  | nil => intro m; rfl
  | cons n ns ih =>
    intro m
    simp only [runWorkers, List.flatMap_cons, runBodies_append]
    have h := workerLoop_eq_runBodies job clock count c hc hb (count.toNat + 1) (n : Int) m
      (by omega) (by push_cast; omega)
    rw [h]
    simp only [visited]
    cases runBodies job clock (workerIndices count c (count.toNat + 1) (n : Int)) m with
    | error e => rfl
    | ok m1 => exact ih m1

theorem runBodies_processed (job : Job) (clock : Clock) (n len p : Nat) :
    ∀ (ks : List Nat) (D : Int → Prop) (m m2 : JobMeasurer),
      (∀ k ∈ ks, k < n) → ks.Nodup → (∀ k ∈ ks, ¬ D (k : Int)) →
      Processed job clock n len p D m →
      runBodies job clock (ks.map (fun k : Nat => (k : Int))) m = .ok m2 →
      Processed job clock n len p (fun j => D j ∨ ∃ k ∈ ks, j = (k : Int)) m2 := by
  intro ks
  induction ks with
  | nil =>
    intro D m m2 _ _ _ hP h
    cases h
    exact processed_congr job clock n len p _ _ m hP (fun k _ => by simp)
  | cons k ks ih =>
    intro D m m2 hlt hnd hD hP h
    simp only [List.map_cons, runBodies] at h
    cases hbody : workerBody job clock m (k : Int) with
    | error e => rw [hbody] at h; cases h
    | ok m1 =>
      rw [hbody] at h
      simp only at h
      have hP1 := processed_step job clock n len p D m m1 k hP
        (hlt k (List.mem_cons_self _ _)) (hD k (List.mem_cons_self _ _)) hbody
      rw [List.nodup_cons] at hnd
      have hP2 := ih _ m1 m2 (fun j hj => hlt j (List.mem_cons_of_mem _ hj)) hnd.2
        (fun j hj hDj => by
          rcases hDj with hDj | hDj
          · exact hD j (List.mem_cons_of_mem _ hj) hDj
          · have : j = k := by exact_mod_cast hDj
            exact hnd.1 (this ▸ hj)) hP1 h
      apply processed_congr job clock n len p _ _ m2 hP2
      intro j _
      simp only [List.mem_cons, exists_eq_or_imp]
      tauto

theorem runBodies_returns (job : Job) (clock : Clock) (n len p : Nat) (hlen : 1 < len) :
    ∀ (ks : List Nat) (D : Int → Prop) (m : JobMeasurer),
      (∀ k ∈ ks, k < n) → ks.Nodup → (∀ k ∈ ks, ¬ D (k : Int)) →
      (∀ k ∈ ks, ∃ slot failed, job (k : Int) (newJobMetric p) = .ok (slot, failed)) →
      Processed job clock n len p D m →
      ∃ m2, runBodies job clock (ks.map (fun k : Nat => (k : Int))) m = .ok m2 := by
  intro ks
  induction ks with
  | nil => intro D m _ _ _ _ _; exact ⟨m, rfl⟩
  | cons k ks ih =>
    intro D m hlt hnd hD hjob hP
    simp only [List.map_cons, runBodies]
    obtain ⟨_, h2, _, _, h5⟩ := hP
    have hk := hlt k (List.mem_cons_self _ _)
    obtain ⟨ho, _, hi⟩ := (h5 k hk).2 (hD k (List.mem_cons_self _ _))
    obtain ⟨slot, failed, hj⟩ := hjob k (List.mem_cons_self _ _)
    have hbody := workerBody_fresh job clock m k p len ho (by omega) hi
    rw [hj] at hbody
    simp only [if_pos hlen] at hbody
    rw [hbody]
    simp only
    have hP : Processed job clock n len p D m := ⟨by assumption, h2, by assumption,
      by assumption, h5⟩
    have hP1 := processed_step job clock n len p D m _ k hP hk
      (hD k (List.mem_cons_self _ _)) hbody
    rw [List.nodup_cons] at hnd
    exact ih _ _ (fun j hj => hlt j (List.mem_cons_of_mem _ hj)) hnd.2
      (fun j hj hDj => by
        rcases hDj with hDj | hDj
        · exact hD j (List.mem_cons_of_mem _ hj) hDj
        · have : j = k := by exact_mod_cast hDj
          exact hnd.1 (this ▸ hj))
      (fun j hj => hjob j (List.mem_cons_of_mem _ hj)) hP1

theorem runBodies_names (job : Job) (clock : Clock) :
    ∀ (ks : List Int) (m m2 : JobMeasurer), runBodies job clock ks m = .ok m2 →
      m2.interMetricsName = m.interMetricsName := by
  intro ks
  induction ks with
  | nil => intro m m2 h; cases h; rfl
  | cons k ks ih =>
    intro m m2 h
    simp only [runBodies] at h
    cases hbody : workerBody job clock m k with
    | error e => rw [hbody] at h; cases h
    | ok m1 =>
      rw [hbody] at h
      rw [ih _ _ h, workerBody_names job clock m m1 k hbody]

theorem processed_unique (job : Job) (clock : Clock) (n len p : Nat) (D : Int → Prop)
    (m m1 : JobMeasurer) (hD : ∀ k : Nat, k < n → D k)
    (h : Processed job clock n len p D m) (h1 : Processed job clock n len p D m1)
    (hnames : m.interMetricsName = m1.interMetricsName) : m = m1 := by
  obtain ⟨_, a2, a3, a4, a5⟩ := h
  obtain ⟨_, b2, b3, b4, b5⟩ := h1
  have key : ∀ k : Nat, k < n →
      m.outerJobMetrics[k]? = m1.outerJobMetrics[k]? ∧
      m.jobDurations[k]? = m1.jobDurations[k]? ∧
      m.interJobMetrics[k]? = m1.interJobMetrics[k]? := by
    intro k hk
    obtain ⟨s, f, hj, x1, x2, x3, _⟩ := (a5 k hk).1 (hD k hk)
    obtain ⟨s1, f1, hj1, y1, y2, y3, _⟩ := (b5 k hk).1 (hD k hk)
    rw [hj] at hj1
    cases hj1
    exact ⟨by rw [x1, y1], by rw [x2, y2], by rw [x3, y3]⟩
  have ext : ∀ {α : Type} (l l1 : List α), l.length = n → l1.length = n →
      (∀ k : Nat, k < n → l[k]? = l1[k]?) → l = l1 := by
    intro α l l1 hl hl1 hk
    apply List.ext_getElem?
    intro k
    by_cases hkn : k < n
    · exact hk k hkn
    · rw [List.getElem?_eq_none (by omega), List.getElem?_eq_none (by omega)]
  cases m with
  | mk d names i o =>
    cases m1 with
    | mk d1 names1 i1 o1 =>
      simp only at hnames a2 a3 a4 b2 b3 b4 key
      rw [JobMeasurer.mk.injEq]
      exact ⟨ext d d1 a2 b2 (fun k hk => (key k hk).2.1), hnames,
        ext i i1 a3 b3 (fun k hk => (key k hk).2.2), ext o o1 a4 b4 (fun k hk => (key k hk).1)⟩

/-- The order in which the loop bodies run does not matter: when the bodies of
all indices below `count`, each once, have run in the order `ks` from the
freshly allocated slots and left the measurer `m2`, they leave the same `m2`
when run in any other order `ks1`. -/
theorem runBodies_order (job : Job) (clock : Clock) (m m2 : JobMeasurer) (count : Int)
    (metricsName : List String) (ks ks1 : List Nat) (hperm : ks.Perm ks1) (hnd : ks.Nodup)
    (hall : ∀ k, k ∈ ks ↔ k < count.toNat)
    (h : runBodies job clock (ks.map (fun k : Nat => (k : Int))) (allocate m count metricsName)
      = .ok m2) :
    runBodies job clock (ks1.map (fun k : Nat => (k : Int))) (allocate m count metricsName)
      = .ok m2 := by
  have hP0 : Processed job clock count.toNat m.interMetricsName.length metricsName.length
      (fun _ => False) (allocate m count metricsName) :=
    processed_congr job clock _ _ _ _ _ _
      (processed_allocate job clock m count 1 (by decide) metricsName)
      (fun k _ => by simp)
  have hP := runBodies_processed job clock _ _ _ ks _ _ m2 (fun k hk => (hall k).mp hk) hnd
    (fun _ _ hf => hf) hP0 h
  have hall1 : ∀ k, k ∈ ks1 ↔ k < count.toNat := fun k => by rw [← hall k, hperm.mem_iff]
  have hjob : ∀ k ∈ ks1, ∃ slot failed,
      job (k : Int) (newJobMetric metricsName.length) = .ok (slot, failed) := by
    intro k hk
    obtain ⟨slot, failed, hj, _⟩ := (hP.2.2.2.2 k ((hall1 k).mp hk)).1
      (Or.inr ⟨k, (hall k).mpr ((hall1 k).mp hk), rfl⟩)
    exact ⟨slot, failed, hj⟩
  cases ks1 with
  | nil =>
    have : ks = [] := List.perm_nil.mp hperm
    subst this
    exact h
  | cons k1 rest =>
    have hk1 : k1 < count.toNat := (hall1 k1).mp (List.mem_cons_self _ _)
    have hlen : 1 < m.interMetricsName.length := by
      obtain ⟨_, _, _, _, _, _, hl⟩ := (hP.2.2.2.2 k1 hk1).1
        (Or.inr ⟨k1, (hall k1).mpr hk1, rfl⟩)
      exact hl
    obtain ⟨m3, h3⟩ := runBodies_returns job clock _ _ _ hlen (k1 :: rest) _ _
      (fun k hk => (hall1 k).mp hk) (hperm.nodup_iff.mp hnd) (fun _ _ hf => hf) hjob hP0
    have hP3 := runBodies_processed job clock _ _ _ (k1 :: rest) _ _ m3
      (fun k hk => (hall1 k).mp hk) (hperm.nodup_iff.mp hnd) (fun _ _ hf => hf) hP0 h3
    have hD : ∀ k : Nat, k < count.toNat → (False ∨ ∃ j ∈ ks, (k : Int) = (j : Int)) :=
      fun k hk => Or.inr ⟨k, (hall k).mpr hk, rfl⟩
    have hP3' : Processed job clock count.toNat m.interMetricsName.length metricsName.length
        (fun j => False ∨ ∃ k ∈ ks, j = (k : Int)) m3 :=
      processed_congr job clock _ _ _ _ _ _ hP3 (fun k _ => by
        constructor
        · rintro (hf | ⟨j, hj, e⟩)
          · exact absurd hf id
          · exact Or.inr ⟨j, hperm.mem_iff.mpr hj, e⟩
        · rintro (hf | ⟨j, hj, e⟩)
          · exact absurd hf id
          · exact Or.inr ⟨j, hperm.mem_iff.mp hj, e⟩)
    have := processed_unique job clock _ _ _ _ m3 m2 hD hP3' hP
      (by rw [runBodies_names job clock _ _ _ h3, runBodies_names job clock _ _ _ h])
    rw [h3, this]

/-! ## Percentile reads and the per-second field -/

theorem percentileIndex_mono (n : Nat) :
    percentileIndex n 9 10 ≤ percentileIndex n 19 20 := by
  unfold percentileIndex
  omega

/-- C18: for every slot-set size `N ≥ 1` the two percentile indices
`floor(N * 0.9)` and `floor(N * 0.95)`, which are the indices
`calMetricStatistic` computes, are below `N`, and both reads of the sorted value
array of `N` entries return a value. -/
theorem percentile_reads_in_range (n : Nat) (hn : 1 ≤ n) :
    ⌊(n : ℚ) * (9 / 10)⌋₊ = percentileIndex n 9 10 ∧
    ⌊(n : ℚ) * (19 / 20)⌋₊ = percentileIndex n 19 20 ∧
    percentileIndex n 9 10 ≤ n - 1 ∧ percentileIndex n 19 20 ≤ n - 1 ∧
    ∀ values : List ℚ, values.length = n →
      (∃ p90, index (sortFloat64s values) (percentileIndex n 9 10) = .ok p90) ∧
      (∃ p95, index (sortFloat64s values) (percentileIndex n 19 20) = .ok p95) := by
  have e9 : ⌊(n : ℚ) * (9 / 10)⌋₊ = percentileIndex n 9 10 := by
    have := floor_percentile n 9 10
    push_cast at this; exact this
  have e19 : ⌊(n : ℚ) * (19 / 20)⌋₊ = percentileIndex n 19 20 := by
    have := floor_percentile n 19 20
    push_cast at this; exact this
  have l9 := percentileIndex_lt n 9 10 (by omega) (by decide)
  have l19 := percentileIndex_lt n 19 20 (by omega) (by decide)
  refine ⟨e9, e19, by omega, by omega, ?_⟩
  intro values hv
  constructor
  · exact ⟨_, index_ok _ _ (by rw [length_sortFloat64s, hv]; exact l9)⟩
  · exact ⟨_, index_ok _ _ (by rw [length_sortFloat64s, hv]; exact l19)⟩

/-- C18, at `N = 1`: both indices are 0. -/
theorem percentile_reads_in_range_witness :
    percentileIndex 1 9 10 ≤ 1 - 1 ∧ percentileIndex 1 19 20 ≤ 1 - 1 :=
  ⟨(percentile_reads_in_range 1 (by decide)).2.2.1,
   (percentile_reads_in_range 1 (by decide)).2.2.2.1⟩

theorem mem_sortFloat64s (xs : List ℚ) (x : ℚ) : x ∈ sortFloat64s xs ↔ x ∈ xs :=
  (List.perm_insertionSort _ xs).mem_iff

theorem sorted_sortFloat64s (xs : List ℚ) : (sortFloat64s xs).Sorted (· ≤ ·) :=
  List.sorted_insertionSort _ xs

/-- C19: on a non-empty slot set whose values of the metric do not sum to zero,
every statistic that `calMetricStatistic` returns has
`Min ≤ P90 ≤ P95 ≤ Max`. -/
theorem min_le_percentiles_le_max (sqrt : ℚ → ℚ) (m : JobMeasurer) (idx : Nat)
    (name : String) (secs : ℚ) (metric : List JobMetric) (ret : MetricStatistic)
    (hN : 0 < metric.length) (hsum : (column idx metric).sum ≠ 0)
    (h : calMetricStatistic sqrt m idx name secs metric = .ok ret) :
    ret.Min ≤ ret.P90 ∧ ret.P90 ≤ ret.P95 ∧ ret.P95 ≤ ret.Max := by
  obtain ⟨_, _, hret⟩ := calMetricStatistic_ok sqrt m idx name secs metric ret h
  have h0 : ¬ ((column idx metric).sum = 0 ∨ (column idx metric).length = 0) := by
    rw [length_column]; push_neg; exact ⟨hsum, by omega⟩
  have l9 : percentileIndex metric.length 9 10 < (sortFloat64s (column idx metric)).length := by
    rw [length_sortFloat64s, length_column]
    exact percentileIndex_lt _ _ _ hN (by decide)
  have l19 : percentileIndex metric.length 19 20
      < (sortFloat64s (column idx metric)).length := by
    rw [length_sortFloat64s, length_column]
    exact percentileIndex_lt _ _ _ hN (by decide)
  rw [hret, statOf, if_neg h0, length_column]
  simp only
  rw [List.getD_eq_getElem _ _ l9, List.getD_eq_getElem _ _ l19]
  refine ⟨?_, ?_, ?_⟩
  · exact listMin_le _ _ ((mem_sortFloat64s _ _).mp (List.getElem_mem _))
  · have hs := sorted_sortFloat64s (column idx metric)
    exact hs.rel_get_of_le (a := ⟨_, l9⟩) (b := ⟨_, l19⟩) (percentileIndex_mono _)
  · exact le_listMax _ _ ((mem_sortFloat64s _ _).mp (List.getElem_mem _))

/-- C19, on the ten values 1 to 10. -/
theorem min_le_percentiles_le_max_witness :
    ∃ ret, calMetricStatistic (fun x => x) { NewJobMeasurer with interJobMetrics := tenSlots }
        0 MetricNameLatency 1 tenSlots = .ok ret ∧
      ret.Min ≤ ret.P90 ∧ ret.P90 ≤ ret.P95 ∧ ret.P95 ≤ ret.Max := by
  have hr : InRange 0 tenSlots := by simp [InRange, tenSlots]
  have hsum : (column 0 tenSlots).sum ≠ 0 := by simp [column, tenSlots]; norm_num
  have h := calMetricStatistic_eq (fun x => x)
    { NewJobMeasurer with interJobMetrics := tenSlots } 0 MetricNameLatency 1 tenSlots hr
    (fun _ => hr)
  exact ⟨_, h, min_le_percentiles_le_max _ _ _ _ _ _ _ (by decide) hsum h⟩

theorem calMetricStatistic_perSec (sqrt : ℚ → ℚ) (m : JobMeasurer) (idx : Nat)
    (name : String) (secs : ℚ) (metric : List JobMetric) (ret : MetricStatistic)
    (h : calMetricStatistic sqrt m idx name secs metric = .ok ret) :
    ret.PerSec = 0 ∧ ret.TotalSeconds = secs := by
  obtain ⟨_, _, hret⟩ := calMetricStatistic_ok sqrt m idx name secs metric ret h
  rw [hret, statOf]
  split <;> exact ⟨rfl, rfl⟩

/-- C13, on one slot with the value 3 and 2 total seconds: the returned
statistic has `Total = 3`, `TotalSeconds = 2` and `PerSec = 0`, while `Print`
shows the rate `3 / 2`: no statement of `calMetricStatistic` assigns `PerSec`. -/
theorem perSec_not_assigned (sqrt : ℚ → ℚ) :
    calMetricStatistic sqrt { NewJobMeasurer with interJobMetrics := oneSlot } 0
        MetricNameLatency 2 oneSlot
      = .ok ⟨MetricNameLatency, 3, 2, 3, 3, 3, sqrt 0, 0, 3, 3⟩ ∧
    printedPerSec ⟨MetricNameLatency, 3, 2, 3, 3, 3, sqrt 0, 0, 3, 3⟩ = some (3 / 2) := by
  constructor
  · simp [calMetricStatistic, aggLoop, aggStep, stdevLoop, index, store, oneSlot,
      NewJobMeasurer, bind, Except.bind, pure, Except.pure, sortFloat64s, percentileIndex]
  · simp [printedPerSec]

/-! ## Setting slot values -/

theorem setValuesFrom_ok (value : List ℚ) : ∀ (i : Nat) (vals : List ℚ),
    i + value.length ≤ vals.length →
    setValuesFrom i value vals = .ok (fill vals i value) := by
  induction value with
  | nil => intro i vals _; rfl
  | cons v rest ih =>
    intro i vals h
    simp only [List.length_cons] at h
    rw [setValuesFrom, store_ok _ _ _ (by omega)]
    simp only [fill]
    exact ih (i + 1) _ (by simp; omega)

theorem setValuesFrom_error (value : List ℚ) : ∀ (i : Nat) (vals : List ℚ),
    i ≤ vals.length → vals.length < i + value.length →
    setValuesFrom i value vals = .error .indexOutOfRange := by
  induction value with
  | nil => intro i vals hi h; simp at h; omega
  | cons v rest ih =>
    intro i vals _ h
    simp only [List.length_cons] at h
    rw [setValuesFrom]
    by_cases hi : i < vals.length
    · rw [store_ok _ _ _ hi]
      simp only
      exact ih (i + 1) _ (by simp; omega) (by simp; omega)
    · simp [store, hi]

/-- C15 fails for fewer values: on a slot of length 2, `SetMetricsValue` with the
single value 7 returns, having set entry 0 and left entry 1 as it was. -/
theorem setMetricsValue_fewer_accepted :
    SetMetricsValue ⟨[0, 0]⟩ [7] = .ok ⟨[7, 0]⟩ := by
  decide!

/-- C15 (amended): on a slot of length `L`, `SetMetricsValue` with more than `L`
values fails with an index out of range, and with at most `L` values it
returns, the given values written to the first entries and the other entries
left as they were. -/
theorem setMetricsValue_lengths (j : JobMetric) (value : List ℚ) :
    (j.values.length < value.length →
      SetMetricsValue j value = .error .indexOutOfRange) ∧
    (value.length ≤ j.values.length →
      SetMetricsValue j value = .ok ⟨value ++ j.values.drop value.length⟩) := by
  constructor
  · intro h
    rw [SetMetricsValue, setValuesFrom_error value 0 j.values (by omega) (by omega)]
  · intro h
    rw [SetMetricsValue, setValuesFrom_ok value 0 j.values (by omega),
      fill_eq value j.values 0 (by omega)]
    simp

/-- C15 (amended), on a slot of length 2: three values fail, one value is
accepted. -/
theorem setMetricsValue_lengths_witness :
    SetMetricsValue ⟨[0, 0]⟩ [7, 8, 9] = .error .indexOutOfRange ∧
    SetMetricsValue ⟨[0, 0]⟩ [7] = .ok ⟨[7] ++ [0]⟩ :=
  ⟨(setMetricsValue_lengths ⟨[0, 0]⟩ [7, 8, 9]).1 (by decide),
   (setMetricsValue_lengths ⟨[0, 0]⟩ [7]).2 (by decide)⟩

/-! ## Replaying the aggregation, failed invocations -/

/-- By contrast `SortAscending` does sort a slot in place: on a slot holding 3
and 1 it leaves 1 and 3, so the value at metric index 0 changes. -/
theorem sortAscending_in_place : SortAscending ⟨[3, 1]⟩ = (⟨[1, 3]⟩, [1, 3]) := by
  decide!

/-- Replaying the aggregation on the measurer that a `Run` leaves gives the
statistics of its report again. -/
theorem run_replay (sqrt : ℚ → ℚ) (clock : Clock) (m : JobMeasurer) (count c : Int)
    (metricsName : List String) (job : Job) (r : JobStatistic) (m2 : JobMeasurer)
    (hcount : 0 < count) (hc : 0 < c)
    (h : Run sqrt clock m count c metricsName (some job) = .ok (r, m2)) :
    ∃ inner outer,
      calAll sqrt m2 (seconds r.RunTime) m2.interJobMetrics 0 m2.interMetricsName
        = .ok inner ∧
      calAll sqrt m2 (seconds r.RunTime) m2.outerJobMetrics 0 metricsName = .ok outer ∧
      r.MetricStatistic = inner ++ outer := by
  obtain ⟨inner, outer, _, hinner, houter, hr⟩ :=
    run_ok_parts sqrt clock m count c metricsName job r m2 hcount hc h
  subst hr
  exact ⟨inner, outer, hinner, houter, rfl⟩

/-- C17, at `count = 2`, `concurrency = 1`: the invocation of index 0 fails after
ten seconds, the one of index 1 succeeds after one second, and the latency
statistic has `P90 = 10` and `P95 = 10`, the latency of the failed invocation. -/
theorem percentiles_count_failures (sqrt : ℚ → ℚ) :
    Run sqrt clockSlowFirst NewJobMeasurer 2 1 [] (some jobFailsFirst) = .ok
      (⟨11000000000, 11000000000, 2 / 11, 2, 1,
        [⟨MetricNameLatency, 11, 11, 11 / 2, 1, 10, sqrt (81 / 4), 0, 10, 10⟩,
         ⟨MetricNameError, 1, 11, 1 / 2, 0, 1, sqrt (1 / 4), 0, 1, 1⟩]⟩,
       ⟨[10000000000, 1000000000], [MetricNameLatency, MetricNameError],
        [⟨[10, 1]⟩, ⟨[1, 0]⟩], [⟨[]⟩, ⟨[]⟩]⟩) := by
  simp [Run, allocate, runWorkers, workerLoop, workerBody, calAll, calMetricStatistic, aggLoop,
    aggStep, stdevLoop, index, indexInt, store, storeInt, jobFailsFirst,
    clockSlowFirst, NewJobMeasurer, newJobMetric, seconds, sumDurations,
    wrapInt, MetricIndexLatency, MetricIndexError, List.range, List.range.loop, bind,
    Except.bind, pure, Except.pure, sortFloat64s, percentileIndex]
  norm_num

/-! ## Durations, throughput and the built-in statistics of a run -/

theorem wrapInt_add_wrapInt (a b : Int) : wrapInt (wrapInt a + b) = wrapInt (a + b) := by
  unfold wrapInt
  omega

theorem sumDurations_wrap : ∀ (l : List Int) (a : Int),
    sumDurations l (wrapInt a) = wrapInt (a + l.sum) := by
  intro l
  induction l with
  | nil => intro a; simp [sumDurations]
  | cons v rest ih =>
    intro a
    rw [sumDurations, wrapInt_add_wrapInt, ih, List.sum_cons, add_assoc]

theorem sumDurations_zero (l : List Int) : sumDurations l 0 = wrapInt l.sum := by
  have h := sumDurations_wrap l 0
  have h0 : wrapInt 0 = 0 := by decide
  rw [h0, zero_add] at h
  exact h

theorem durations_processed (job : Job) (clock : Clock) (n len p : Nat) (m : JobMeasurer)
    (h : Processed job clock n len p (fun _ => True) m) :
    m.jobDurations = (List.range n).map (fun k : Nat => clock.elapsed (k : Int)) := by
  obtain ⟨_, h2, _, _, h5⟩ := h
  apply List.ext_getElem
  · simp [h2]
  · intro k hk1 hk2
    have hk : k < n := by omega
    obtain ⟨_, _, _, _, hd, _, _⟩ := (h5 k hk).1 trivial
    rw [List.getElem?_eq_getElem hk1] at hd
    simp only [List.getElem_map, List.getElem_range]
    exact Option.some.inj hd

theorem sum_map_seconds (l : List Int) : (l.map seconds).sum = seconds l.sum := by
  induction l with
  | nil => simp [seconds]
  | cons a rest ih =>
    simp only [List.map_cons, List.sum_cons, ih, seconds]
    push_cast
    ring

/-- The duration fields and the latency total of a report, in terms of the
measured durations. -/
theorem run_durations (sqrt : ℚ → ℚ) (clock : Clock) (m : JobMeasurer) (count c : Int)
    (metricsName : List String) (job : Job) (r : JobStatistic) (m2 : JobMeasurer)
    (hcount : 0 < count) (hc : 0 < c) (hcountmax : count ≤ maxInt) (hcmax : c ≤ maxInt)
    (hm : m.interMetricsName = [MetricNameLatency, MetricNameError])
    (h : Run sqrt clock m count c metricsName (some job) = .ok (r, m2)) :
    r.RunTime = clock.runTime ∧
    r.TotalDuration = wrapInt (totalElapsed clock count.toNat) ∧
    r.PerSeconds = (if r.TotalDuration > 0 then (count : ℚ) / seconds r.RunTime else 0) ∧
    ∃ s, r.MetricStatistic[0]? = some s ∧
      s.Total = seconds (totalElapsed clock count.toNat) := by
  have hP := run_ok_processed sqrt clock m count c metricsName job r m2 hcount hc
    hcountmax hcmax h
  obtain ⟨inner, outer, hrun, hinner, _, hr⟩ :=
    run_ok_parts sqrt clock m count c metricsName job r m2 hcount hc h
  have hd := durations_processed job clock _ _ _ m2 hP
  have hnames : m2.interMetricsName = [MetricNameLatency, MetricNameError] := by
    rw [runWorkers_names job clock count c _ _ m2 hrun]; exact hm
  rw [hnames] at hinner
  obtain ⟨hi1, _, hi3⟩ := calAll_ok sqrt m2 _ _ _ _ _ hinner
  obtain ⟨s0, s1, rfl⟩ : ∃ s0 s1, inner = [s0, s1] := by
    match inner, hi1 with
    | [a, b], _ => exact ⟨a, b, rfl⟩
  have hs0 := hi3 0 s0 rfl
  obtain ⟨_, _, hstat⟩ := calMetricStatistic_ok sqrt m2 _ _ _ _ s0 hs0
  have hcol : column (0 + 0) m2.interJobMetrics
      = (List.range count.toNat).map (fun k : Nat => seconds (clock.elapsed (k : Int))) :=
    column_latency job clock _ _ _ m2 hP
  have hTotal : s0.Total = seconds (totalElapsed clock count.toNat) := by
    have : s0.Total = (column (0 + 0) m2.interJobMetrics).sum := by
      rw [hstat, statOf]; split <;> rfl
    rw [this, hcol, totalElapsed, ← sum_map_seconds, List.map_map]
    rfl
  subst hr
  refine ⟨rfl, ?_, rfl, s0, by simp, hTotal⟩
  show sumDurations m2.jobDurations 0 = _
  rw [sumDurations_zero, hd, totalElapsed]

theorem totalElapsed_const (clock : Clock) (a : Int) (h : ∀ k, clock.elapsed k = a) (n : Nat) :
    totalElapsed clock n = (n : Int) * a := by
  unfold totalElapsed
  simp only [h]
  rw [List.map_const', List.sum_replicate, List.length_range]
  simp

theorem jobReturns_jobSucceeds (count : Int) : JobReturns jobSucceeds count 0 := by
  intro k _
  exact ⟨newJobMetric 0, false, rfl, rfl⟩

theorem run_jobSucceeds_instant (sqrt : ℚ → ℚ) :
    Run sqrt clockInstant NewJobMeasurer 4 2 [] (some jobSucceeds) = .ok
      (⟨1000000000, 0, 0, 4, 2,
        [⟨MetricNameLatency, 0, 1, 0, 0, 0, 0, 0, 0, 0⟩,
         ⟨MetricNameError, 0, 1, 0, 0, 0, 0, 0, 0, 0⟩]⟩,
       ⟨[0, 0, 0, 0], [MetricNameLatency, MetricNameError],
        [⟨[0, 0]⟩, ⟨[0, 0]⟩, ⟨[0, 0]⟩, ⟨[0, 0]⟩], [⟨[]⟩, ⟨[]⟩, ⟨[]⟩, ⟨[]⟩]⟩) := by
  simp [Run, allocate, runWorkers, workerLoop, workerBody, calAll, calMetricStatistic, aggLoop,
    aggStep, stdevLoop, index, indexInt, store, storeInt, jobSucceeds,
    clockInstant, NewJobMeasurer, newJobMetric, seconds, sumDurations,
    wrapInt, MetricIndexLatency, MetricIndexError, List.range, List.range.loop, bind,
    Except.bind, pure, Except.pure, sortFloat64s, percentileIndex]

/-- C12 fails at `count = 4`, `concurrency = 2` when every invocation is measured
at 0 ns and the run at one second: the run duration is not zero and
`count / seconds` is 4, yet `PerSeconds` is 0. -/
theorem throughput_zero_durations :
    ∃ r m2, Run (fun x => x) clockInstant NewJobMeasurer 4 2 [] (some jobSucceeds)
        = .ok (r, m2) ∧
      r.RunTime ≠ 0 ∧ r.TotalDuration = 0 ∧ (r.Count : ℚ) / seconds r.RunTime = 4 ∧
      r.PerSeconds = 0 := by
  refine ⟨_, _, run_jobSucceeds_instant (fun x => x), by decide, rfl, ?_, rfl⟩
  simp [seconds]

/-- C12 (amended): on valid arguments `Run` returns when the job does, and the
report of every `Run` that returns has `PerSeconds = count / run seconds` when
its `TotalDuration`, the wrapped sum of the measured durations, is positive and
the run duration is not zero, and `PerSeconds = 0` when `TotalDuration` is not
positive, whatever the run duration. -/
theorem throughput_guard (sqrt : ℚ → ℚ) (clock : Clock) (m : JobMeasurer) (count c : Int)
    (metricsName : List String) (job : Job)
    (hcount : 0 < count) (hc : 0 < c) (hcountmax : count ≤ maxInt) (hcmax : c ≤ maxInt)
    (hm : m.interMetricsName = [MetricNameLatency, MetricNameError]) :
    (JobReturns job count metricsName.length → metricsName.length ≤ 2 →
      count + c ≤ 2 ^ 63 →
      ∃ r m2, Run sqrt clock m count c metricsName (some job) = .ok (r, m2)) ∧
    ∀ r m2, Run sqrt clock m count c metricsName (some job) = .ok (r, m2) →
      r.Count = count ∧ r.RunTime = clock.runTime ∧
      r.TotalDuration = wrapInt (totalElapsed clock count.toNat) ∧
      (r.TotalDuration > 0 → r.RunTime ≠ 0 →
        r.PerSeconds = (count : ℚ) / seconds r.RunTime) ∧
      (r.TotalDuration ≤ 0 → r.PerSeconds = 0) := by
  refine ⟨fun hjob hp hb =>
    run_returns sqrt clock m count c metricsName job hcount hc hb hm hjob hp, ?_⟩
  intro r m2 h
  obtain ⟨h1, h2, h3, _⟩ := run_durations sqrt clock m count c metricsName job r m2 hcount hc
    hcountmax hcmax hm h
  obtain ⟨_, _, _, _, _, hr⟩ :=
    run_ok_parts sqrt clock m count c metricsName job r m2 hcount hc h
  have hcnt : r.Count = count := by rw [hr]
  refine ⟨hcnt, h1, h2, ?_, ?_⟩
  · intro hpos _
    rw [h3, if_pos hpos]
  · intro hle
    rw [h3, if_neg (by omega)]

/-- C12 (amended), at `count = 4`, `concurrency = 2` with invocations of one
second and a run of two: `PerSeconds = 2`. -/
theorem throughput_guard_witness :
    ∃ r m2, Run (fun x => x) clockOneSecond NewJobMeasurer 4 2 [] (some jobSucceeds)
        = .ok (r, m2) ∧ r.PerSeconds = (4 : ℚ) / seconds r.RunTime ∧ r.PerSeconds = 2 := by
  have h := run_jobSucceeds (fun x => x)
  have hw := (throughput_guard (fun x => x) clockOneSecond NewJobMeasurer 4 2 []
    jobSucceeds (by decide) (by decide) (by decide) (by decide) rfl).2 _ _ h
  refine ⟨_, _, h, ?_, rfl⟩
  have := hw.2.2.2.1 (by decide) (by decide)
  simpa using this

/-- C14 fails at `count = 1000000`, `concurrency = 1000000` when every invocation
is measured at `10 ^ 13` ns: the latency total is `10 ^ 10` seconds, while the
sum `10 ^ 19` of the durations exceeds the 64-bit `TotalDuration`, which wraps
to `10 ^ 19 - 2 ^ 64` ns. -/
theorem latency_total_overflow :
    ∃ r m2 s, Run (fun x => x) clockLong NewJobMeasurer 1000000 1000000 [] (some jobSucceeds)
        = .ok (r, m2) ∧
      r.MetricStatistic[0]? = some s ∧ s.Total = 10000000000 ∧
      r.TotalDuration = -8446744073709551616 ∧ s.Total ≠ seconds r.TotalDuration := by
  obtain ⟨r, m2, h⟩ := run_returns (fun x => x) clockLong NewJobMeasurer 1000000 1000000 []
    jobSucceeds (by decide) (by decide) (by decide) rfl (jobReturns_jobSucceeds _) (by decide)
  obtain ⟨_, h2, _, s, hs, hT⟩ := run_durations (fun x => x) clockLong NewJobMeasurer 1000000
    1000000 [] jobSucceeds r m2 (by decide) (by decide) (by decide) (by decide) rfl h
  have hsum : totalElapsed clockLong (1000000 : Int).toNat = 10000000000000000000 := by
    rw [totalElapsed_const clockLong 10000000000000 (fun _ => rfl)]
    decide
  rw [hsum] at h2 hT
  have hw : wrapInt 10000000000000000000 = -8446744073709551616 := by decide
  rw [hw] at h2
  have hT' : s.Total = 10000000000 := by
    rw [hT]; simp [seconds]; norm_num
  refine ⟨r, m2, s, h, hs, hT', h2, ?_⟩
  rw [hT', h2]
  simp [seconds]
  norm_num

/-- C14 (amended): on valid arguments `Run` returns when the job does, and in
the report of every `Run` that returns the `Total` of the latency statistic is
the sum over all indices of the measured duration in seconds; it equals
`TotalDuration` in seconds when the sum of the durations in nanoseconds lies in
the 64-bit range. -/
theorem latency_total (sqrt : ℚ → ℚ) (clock : Clock) (m : JobMeasurer) (count c : Int)
    (metricsName : List String) (job : Job)
    (hcount : 0 < count) (hc : 0 < c) (hcountmax : count ≤ maxInt) (hcmax : c ≤ maxInt)
    (hm : m.interMetricsName = [MetricNameLatency, MetricNameError]) :
    (JobReturns job count metricsName.length → metricsName.length ≤ 2 →
      count + c ≤ 2 ^ 63 →
      ∃ r m2, Run sqrt clock m count c metricsName (some job) = .ok (r, m2)) ∧
    ∀ r m2, Run sqrt clock m count c metricsName (some job) = .ok (r, m2) →
      ∃ s, r.MetricStatistic[0]? = some s ∧
        s.Total = ((List.range count.toNat).map
          (fun k : Nat => seconds (clock.elapsed (k : Int)))).sum ∧
        (-(2 ^ 63) ≤ totalElapsed clock count.toNat →
          totalElapsed clock count.toNat < 2 ^ 63 →
          s.Total = seconds r.TotalDuration) := by
  refine ⟨fun hjob hp hb =>
    run_returns sqrt clock m count c metricsName job hcount hc hb hm hjob hp, ?_⟩
  intro r m2 h
  obtain ⟨_, h2, _, s, hs, hT⟩ := run_durations sqrt clock m count c metricsName job r m2
    hcount hc hcountmax hcmax hm h
  refine ⟨s, hs, ?_, ?_⟩
  · rw [hT, totalElapsed, ← sum_map_seconds, List.map_map]
    rfl
  · intro hlo hhi
    rw [hT, h2, wrapInt_eq_self hlo hhi]

/-- C14 (amended), at `count = 4`, `concurrency = 2` with invocations of one
second: the latency total is 4 seconds, as is `TotalDuration`. -/
theorem latency_total_witness :
    ∃ r m2 s, Run (fun x => x) clockOneSecond NewJobMeasurer 4 2 [] (some jobSucceeds)
        = .ok (r, m2) ∧ r.MetricStatistic[0]? = some s ∧
      s.Total = seconds r.TotalDuration := by
  have h := run_jobSucceeds (fun x => x)
  obtain ⟨s, hs, _, hT⟩ := (latency_total (fun x => x) clockOneSecond NewJobMeasurer 4 2 []
    jobSucceeds (by decide) (by decide) (by decide) (by decide) rfl).2 _ _ h
  have hsum : totalElapsed clockOneSecond (4 : Int).toNat = 4000000000 := by
    rw [totalElapsed_const clockOneSecond 1000000000 (fun _ => rfl)]
    decide
  exact ⟨_, _, s, h, hs, hT (by rw [hsum]; decide) (by rw [hsum]; decide)⟩

/-- C11: on valid arguments, a measurer that carries the two built-in metric
names and an empty list of caller metrics, `Run` returns a report when the job
returns at every index and the stride step cannot overflow; and the report of
every such `Run` that returns has `Count = count` and exactly two statistics,
the latency statistic and then the error statistic, each the aggregation of the
`count` values of its metric, one per index: the measured seconds of the
invocation, and 1 or 0 as the invocation failed or not. -/
theorem empty_metric_names (sqrt : ℚ → ℚ) (clock : Clock) (m : JobMeasurer) (count c : Int)
    (job : Job)
    (hcount : 0 < count) (hc : 0 < c) (hcountmax : count ≤ maxInt) (hcmax : c ≤ maxInt)
    (hm : m.interMetricsName = [MetricNameLatency, MetricNameError]) :
    (JobReturns job count 0 → count + c ≤ 2 ^ 63 →
      ∃ r m2, Run sqrt clock m count c [] (some job) = .ok (r, m2)) ∧
    ∀ r m2, Run sqrt clock m count c [] (some job) = .ok (r, m2) →
      r.Count = count ∧ m2.interJobMetrics.length = count.toNat ∧
      ∃ s0 s1, r.MetricStatistic = [s0, s1] ∧
        s0.Name = MetricNameLatency ∧ s1.Name = MetricNameError ∧
        calMetricStatistic sqrt m2 MetricIndexLatency MetricNameLatency
          (seconds clock.runTime) m2.interJobMetrics = .ok s0 ∧
        calMetricStatistic sqrt m2 MetricIndexError MetricNameError
          (seconds clock.runTime) m2.interJobMetrics = .ok s1 ∧
        column MetricIndexLatency m2.interJobMetrics
          = (List.range count.toNat).map
              (fun k : Nat => seconds (clock.elapsed (k : Int))) ∧
        column MetricIndexError m2.interJobMetrics
          = (List.range count.toNat).map
              (fun k : Nat => if jobFailed job 0 k then (1 : ℚ) else 0) := by
  refine ⟨fun hjob hb =>
    run_returns sqrt clock m count c [] job hcount hc hb hm hjob (by decide), ?_⟩
  intro r m2 h
  have hP := run_ok_processed sqrt clock m count c [] job r m2 hcount hc hcountmax hcmax h
  obtain ⟨inner, outer, hrun, hinner, houter, hr⟩ :=
    run_ok_parts sqrt clock m count c [] job r m2 hcount hc h
  have hnames : m2.interMetricsName = [MetricNameLatency, MetricNameError] := by
    rw [runWorkers_names job clock count c _ _ m2 hrun]; exact hm
  rw [hnames] at hinner
  obtain ⟨hi1, hi2, hi3⟩ := calAll_ok sqrt m2 _ _ _ _ _ hinner
  obtain ⟨s0, s1, rfl⟩ : ∃ s0 s1, inner = [s0, s1] := by
    match inner, hi1 with
    | [a, b], _ => exact ⟨a, b, rfl⟩
  simp only [List.map, List.cons.injEq, and_true] at hi2
  obtain ⟨hn0, hn1⟩ := hi2
  have hs0 := hi3 0 s0 rfl
  have hs1 := hi3 1 s1 rfl
  rw [hn0] at hs0
  rw [hn1] at hs1
  have hout : outer = [] := by
    simp only [calAll] at houter
    cases houter; rfl
  have hcnt : r.Count = count := by rw [hr]
  have hstats : r.MetricStatistic = [s0, s1] := by rw [hr, hout]; rfl
  exact ⟨hcnt, hP.2.2.1, s0, s1, hstats, hn0, hn1, hs0, hs1,
    column_latency job clock _ _ _ m2 hP, column_error job clock _ _ _ m2 hP⟩

/-- C11, at `count = 4`, `concurrency = 2` with a job that always succeeds. -/
theorem empty_metric_names_witness :
    ∃ r m2, Run (fun x => x) clockOneSecond NewJobMeasurer 4 2 [] (some jobSucceeds)
        = .ok (r, m2) ∧ r.Count = 4 ∧ r.MetricStatistic.length = 2 ∧
      m2.interJobMetrics.length = 4 := by
  have h := run_jobSucceeds (fun x => x)
  obtain ⟨hc, hl, s0, s1, hs, _⟩ := (empty_metric_names (fun x => x) clockOneSecond
    NewJobMeasurer 4 2 jobSucceeds (by decide) (by decide) (by decide) (by decide) rfl).2 _ _ h
  exact ⟨_, _, h, hc, by rw [hs]; rfl, hl⟩

/-! ## The number of indices of a worker -/

/-- The number of indices the worker loop visits from `k` on lies within one
stride of `(count - k) / c`. -/
theorem length_workerIndices (count c : Int) (hc : 0 < c) (hb : count + c ≤ 2 ^ 63) :
    ∀ (fuel : Nat) (k : Int), 0 ≤ k → count ≤ k + fuel →
      (k < count →
        (((workerIndices count c fuel k).length : Int) - 1) * c < count - k ∧
        count - k ≤ ((workerIndices count c fuel k).length : Int) * c) ∧
      (count ≤ k → (workerIndices count c fuel k).length = 0) := by
  intro fuel
  induction fuel with
  | zero =>
    intro k _ hf
    push_cast at hf
    exact ⟨fun h => absurd h (by omega), fun _ => by simp [workerIndices]⟩
  | succ fuel ih =>
    intro k hk0 hf
    constructor
    · intro hk
      have hw : wrapInt (k + c) = k + c := wrapInt_eq_self (by omega) (by omega)
      unfold workerIndices
      rw [if_pos hk, if_pos hk0, hw, List.length_cons]
      obtain ⟨h1, h2⟩ := ih (k + c) (by omega) (by push_cast at hf; omega)
      push_cast
      by_cases hnext : k + c < count
      · obtain ⟨a, b⟩ := h1 hnext
        constructor <;> nlinarith
      · rw [h2 (by omega)]
        simp only [Nat.cast_zero, zero_add, sub_self, zero_mul, one_mul]
        constructor <;> omega
    · intro hk
      unfold workerIndices
      rw [if_neg (by omega)]
      rfl

theorem length_visited (count c : Int) (hc : 0 < c) (hb : count + c ≤ 2 ^ 63) (n : Nat) :
    ((n : Int) < count →
      (((visited count c n).length : Int) - 1) * c < count - n ∧
      count - n ≤ ((visited count c n).length : Int) * c) ∧
    (count ≤ (n : Int) → (visited count c n).length = 0) := by
  have h := length_workerIndices count c hc hb (count.toNat + 1) (n : Int) (by omega)
    (by push_cast; omega)
  exact h

/-- C20 fails at `count = 3`, `concurrency = 2 ^ 63 - 1`: worker 2 visits index 2,
its stride step wraps to `-2 ^ 63 + 1`, and the loop body is entered there, so
the worker visits two indices, not in increasing order, where the claim counts
`ceil(1 / (2 ^ 63 - 1)) = 1`. -/
theorem stride_counts_overflow :
    visited 3 (2 ^ 63 - 1) 2 = [2, -9223372036854775807] ∧ ¬ StrideCounts 3 (2 ^ 63 - 1) := by
  refine ⟨by decide, ?_⟩
  intro h
  have h2 := (h.1 2 (by decide)).2
  have hv : visited 3 (2 ^ 63 - 1) 2 = [2, -9223372036854775807] := by decide
  rw [hv] at h2
  exact absurd h2 (by decide)

/-- C20 (amended): for `count > 0` and `concurrency > 0` whose sum does not
exceed `2 ^ 63`, worker `n` visits `ceil((count - n) / concurrency)` indices
when `n < count` and none when `n ≥ count`, in strictly increasing order, and
the numbers of indices of two workers differ by at most 1. -/
theorem stride_counts (count concurrency : Int) (_hcount : 0 < count)
    (hconc : 0 < concurrency) (hb : count + concurrency ≤ 2 ^ 63) :
    StrideCounts count concurrency := by
  have hcq : (0 : ℚ) < (concurrency : ℚ) := by exact_mod_cast hconc
  refine ⟨fun n hn => ⟨?_, ?_⟩, ?_⟩
  · obtain ⟨h1, h2⟩ := length_visited count concurrency hconc hb n
    by_cases hlt : (n : Int) < count
    · rw [if_pos hlt]
      obtain ⟨a, b⟩ := h1 hlt
      symm
      rw [Int.ceil_eq_iff]
      constructor
      · rw [lt_div_iff₀ hcq]
        exact_mod_cast a
      · rw [div_le_iff₀ hcq]
        exact_mod_cast b
    · rw [if_neg hlt, h2 (by omega)]
      rfl
  · exact workerIndices_increasing count concurrency hconc hb (count.toNat + 1) n
      (Int.natCast_nonneg n)
  · intro n n1 hn hn1
    obtain ⟨h1, h2⟩ := length_visited count concurrency hconc hb n
    obtain ⟨g1, g2⟩ := length_visited count concurrency hconc hb n1
    by_cases hlt : (n : Int) < count
    · obtain ⟨a, _⟩ := h1 hlt
      by_contra hcon
      push_neg at hcon
      have hL : ((visited count concurrency n1).length : Int) + 2
          ≤ ((visited count concurrency n).length : Int) := by exact_mod_cast hcon
      have hmul : (((visited count concurrency n1).length : Int) + 1) * concurrency
          ≤ (((visited count concurrency n).length : Int) - 1) * concurrency :=
        Int.mul_le_mul_of_nonneg_right (by omega) hconc.le
      by_cases hlt1 : (n1 : Int) < count
      · obtain ⟨_, b1⟩ := g1 hlt1
        have hn0 := Int.natCast_nonneg n
        have hn10 := Int.natCast_nonneg n1
        nlinarith
      · have hz := g2 (by omega)
        rw [hz] at hmul
        simp only [Nat.cast_zero, zero_add, one_mul] at hmul
        have hn0 := Int.natCast_nonneg n
        omega
    · rw [h2 (by omega)]
      omega

/-- C20 (amended), at `count = 10` and `concurrency = 3`. -/
theorem stride_counts_witness : StrideCounts 10 3 :=
  stride_counts 10 3 (by decide) (by decide) (by decide)

/-! ## Memory effects of the aggregation -/

theorem heapRead_append (h : Heap) (w : List ℚ) (a i : Nat) (ha : a < h.length) :
    heapRead (h ++ [w]) a i = index (h.getD a []) i := by
  unfold heapRead
  rw [List.getElem?_append_left ha, List.getElem?_eq_getElem ha,
    List.getD_eq_getElem _ _ ha]

theorem heapRead_local (h : Heap) (w : List ℚ) (i : Nat) :
    heapRead (h ++ [w]) h.length i = index w i := by
  unfold heapRead
  rw [List.getElem?_append_right (le_refl _)]
  simp

theorem heapWrite_local (h : Heap) (w : List ℚ) (i : Nat) (x : ℚ) :
    heapWrite (h ++ [w]) h.length i x =
      match store w i x with
      | .ok w1 => .ok (h ++ [w1])
      | .error e => .error e := by
  unfold heapWrite
  rw [List.getElem?_append_right (le_refl _)]
  simp only [Nat.sub_self, List.getElem?_cons_zero]
  cases store w i x with
  | error e => rfl
  | ok w1 =>
    simp only
    rw [List.set_append_right _ _ (le_refl _)]
    simp

theorem heapSort_local (h : Heap) (w : List ℚ) :
    heapSort (h ++ [w]) h.length = .ok (h ++ [sortFloat64s w]) := by
  unfold heapSort
  rw [List.getElem?_append_right (le_refl _)]
  simp only [Nat.sub_self, List.getElem?_cons_zero]
  rw [List.set_append_right _ _ (le_refl _)]
  simp

theorem aggStepHeap_sim (idx : Nat) (h : Heap) (ret : MetricStatistic) (ic : Nat)
    (vals : List ℚ) (k a : Nat) (ha : a < h.length) :
    aggStepHeap idx h.length { ret := ret, itemCount := ic, heap := h ++ [vals] } k a
      = liftAgg h (aggStep idx { ret := ret, values := vals, itemCount := ic } k
          ⟨h.getD a []⟩) := by
  simp only [aggStepHeap, aggStep, heapRead_append h vals a idx ha, heapWrite_local, bind,
    Except.bind, pure, Except.pure]
  cases index (h.getD a []) idx with
  | error e => rfl
  | ok x =>
    simp only
    cases store vals ic x with
    | error e => rfl
    | ok w1 => rfl

theorem aggLoopHeap_sim (idx : Nat) (h : Heap) : ∀ (addrs : List Nat) (k : Nat)
    (ret : MetricStatistic) (ic : Nat) (vals : List ℚ), (∀ a ∈ addrs, a < h.length) →
    aggLoopHeap idx h.length k addrs { ret := ret, itemCount := ic, heap := h ++ [vals] }
      = liftAgg h (aggLoop idx k (slotsAt h addrs)
          { ret := ret, values := vals, itemCount := ic }) := by
  intro addrs
  induction addrs with
  | nil => intro k ret ic vals _; rfl
  | cons a rest ih =>
    intro k ret ic vals hwf
    simp only [aggLoopHeap, slotsAt, List.map_cons, aggLoop]
    rw [aggStepHeap_sim idx h ret ic vals k a (hwf a (List.mem_cons_self _ _))]
    cases aggStep idx { ret := ret, values := vals, itemCount := ic } k ⟨h.getD a []⟩ with
    | error e => rfl
    | ok st1 =>
      simp only [liftAgg]
      exact ih (k + 1) st1.ret st1.itemCount st1.values
        (fun b hb => hwf b (List.mem_cons_of_mem _ hb))

theorem stdevLoopHeap_sim (idx : Nat) (avg : ℚ) (h : Heap) (w : List ℚ) :
    ∀ (addrs : List Nat) (acc : ℚ), (∀ a ∈ addrs, a < h.length) →
    stdevLoopHeap idx avg (h ++ [w]) addrs acc = stdevLoop idx avg (slotsAt h addrs) acc := by
  intro addrs
  induction addrs with
  | nil => intro acc _; rfl
  | cons a rest ih =>
    intro acc hwf
    simp only [stdevLoopHeap, slotsAt, List.map_cons, stdevLoop]
    rw [heapRead_append h w a idx (hwf a (List.mem_cons_self _ _))]
    cases index (h.getD a []) idx with
    | error e => rfl
    | ok x => exact ih _ (fun b hb => hwf b (List.mem_cons_of_mem _ hb))

theorem length_slotsAt (h : Heap) (addrs : List Nat) : (slotsAt h addrs).length = addrs.length := by
  simp [slotsAt]

/-- The heap run of `calMetricStatistic` returns what the run on the slots read
off the heap returns, and leaves the heap as it was, followed by one more
array: the local `values`. -/
theorem calMetricStatisticHeap_sim (sqrt : ℚ → ℚ) (inter : List Nat) (idx : Nat)
    (name : String) (secs : ℚ) (metric : List Nat) (h : Heap)
    (hm : ∀ a ∈ metric, a < h.length) (hi : ∀ a ∈ inter, a < h.length) :
    (∀ ret h1, calMetricStatisticHeap sqrt inter idx name secs metric h = .ok (ret, h1) →
      calMetricStatistic sqrt (measurerAt h inter) idx name secs (slotsAt h metric) = .ok ret ∧
      ∃ w, h1 = h ++ [w]) ∧
    (∀ ret, calMetricStatistic sqrt (measurerAt h inter) idx name secs (slotsAt h metric)
        = .ok ret →
      ∃ w, calMetricStatisticHeap sqrt inter idx name secs metric h = .ok (ret, h ++ [w])) := by
  have hloop := aggLoopHeap_sim idx h metric 0
    { Name := name, Total := 0, TotalSeconds := secs, Avg := 0, Min := 0,
      Max := 0, Stdev := 0, PerSec := 0, P90 := 0, P95 := 0 } 0
    (List.replicate metric.length 0) hm
  constructor
  · intro ret h1 hrun
    simp only [calMetricStatisticHeap, heapAlloc, bind, Except.bind, pure, Except.pure,
      hloop] at hrun
    simp only [calMetricStatistic, bind, Except.bind, pure, Except.pure, length_slotsAt]
    cases hagg : aggLoop idx 0 (slotsAt h metric)
        { ret := { Name := name, Total := 0, TotalSeconds := secs, Avg := 0, Min := 0,
                   Max := 0, Stdev := 0, PerSec := 0, P90 := 0, P95 := 0 },
          values := List.replicate metric.length 0, itemCount := 0 } with
    | error e => rw [hagg] at hrun; simp [liftAgg] at hrun
    | ok st =>
      rw [hagg] at hrun
      simp only [liftAgg] at hrun
      dsimp only
      by_cases h0 : st.ret.Total = 0 ∨ st.itemCount = 0
      · rw [if_pos h0] at hrun
        rw [if_pos h0]
        cases hrun
        exact ⟨rfl, _, rfl⟩
      · rw [if_neg h0] at hrun
        rw [if_neg h0]
        rw [stdevLoopHeap_sim idx _ h st.values inter 0 hi] at hrun
        simp only [measurerAt]
        cases hsd : stdevLoop idx (st.ret.Total / (st.itemCount : ℚ)) (slotsAt h inter) 0 with
        | error e => rw [hsd] at hrun; cases hrun
        | ok acc =>
          rw [hsd] at hrun
          simp only [heapSort_local, heapRead_local] at hrun
          cases h90 : index (sortFloat64s st.values) (percentileIndex metric.length 9 10) with
          | error e => rw [h90] at hrun; cases hrun
          | ok p90 =>
            rw [h90] at hrun
            cases h95 : index (sortFloat64s st.values) (percentileIndex metric.length 19 20) with
            | error e => rw [h95] at hrun; cases hrun
            | ok p95 =>
              rw [h95] at hrun
              cases hrun
              exact ⟨rfl, _, rfl⟩
  · intro ret hpure
    simp only [calMetricStatisticHeap, heapAlloc, bind, Except.bind, pure, Except.pure,
      hloop]
    simp only [calMetricStatistic, bind, Except.bind, pure, Except.pure, length_slotsAt]
      at hpure
    cases hagg : aggLoop idx 0 (slotsAt h metric)
        { ret := { Name := name, Total := 0, TotalSeconds := secs, Avg := 0, Min := 0,
                   Max := 0, Stdev := 0, PerSec := 0, P90 := 0, P95 := 0 },
          values := List.replicate metric.length 0, itemCount := 0 } with
    | error e => rw [hagg] at hpure; cases hpure
    | ok st =>
      rw [hagg] at hpure
      dsimp only at hpure
      simp only [liftAgg]
      by_cases h0 : st.ret.Total = 0 ∨ st.itemCount = 0
      · rw [if_pos h0] at hpure
        rw [if_pos h0]
        cases hpure
        exact ⟨_, rfl⟩
      · rw [if_neg h0] at hpure
        rw [if_neg h0]
        rw [stdevLoopHeap_sim idx _ h st.values inter 0 hi]
        simp only [measurerAt] at hpure
        cases hsd : stdevLoop idx (st.ret.Total / (st.itemCount : ℚ)) (slotsAt h inter) 0 with
        | error e => rw [hsd] at hpure; cases hpure
        | ok acc =>
          rw [hsd] at hpure
          simp only [heapSort_local, heapRead_local]
          cases h90 : index (sortFloat64s st.values) (percentileIndex metric.length 9 10) with
          | error e => rw [h90] at hpure; cases hpure
          | ok p90 =>
            rw [h90] at hpure
            cases h95 : index (sortFloat64s st.values) (percentileIndex metric.length 19 20) with
            | error e => rw [h95] at hpure; cases hpure
            | ok p95 =>
              rw [h95] at hpure
              cases hpure
              exact ⟨_, rfl⟩

theorem slotsAt_append (h : Heap) (w : List ℚ) (addrs : List Nat)
    (hwf : ∀ a ∈ addrs, a < h.length) : slotsAt (h ++ [w]) addrs = slotsAt h addrs := by
  unfold slotsAt
  apply List.map_congr_left
  intro a ha
  have hlt := hwf a ha
  rw [List.getD_eq_getElem _ _ hlt,
    List.getD_eq_getElem _ _ (by rw [List.length_append]; omega),
    List.getElem_append_left hlt]

theorem getElem?_append_local (h : Heap) (w : List ℚ) (a : Nat) (ha : a < h.length) :
    (h ++ [w])[a]? = h[a]? :=
  List.getElem?_append_left ha

/-- The sort of the heap model is in place: handed the address of a slot instead
of the local array, it would reorder the slot. -/
theorem heapSort_in_place : heapSort [[3, 1, 2]] 0 = .ok [[1, 2, 3]] := by
  decide!

/-- C16: `calMetricStatistic` leaves every slot it reads unchanged, and a second
run returns the same statistic. On a heap `h` that holds the slots of `metric`
and of `m.interJobMetrics`, a run that returns `ret` leaves the heap `h1` with
every array of `h` as it was (its writes and its sort go to the array it
allocated), and the run repeated on `h1` returns the same `ret` and again leaves
every array of `h` as it was. -/
theorem aggregation_idempotent (sqrt : ℚ → ℚ) (inter : List Nat) (metricIndex : Nat)
    (metricName : String) (totalSeconds : ℚ) (metric : List Nat) (h : Heap)
    (hm : ∀ a ∈ metric, a < h.length) (hi : ∀ a ∈ inter, a < h.length)
    (ret : MetricStatistic) (h1 : Heap)
    (hrun : calMetricStatisticHeap sqrt inter metricIndex metricName totalSeconds metric h
      = .ok (ret, h1)) :
    (∀ a, a < h.length → h1[a]? = h[a]?) ∧
    ∃ h2, calMetricStatisticHeap sqrt inter metricIndex metricName totalSeconds metric h1
        = .ok (ret, h2) ∧
      ∀ a, a < h.length → h2[a]? = h[a]? := by
  obtain ⟨hpure, w, hw⟩ :=
    (calMetricStatisticHeap_sim sqrt inter metricIndex metricName totalSeconds metric h
      hm hi).1 ret h1 hrun
  subst hw
  have hlen : (h ++ [w]).length = h.length + 1 := by simp
  have hm1 : ∀ a ∈ metric, a < (h ++ [w]).length := fun a ha => by
    rw [hlen]; exact Nat.lt_succ_of_lt (hm a ha)
  have hi1 : ∀ a ∈ inter, a < (h ++ [w]).length := fun a ha => by
    rw [hlen]; exact Nat.lt_succ_of_lt (hi a ha)
  have hpure1 : calMetricStatistic sqrt (measurerAt (h ++ [w]) inter) metricIndex metricName
      totalSeconds (slotsAt (h ++ [w]) metric) = .ok ret := by
    simp only [measurerAt]
    rw [slotsAt_append h w metric hm, slotsAt_append h w inter hi]
    exact hpure
  obtain ⟨w2, hw2⟩ :=
    (calMetricStatisticHeap_sim sqrt inter metricIndex metricName totalSeconds metric
      (h ++ [w]) hm1 hi1).2 ret hpure1
  refine ⟨fun a ha => getElem?_append_local h w a ha, _, hw2, fun a ha => ?_⟩
  rw [List.getElem?_append_left (by rw [hlen]; omega)]
  exact getElem?_append_local h w a ha

theorem aggregation_idempotent_witness :
    calMetricStatisticHeap id [0, 1, 2] MetricIndexLatency MetricNameLatency 1 [0, 1, 2]
        heapThree
      = .ok ({ Name := MetricNameLatency, Total := 6, TotalSeconds := 1, Avg := 2, Min := 1,
               Max := 3, Stdev := 2 / 3, PerSec := 0, P90 := 3, P95 := 3 },
             heapThree ++ [[1, 2, 3]]) ∧
    ((∀ a, a < heapThree.length → (heapThree ++ [[1, 2, 3]])[a]? = heapThree[a]?) ∧
      ∃ h2, calMetricStatisticHeap id [0, 1, 2] MetricIndexLatency MetricNameLatency 1
          [0, 1, 2] (heapThree ++ [[1, 2, 3]])
          = .ok ({ Name := MetricNameLatency, Total := 6, TotalSeconds := 1, Avg := 2,
                   Min := 1, Max := 3, Stdev := 2 / 3, PerSec := 0, P90 := 3, P95 := 3 }, h2) ∧
        ∀ a, a < heapThree.length → h2[a]? = heapThree[a]?) :=
  ⟨by decide!,
   aggregation_idempotent id [0, 1, 2] MetricIndexLatency MetricNameLatency 1 [0, 1, 2]
     heapThree (by decide) (by decide) _ _ (by decide!)⟩

/-! ## The average in float64 arithmetic -/

theorem tenth_eq : roundFloat64 (1 / 10) = tenth := by decide!

theorem truncInt_natCast (n : Nat) : truncInt (n : ℚ) = (n : Int) := by
  unfold truncInt
  rw [if_pos (by positivity)]
  have h : ⌊(n : ℚ)⌋ = (n : Int) := Int.floor_natCast n
  exact h

theorem storeInt_eq_store {α : Type} (l : List α) (n : Nat) (a : α) :
    storeInt l (n : Int) a = store l n a := by
  simp [storeInt]

theorem indexInt_eq_index {α : Type} (l : List α) (n : Nat) :
    indexInt l (n : Int) = index l n := by
  simp [indexInt]

theorem truncInt_percentile (n num den : Nat) :
    truncInt ((n : ℚ) * ((num : ℚ) / (den : ℚ))) = (percentileIndex n num den : Int) := by
  unfold truncInt percentileIndex
  rw [if_pos (by positivity), ← mul_div_assoc, ← Nat.cast_mul]
  have h := Rat.floor_intCast_div_natCast ((n * num : Nat) : Int) den
  simp only [Int.cast_natCast] at h
  exact h.trans (by norm_cast)

theorem aggStepFl_id (idx : Nat) (ret : MetricStatistic) (vals : List ℚ) (ic k : Nat)
    (v : JobMetric) :
    aggStepFl id idx { ret := ret, values := vals, itemCount := (ic : ℚ) } k v
      = liftFl (aggStep idx { ret := ret, values := vals, itemCount := ic } k v) := by
  simp only [aggStepFl, aggStep, truncInt_natCast, storeInt_eq_store, bind, Except.bind, pure,
    Except.pure, id]
  cases index v.values idx with
  | error e => rfl
  | ok x =>
    simp only
    cases store vals ic x with
    | error e => rfl
    | ok w => simp [liftFl]

theorem aggLoopFl_id (idx : Nat) : ∀ (metric : List JobMetric) (k : Nat)
    (ret : MetricStatistic) (vals : List ℚ) (ic : Nat),
    aggLoopFl id idx k metric { ret := ret, values := vals, itemCount := (ic : ℚ) }
      = liftFl (aggLoop idx k metric { ret := ret, values := vals, itemCount := ic }) := by
  intro metric
  induction metric with
  | nil => intro k ret vals ic; rfl
  | cons v rest ih =>
    intro k ret vals ic
    simp only [aggLoopFl, aggLoop]
    rw [aggStepFl_id]
    cases aggStep idx { ret := ret, values := vals, itemCount := ic } k v with
    | error e => rfl
    | ok st1 =>
      simp only [liftFl]
      exact ih (k + 1) st1.ret st1.values st1.itemCount

theorem stdevLoopFl_id (idx : Nat) (avg : ℚ) : ∀ (slots : List JobMetric) (acc : ℚ),
    stdevLoopFl id idx avg slots acc = stdevLoop idx avg slots acc := by
  intro slots
  induction slots with
  | nil => intro acc; rfl
  | cons v rest ih =>
    intro acc
    simp only [stdevLoopFl, stdevLoop, id]
    cases index v.values idx with
    | error e => rfl
    | ok x => exact ih _

/-- Without rounding, the floating-point reading of `calMetricStatistic` is the
exact one. -/
theorem calMetricStatisticFl_id (sqrt : ℚ → ℚ) (m : JobMeasurer) (idx : Nat) (name : String)
    (secs : ℚ) (metric : List JobMetric) :
    calMetricStatisticFl id sqrt m idx name secs metric
      = calMetricStatistic sqrt m idx name secs metric := by
  have hloop := aggLoopFl_id idx metric 0
    { Name := name, Total := 0, TotalSeconds := secs, Avg := 0, Min := 0,
      Max := 0, Stdev := 0, PerSec := 0, P90 := 0, P95 := 0 }
    (List.replicate metric.length 0) 0
  simp only [Nat.cast_zero] at hloop
  simp only [calMetricStatisticFl, calMetricStatistic, bind, Except.bind, pure, Except.pure,
    hloop]
  cases aggLoop idx 0 metric
      { ret := { Name := name, Total := 0, TotalSeconds := secs, Avg := 0, Min := 0,
                 Max := 0, Stdev := 0, PerSec := 0, P90 := 0, P95 := 0 },
        values := List.replicate metric.length 0, itemCount := 0 } with
  | error e => rfl
  | ok st =>
    simp only [liftFl, id, Nat.cast_eq_zero, stdevLoopFl_id]
    have h90 := truncInt_percentile metric.length 9 10
    have h95 := truncInt_percentile metric.length 19 20
    push_cast at h90 h95
    rw [h90, h95, indexInt_eq_index, indexInt_eq_index]

/-- One rounded iteration after the first: it succeeds only on a slot that
carries the metric index, `Min` and `Max` take the slot value in, and `Avg` is
left alone. -/
theorem aggStepFl_succ (fl : ℚ → ℚ) (idx : Nat) (st st1 : AggStateFl) (k : Nat) (v : JobMetric)
    (h : aggStepFl fl idx st (k + 1) v = .ok st1) :
    idx < v.values.length ∧ st1.ret.Min = min st.ret.Min (v.values.getD idx 0) ∧
      st1.ret.Max = max st.ret.Max (v.values.getD idx 0) ∧ st1.ret.Avg = st.ret.Avg := by
  have hv : idx < v.values.length := by
    by_contra hlt
    simp [aggStepFl, index_error v.values idx (by omega), bind, Except.bind] at h
  refine ⟨hv, ?_⟩
  simp only [aggStepFl, index_values v idx hv, bind, Except.bind, pure, Except.pure,
    Nat.succ_ne_zero, if_false, gt_iff_lt] at h
  generalize v.values.getD idx 0 = x at h ⊢
  cases hs : storeInt st.values (truncInt st.itemCount) x with
  | error e => rw [hs] at h; cases h
  | ok w =>
    rw [hs] at h
    simp only [Except.ok.injEq] at h
    subst h
    by_cases h1 : x < st.ret.Min
    · by_cases h2 : st.ret.Max < x
      · simp [h1, h2, min_eq_right h1.le, max_eq_right h2.le]
      · simp [h1, h2, min_eq_right h1.le, max_eq_left (not_lt.mp h2)]
    · by_cases h2 : st.ret.Max < x
      · simp [h1, h2, min_eq_left (not_lt.mp h1), max_eq_right h2.le]
      · simp [h1, h2, min_eq_left (not_lt.mp h1), max_eq_left (not_lt.mp h2)]

/-- The first rounded iteration: `Min` and `Max` become the slot value. -/
theorem aggStepFl_zero (fl : ℚ → ℚ) (idx : Nat) (st st1 : AggStateFl) (v : JobMetric)
    (h : aggStepFl fl idx st 0 v = .ok st1) :
    idx < v.values.length ∧ st1.ret.Min = v.values.getD idx 0 ∧
      st1.ret.Max = v.values.getD idx 0 ∧ st1.ret.Avg = st.ret.Avg := by
  have hv : idx < v.values.length := by
    by_contra hlt
    simp [aggStepFl, index_error v.values idx (by omega), bind, Except.bind] at h
  refine ⟨hv, ?_⟩
  simp only [aggStepFl, index_values v idx hv, bind, Except.bind, pure, Except.pure,
    if_true] at h
  cases hs : storeInt st.values (truncInt st.itemCount) (v.values.getD idx 0) with
  | error e => rw [hs] at h; cases h
  | ok w =>
    rw [hs] at h
    simp only [Except.ok.injEq] at h
    subst h
    exact ⟨rfl, rfl, rfl⟩

theorem aggLoopFl_succ (fl : ℚ → ℚ) (idx : Nat) : ∀ (metric : List JobMetric) (k : Nat)
    (st st1 : AggStateFl), aggLoopFl fl idx (k + 1) metric st = .ok st1 →
    st1.ret.Min = (column idx metric).foldl min st.ret.Min ∧
      st1.ret.Max = (column idx metric).foldl max st.ret.Max ∧ st1.ret.Avg = st.ret.Avg := by
  intro metric
  induction metric with
  | nil =>
    intro k st st1 h
    simp only [aggLoopFl, Except.ok.injEq] at h
    subst h
    simp [column]
  | cons v rest ih =>
    intro k st st1 h
    rw [aggLoopFl] at h
    cases hs : aggStepFl fl idx st (k + 1) v with
    | error e => rw [hs] at h; cases h
    | ok st2 =>
      rw [hs] at h
      obtain ⟨_, hmin, hmax, havg⟩ := aggStepFl_succ fl idx st st2 k v hs
      obtain ⟨h1, h2, h3⟩ := ih (k + 1) st2 st1 h
      simp only [column, List.map_cons, List.foldl_cons]
      rw [h1, h2, h3, hmin, hmax, havg]
      exact ⟨rfl, rfl, rfl⟩

/-- Rounding does not touch `Min` and `Max`: after the rounded loop over a
non-empty slot set they are the smallest and the largest value of the metric,
and `Avg` is still the one of the start state. -/
theorem aggLoopFl_zero (fl : ℚ → ℚ) (idx : Nat) (metric : List JobMetric)
    (st st1 : AggStateFl) (hN : 0 < metric.length)
    (h : aggLoopFl fl idx 0 metric st = .ok st1) :
    st1.ret.Min = listMin (column idx metric) ∧ st1.ret.Max = listMax (column idx metric) ∧
      st1.ret.Avg = st.ret.Avg := by
  cases metric with
  | nil => simp at hN
  | cons v rest =>
    rw [aggLoopFl] at h
    cases hs : aggStepFl fl idx st 0 v with
    | error e => rw [hs] at h; cases h
    | ok st2 =>
      rw [hs] at h
      obtain ⟨_, hmin, hmax, havg⟩ := aggStepFl_zero fl idx st st2 v hs
      obtain ⟨h1, h2, h3⟩ := aggLoopFl_succ fl idx rest 0 st2 st1 h
      simp only [column, List.map_cons, listMin, listMax]
      rw [h1, h2, h3, hmin, hmax, havg]
      exact ⟨rfl, rfl, rfl⟩

/-- What a statistic returned by the rounded `calMetricStatistic` for a
non-empty slot set is known to hold under every rounding: the exact smallest
and largest value, and `Avg = 0` when `Total = 0`. -/
theorem calMetricStatisticFl_ok (fl sqrt : ℚ → ℚ) (m : JobMeasurer) (idx : Nat)
    (name : String) (secs : ℚ) (metric : List JobMetric) (ret : MetricStatistic)
    (hN : 0 < metric.length)
    (h : calMetricStatisticFl fl sqrt m idx name secs metric = .ok ret) :
    ret.Min = listMin (column idx metric) ∧ ret.Max = listMax (column idx metric) ∧
      (ret.Total = 0 → ret.Avg = 0) := by
  simp only [calMetricStatisticFl, bind, Except.bind, pure, Except.pure] at h
  cases hagg : aggLoopFl fl idx 0 metric
      { ret := { Name := name, Total := 0, TotalSeconds := secs, Avg := 0, Min := 0,
                 Max := 0, Stdev := 0, PerSec := 0, P90 := 0, P95 := 0 },
        values := List.replicate metric.length 0, itemCount := 0 } with
  | error e => rw [hagg] at h; cases h
  | ok st =>
    rw [hagg] at h
    obtain ⟨hmin, hmax, havg⟩ := aggLoopFl_zero fl idx metric _ st hN hagg
    dsimp only at h havg
    by_cases h0 : st.ret.Total = 0 ∨ st.itemCount = 0
    · rw [if_pos h0] at h
      cases h
      exact ⟨hmin, hmax, fun _ => havg⟩
    · rw [if_neg h0] at h
      cases hsd : stdevLoopFl fl idx (fl (st.ret.Total / st.itemCount)) m.interJobMetrics 0 with
      | error e => rw [hsd] at h; cases h
      | ok acc =>
        rw [hsd] at h
        dsimp only at h
        split at h
        · cases h
        · split at h
          · cases h
          · cases h
            refine ⟨hmin, hmax, fun ht => ?_⟩
            exact absurd (Or.inl ht) h0

theorem min_le_avg_of_exact (xs : List ℚ) (total avg : ℚ) (hN : 0 < xs.length)
    (ht : total = xs.sum) (h0 : total = 0 → avg = 0)
    (ha : total ≠ 0 → avg = total / (xs.length : ℚ)) :
    listMin xs ≤ avg ∧ avg ≤ listMax xs := by
  have hpos : (0 : ℚ) < (xs.length : ℚ) := by exact_mod_cast hN
  have hlo := length_mul_le_sum xs (listMin xs) (listMin_le xs)
  have hhi := sum_le_length_mul xs (listMax xs) (le_listMax xs)
  by_cases hz : total = 0
  · rw [h0 hz]
    rw [← ht, hz] at hlo hhi
    constructor
    · by_contra hc
      push_neg at hc
      have := mul_pos hpos hc
      linarith
    · by_contra hc
      push_neg at hc
      have := mul_neg_of_pos_of_neg hpos hc
      linarith
  · rw [ha hz, ht]
    constructor
    · rw [le_div_iff₀ hpos]; linarith
    · rw [div_le_iff₀ hpos]; linarith

theorem listMin_le_listMax (xs : List ℚ) (h : xs ≠ []) : listMin xs ≤ listMax xs :=
  le_listMax xs _ (listMin_mem xs h)

/-- C4 fails in float64 arithmetic on three slots that hold 0.1: the total is
rounded to 0.30000000000000004 and its third to 0.10000000000000002, so the
returned statistic has `Avg` above `Max`, which is 0.1. -/
theorem avg_exceeds_max_float64 :
    ∃ ret, calMetricStatisticFl roundFloat64 (fun x => x)
        { NewJobMeasurer with interJobMetrics := tenthSlots } 0 MetricNameLatency 1 tenthSlots
        = .ok ret ∧
      ret.Total = 1351079888211149 / 4503599627370496 ∧
      ret.Avg = 7205759403792795 / 72057594037927936 ∧
      ret.Max = 3602879701896397 / 36028797018963968 ∧
      ret.Max < ret.Avg := by
  refine ⟨⟨MetricNameLatency, 1351079888211149 / 4503599627370496, 1,
    7205759403792795 / 72057594037927936, tenth, tenth,
    1 / 5192296858534827628530496329220096, 0, tenth, tenth⟩, by decide!, rfl, rfl, rfl, ?_⟩
  decide!

/-- C4 (amended): under every rounding of the float64 operations, a statistic
that `calMetricStatistic` returns for a non-empty slot set has `Min ≤ Max`; and
it has `Min ≤ Avg ≤ Max` when its `Total` is the exact sum of the values and,
unless that is zero (the early return, which leaves `Avg` at 0), its `Avg` is the
exact quotient of `Total` by the number of slots. -/
theorem min_le_avg_le_max_unrounded (fl sqrt : ℚ → ℚ) (m : JobMeasurer) (idx : Nat)
    (name : String) (secs : ℚ) (metric : List JobMetric) (ret : MetricStatistic)
    (hN : 0 < metric.length)
    (h : calMetricStatisticFl fl sqrt m idx name secs metric = .ok ret) :
    ret.Min ≤ ret.Max ∧
    (ret.Total = (column idx metric).sum →
      (ret.Total ≠ 0 → ret.Avg = ret.Total / (metric.length : ℚ)) →
      ret.Min ≤ ret.Avg ∧ ret.Avg ≤ ret.Max) := by
  obtain ⟨hmin, hmax, havg⟩ := calMetricStatisticFl_ok fl sqrt m idx name secs metric ret hN h
  have hlen : 0 < (column idx metric).length := by rw [length_column]; exact hN
  rw [hmin, hmax]
  refine ⟨listMin_le_listMax _ (List.ne_nil_of_length_pos hlen), fun ht ha => ?_⟩
  refine min_le_avg_of_exact _ ret.Total ret.Avg hlen ht havg ?_
  rw [length_column]
  exact ha

/-- C4 (amended), in float64 arithmetic on the values 3, 1 and 2, whose sum 6 and
average 2 are computed without rounding error. -/
theorem min_le_avg_le_max_unrounded_witness :
    calMetricStatisticFl roundFloat64 (fun x => x)
        { NewJobMeasurer with interJobMetrics := threeSlots } 0 MetricNameLatency 1 threeSlots
      = .ok ⟨MetricNameLatency, 6, 1, 2, 1, 3, 6004799503160661 / 9007199254740992, 0, 3, 3⟩ ∧
    ((1 : ℚ) ≤ 3 ∧ (1 : ℚ) ≤ 2 ∧ (2 : ℚ) ≤ 3) := by
  have h : calMetricStatisticFl roundFloat64 (fun x => x)
      { NewJobMeasurer with interJobMetrics := threeSlots } 0 MetricNameLatency 1 threeSlots
      = .ok ⟨MetricNameLatency, 6, 1, 2, 1, 3, 6004799503160661 / 9007199254740992, 0, 3, 3⟩ := by
    decide!
  have hthm := min_le_avg_le_max_unrounded roundFloat64 (fun x => x)
    { NewJobMeasurer with interJobMetrics := threeSlots } 0 MetricNameLatency 1 threeSlots _
    (by decide) h
  exact ⟨h, hthm.1, hthm.2 (by decide!) (fun _ => by decide!)⟩

/-! ## The float64 rounding function -/

theorem log2Loop_spec : ∀ (fuel n : Nat), 0 < n → n ≤ fuel →
    2 ^ log2Loop fuel n ≤ n ∧ n < 2 ^ (log2Loop fuel n + 1) := by
  intro fuel
  induction fuel with
  | zero => intro n h0 h1; omega
  | succ fuel ih =>
    intro n h0 h1
    rw [log2Loop]
    by_cases h2 : n < 2
    · rw [if_pos h2]
      simp
      omega
    · rw [if_neg h2]
      have hh := ih (n / 2) (by omega) (by omega)
      constructor
      · rw [pow_succ]
        have := Nat.div_mul_le_self n 2
        nlinarith [hh.1]
      · rw [pow_succ]
        have : n < (n / 2 + 1) * 2 := by omega
        nlinarith [hh.2]

theorem log2_spec (n : Nat) (h : 0 < n) : 2 ^ log2 n ≤ n ∧ n < 2 ^ (log2 n + 1) :=
  log2Loop_spec n n h (le_refl n)

theorem pow2_eq_zpow (e : Int) : pow2 e = (2 : ℚ) ^ e := by
  unfold pow2
  by_cases h : 0 ≤ e
  · rw [if_pos h]
    obtain ⟨n, rfl⟩ := Int.eq_ofNat_of_zero_le h
    simp
  · rw [if_neg h]
    obtain ⟨n, hn⟩ := Int.exists_eq_neg_ofNat (by omega : e ≤ 0)
    subst hn
    simp

theorem pow2_pos (e : Int) : 0 < pow2 e := by
  rw [pow2_eq_zpow]
  positivity

theorem pow2_add (a b : Int) : pow2 (a + b) = pow2 a * pow2 b := by
  simp only [pow2_eq_zpow]
  exact zpow_add₀ (by norm_num) a b

/-- The binary exponent brackets the magnitude:
`2 ^ e ≤ |x| < 2 ^ (e + 1)` for `e = exponentOf x`. -/
theorem exponentOf_spec (x : ℚ) (hx : x ≠ 0) :
    pow2 (exponentOf x) ≤ |x| ∧ |x| < pow2 (exponentOf x + 1) := by
  have hnum : 0 < x.num.natAbs := Int.natAbs_pos.mpr (Rat.num_ne_zero.mpr hx)
  have hden : 0 < x.den := x.den_pos
  obtain ⟨ha1, ha2⟩ := log2_spec x.num.natAbs hnum
  obtain ⟨hb1, hb2⟩ := log2_spec x.den hden
  have habs : |x| = (x.num.natAbs : ℚ) / (x.den : ℚ) := by
    conv_lhs => rw [← Rat.num_div_den x]
    rw [abs_div, Nat.abs_cast]
    congr 1
    rw [Nat.cast_natAbs, Int.cast_abs]
  have hdq : (0 : ℚ) < (x.den : ℚ) := by exact_mod_cast hden
  have ha1q : (2 : ℚ) ^ (log2 x.num.natAbs) ≤ (x.num.natAbs : ℚ) := by exact_mod_cast ha1
  have ha2q : (x.num.natAbs : ℚ) < (2 : ℚ) ^ (log2 x.num.natAbs + 1) := by exact_mod_cast ha2
  have hb1q : (2 : ℚ) ^ (log2 x.den) ≤ (x.den : ℚ) := by exact_mod_cast hb1
  have hb2q : (x.den : ℚ) < (2 : ℚ) ^ (log2 x.den + 1) := by exact_mod_cast hb2
  set a := log2 x.num.natAbs
  set b := log2 x.den
  have h2a : (0 : ℚ) < (2 : ℚ) ^ a := by positivity
  have h2b : (0 : ℚ) < (2 : ℚ) ^ b := by positivity
  have hz : ∀ e : Int, pow2 e = (2 : ℚ) ^ e := pow2_eq_zpow
  have hsub : (2 : ℚ) ^ ((a : Int) - (b : Int)) = (2 : ℚ) ^ a / (2 : ℚ) ^ b := by
    rw [zpow_sub₀ (by norm_num)]
    simp
  unfold exponentOf
  simp only
  by_cases hc : pow2 ((a : Int) - (b : Int)) ≤ |x|
  · rw [if_pos hc]
    refine ⟨hc, ?_⟩
    rw [hz, zpow_add₀ (by norm_num), hsub, habs, div_lt_iff₀ hdq]
    have : (2 : ℚ) ^ a / (2 : ℚ) ^ b * (2 : ℚ) ^ (1 : Int) * (x.den : ℚ)
        = (2 : ℚ) ^ (a + 1) * ((x.den : ℚ) / (2 : ℚ) ^ b) := by
      rw [pow_succ]; field_simp
    rw [this]
    have h1 : (1 : ℚ) ≤ (x.den : ℚ) / (2 : ℚ) ^ b := by
      rw [le_div_iff₀ h2b]; linarith
    have h3 : (0 : ℚ) < (2 : ℚ) ^ (a + 1) := by positivity
    nlinarith
  · rw [if_neg hc]
    push_neg at hc
    refine ⟨?_, by simpa using hc⟩
    rw [hz, zpow_sub₀ (by norm_num), hsub, habs, le_div_iff₀ hdq]
    have : (2 : ℚ) ^ a / (2 : ℚ) ^ b / (2 : ℚ) ^ (1 : Int) * (x.den : ℚ)
        = (2 : ℚ) ^ a * ((x.den : ℚ) / (2 : ℚ) ^ (b + 1)) := by
      rw [pow_succ]; field_simp
    rw [this]
    have h1 : (x.den : ℚ) / (2 : ℚ) ^ (b + 1) ≤ 1 := by
      rw [div_le_iff₀ (by positivity)]; linarith
    nlinarith

/-- The value `roundHalfEven q` is an integer nearest to `q`. -/
theorem roundHalfEven_nearest (q : ℚ) (j : Int) :
    |((roundHalfEven q : Int) : ℚ) - q| ≤ |(j : ℚ) - q| := by
  have hf : Rat.floor q = ⌊q⌋ := rfl
  have h1 : ((⌊q⌋ : Int) : ℚ) ≤ q := Int.floor_le q
  have h2 : q < ((⌊q⌋ : Int) : ℚ) + 1 := Int.lt_floor_add_one q
  have hj : j ≤ ⌊q⌋ ∨ ⌊q⌋ + 1 ≤ j := by omega
  have hjq : (j : ℚ) ≤ ((⌊q⌋ : Int) : ℚ) ∨ ((⌊q⌋ : Int) : ℚ) + 1 ≤ (j : ℚ) := by
    rcases hj with h | h
    · left; exact_mod_cast h
    · right; exact_mod_cast h
  unfold roundHalfEven
  simp only [hf]
  split_ifs with c1 c2 c3
  · rw [abs_le]
    rcases hjq with h | h
    · rw [abs_of_nonpos (by linarith)]; constructor <;> linarith
    · rw [abs_of_nonneg (by linarith)]; constructor <;> linarith
  · push_cast
    rw [abs_le]
    rcases hjq with h | h
    · rw [abs_of_nonpos (by linarith)]; constructor <;> linarith
    · rw [abs_of_nonneg (by linarith)]; constructor <;> linarith
  · have hr : q - ((⌊q⌋ : Int) : ℚ) = 1 / 2 := le_antisymm (not_lt.mp c2) (not_lt.mp c1)
    rw [abs_le]
    rcases hjq with h | h
    · rw [abs_of_nonpos (by linarith)]; constructor <;> linarith
    · rw [abs_of_nonneg (by linarith)]; constructor <;> linarith
  · have hr : q - ((⌊q⌋ : Int) : ℚ) = 1 / 2 := le_antisymm (not_lt.mp c2) (not_lt.mp c1)
    push_cast
    rw [abs_le]
    rcases hjq with h | h
    · rw [abs_of_nonpos (by linarith)]; constructor <;> linarith
    · rw [abs_of_nonneg (by linarith)]; constructor <;> linarith

/-- Halfway between two integers `roundHalfEven` takes the even one. -/
theorem roundHalfEven_tie (q : ℚ) (h : q - ((⌊q⌋ : Int) : ℚ) = 1 / 2) :
    roundHalfEven q % 2 = 0 := by
  have hf : Rat.floor q = ⌊q⌋ := rfl
  unfold roundHalfEven
  simp only [hf, h, lt_irrefl, if_false]
  split_ifs with c
  · exact c
  · omega

/-- The value `roundFloat64 x` is a multiple `k * 2 ^ (e - 52)` of the spacing of
the binade of `x`, with `|k| ≤ 2 ^ 53`, and no multiple of that spacing is
nearer to `x`. -/
theorem roundFloat64_nearest (x : ℚ) (hx : x ≠ 0) :
    ∃ k : Int, roundFloat64 x = (k : ℚ) * pow2 (max (exponentOf x) (-1022) - 52) ∧
      |k| ≤ 2 ^ 53 ∧
      ∀ j : Int, |roundFloat64 x - x| ≤
        |(j : ℚ) * pow2 (max (exponentOf x) (-1022) - 52) - x| := by
  set e := max (exponentOf x) (-1022) with he
  have hu : 0 < pow2 (e - 52) := pow2_pos _
  have hr : roundFloat64 x = ((roundHalfEven (x / pow2 (e - 52)) : Int) : ℚ) * pow2 (e - 52) := by
    unfold roundFloat64
    rw [if_neg hx]
  refine ⟨roundHalfEven (x / pow2 (e - 52)), hr, ?_, fun j => ?_⟩
  · -- the scaled magnitude is below 2 ^ 53
    have hlt : |x| < pow2 (e + 1) := by
      have h1 := (exponentOf_spec x hx).2
      have h2 : pow2 (exponentOf x + 1) ≤ pow2 (e + 1) := by
        rw [pow2_eq_zpow, pow2_eq_zpow]
        exact zpow_le_zpow_right₀ (by norm_num) (by rw [he]; have := le_max_left (exponentOf x) (-1022); omega)
      linarith
    have hq : |x / pow2 (e - 52)| < (2 : ℚ) ^ 53 := by
      rw [abs_div, abs_of_pos hu, div_lt_iff₀ hu]
      have : pow2 (e + 1) = (2 : ℚ) ^ 53 * pow2 (e - 52) := by
        have h53 : pow2 53 = (2 : ℚ) ^ 53 := by rw [pow2_eq_zpow]; norm_cast
        rw [← h53, ← pow2_add]
        congr 1
        omega
      linarith
    have hn := roundHalfEven_nearest (x / pow2 (e - 52)) 9007199254740992
    have hn2 := roundHalfEven_nearest (x / pow2 (e - 52)) (-9007199254740992)
    have h53 : (2 : ℚ) ^ 53 = 9007199254740992 := by norm_num
    rw [h53, abs_lt] at hq
    push_cast at hn hn2
    have hk : |((roundHalfEven (x / pow2 (e - 52)) : Int) : ℚ)| ≤ 9007199254740992 := by
      rw [abs_le]
      rw [abs_of_nonneg (by linarith : (0 : ℚ) ≤ 9007199254740992 - x / pow2 (e - 52))] at hn
      rw [abs_of_nonpos (by linarith : -(9007199254740992 : ℚ) - x / pow2 (e - 52) ≤ 0)] at hn2
      have a1 := le_abs_self (((roundHalfEven (x / pow2 (e - 52)) : Int) : ℚ) - x / pow2 (e - 52))
      have a2 := neg_abs_le (((roundHalfEven (x / pow2 (e - 52)) : Int) : ℚ) - x / pow2 (e - 52))
      constructor <;> linarith
    have hk2 : |roundHalfEven (x / pow2 (e - 52))| ≤ 9007199254740992 := by
      exact_mod_cast hk
    norm_num
    exact hk2
  · rw [hr]
    have hn := roundHalfEven_nearest (x / pow2 (e - 52)) j
    have e1 : ∀ k : Int, (k : ℚ) * pow2 (e - 52) - x
        = ((k : ℚ) - x / pow2 (e - 52)) * pow2 (e - 52) := by
      intro k; field_simp
    rw [e1, e1, abs_mul, abs_mul, abs_of_pos hu]
    exact mul_le_mul_of_nonneg_right hn hu.le

/-- Known float64 roundings: an exact tie goes to the even neighbour
(`2 ^ 53 + 1` to `2 ^ 53`, `2 ^ 53 + 3` to `2 ^ 53 + 4`), values that are float64
are left alone, and half the smallest subnormal goes to 0. -/
theorem roundFloat64_examples :
    roundFloat64 9007199254740993 = 9007199254740992 ∧
    roundFloat64 9007199254740995 = 9007199254740996 ∧
    roundFloat64 tenth = tenth ∧ roundFloat64 (-3 / 2) = -3 / 2 ∧
    roundFloat64 (pow2 (-1075)) = 0 ∧ roundFloat64 (pow2 (-1074)) = pow2 (-1074) := by
  decide!

end Measurer
